import Mathlib

/-! Manhattan minimum spanning tree (graphs/manhattan_mst.cpp)

A shallow embedding of the program and a verification of its specification.

Modelling conventions.

* Coordinates and distances are exact integers (`Int`). For integer coordinates
  of absolute value at most `2^51` (`ExactCoords`) every value that the source
  computes from them in `ManhattanDistance` is an integer of at most `2^53`, hence
  a `double`, and a run of the model is a run of the program; beyond that bound
  the `double` sum of the source rounds and the model does not.
  `std::numeric_limits<double>::max()` is the integer `2^1024 - 2^971`.
* A C++ `int` that is either `-1` or a valid index (`all_neighbours[i]`,
  `closest_id`, `parents[i]`) is an `Option Nat`; `none` is `-1`.
* `std::vector` is `List`; reads use `List.getD`.
* `std::sort` is the stable insertion sort (this is what libstdc++ executes on
  ranges of at most 16 elements; on ranges whose keys are pairwise distinct
  every sort gives the same result).
* `assert` failures and the out-of-range access of `Prim` on an empty graph are
  explicit results (`Outcome`).
* `BuildGraph` takes the angle type, the angle increment and the rotation of one
  point by an angle as parameters; what is proved for every value of them holds for
  those of the source, `delta_angle` (the double `M_PI / 8.0`, with `angle +=
  delta_angle` in double arithmetic, rounding included) and `rotatePoint` (the
  formula of the source, with `cosl`, `sinl` and the rounding of long double
  operations as parameters).
-/

namespace Mst

/-! ## Data model -/

/-- Point2D of the source: a pair of coordinates. -/
structure Point2D where
  x : Int
  y : Int
deriving DecidableEq, Repr

instance : Inhabited Point2D := ⟨⟨0, 0⟩⟩

/-- Result of a function that may stop on an `assert` or touch a vector out of range. -/
inductive Outcome (α : Type) where
  | ok : α → Outcome α
  | assertFailed : Outcome α
  | outOfRange : Outcome α
deriving DecidableEq, Repr

/-- The value `std::numeric_limits<double>::max()`, the integer `(2^53 - 1) * 2^971`. -/
def DBL_MAX : Int := Int.ofNat ((2 ^ 53 - 1) <<< 971)

/-- The function `fabs` on exact values. -/
def fabs (a : Int) : Int := if a < 0 then -a else a

/-- ManhattanDistance of the source: `fabs(p1.x - p2.x) + fabs(p1.y - p2.y)`, in exact
  arithmetic; it is the `double` value of the source when the coordinates are integers of
  absolute value at most `2^51` (see `ExactCoords` and `ManhattanDistance_exact`). -/
def ManhattanDistance (point1 point2 : Point2D) : Int :=
  fabs (point1.x - point2.x) + fabs (point1.y - point2.y)

/-- The constant kMaxSize of the source. -/
def kMaxSize : Nat := 5

/-- Read `all_points[i]`. -/
def pt (all_points : List Point2D) (i : Nat) : Point2D := all_points.getD i default

/-- The comparator `all_points[p1].x < all_points[p2].x` of the sorts by x. -/
def lessX (all_points : List Point2D) (p1 p2 : Nat) : Prop :=
  (pt all_points p1).x < (pt all_points p2).x

/-- The comparator `all_points[p1].y < all_points[p2].y` of the sort by y. -/
def lessY (all_points : List Point2D) (p1 p2 : Nat) : Prop :=
  (pt all_points p1).y < (pt all_points p2).y

instance (P : List Point2D) : DecidableRel (lessX P) := fun _ _ => by unfold lessX; infer_instance

instance (P : List Point2D) : DecidableRel (lessY P) := fun _ _ => by unfold lessY; infer_instance

/-- Insert one element into a sorted list, behind every element that is not greater
  (the inner loop of insertion sort, comparator `lt`). -/
def sortInsert (lt : Nat → Nat → Prop) [DecidableRel lt] (a : Nat) : List Nat → List Nat
  | [] => [a]
  | b :: l => if lt a b then a :: b :: l else b :: sortInsert lt a l

/-- Model of std::sort with a strict comparator: stable insertion sort. The elements are
  inserted one after the other, first to last, each behind the elements not greater. -/
def stdSort (lt : Nat → Nat → Prop) [DecidableRel lt] (l : List Nat) : List Nat :=
  l.foldl (fun acc a => sortInsert lt a acc) []

/-- Replace the range `[l, r)` of a vector by `seg` (of the same length). -/
def putRange (points : List Nat) (l r : Nat) (seg : List Nat) : List Nat :=
  points.take l ++ seg ++ points.drop r

/-- The range `[l, r)` of a vector. -/
def getRange (points : List Nat) (l r : Nat) : List Nat :=
  (points.drop l).take (r - l)

/-! ## Merge -/

/-- Inner recursion of `Merge`: the head `a` of the first sequence against the second. -/
def MergeAux (P : List Point2D) (a : Nat) (rest : List Nat → List Nat) : List Nat → List Nat
  | [] => a :: rest []
  | b :: l2 => if (pt P a).y < (pt P b).y then a :: rest (b :: l2) else b :: MergeAux P a rest l2

/-- Merge of the source: while both sequences are non-empty, the head of the first is
  written when its y is strictly smaller, otherwise the head of the second; then the
  remainders are copied. -/
def Merge (P : List Point2D) : List Nat → List Nat → List Nat
  | [], l2 => l2
  | a :: l1, l2 => MergeAux P a (Merge P l1) l2

/-! ## UpdateNeighbour -/

/-- UpdateNeighbour of the source. For `new_neighbour = -1` the source evaluates
  `all_points[-1]` in its first test (an out-of-range read); whatever that test gives,
  the table is left as it is, because the second test `new_neighbour >= 0` fails. -/
def UpdateNeighbour (all_points : List Point2D) (all_neighbours : List (Option Nat))
    (id : Nat) (new_neighbour : Option Nat) : List (Option Nat) :=
  match new_neighbour with
  | none => all_neighbours
  | some c =>
    if (pt all_points id).x > (pt all_points c).x ∨ (pt all_points id).y > (pt all_points c).y then
      all_neighbours
    else
      match all_neighbours.getD id none with
      | some cur =>
        let cur_dist := ManhattanDistance (pt all_points id) (pt all_points cur)
        let new_dist := ManhattanDistance (pt all_points id) (pt all_points c)
        if new_dist < cur_dist then all_neighbours.set id (some c) else all_neighbours
      | none => all_neighbours.set id (some c)

/-! ## BruteNENeighbours -/

/-- One step of the inner loop of BruteNENeighbours: candidate `j` for point `i`. -/
def bruteStep (points : List Point2D) (i : Nat) (acc : Int × Option Nat) (j : Nat) :
    Int × Option Nat :=
  if i = j ∨ (pt points j).x < (pt points i).x ∨ (pt points j).y < (pt points i).y then acc
  else
    let dist := ManhattanDistance (pt points i) (pt points j)
    if dist < acc.1 then (dist, some j) else acc

/-- The inner loop of BruteNENeighbours for point `i`: `(min_dist, closest_id)`. -/
def bruteScan (points : List Point2D) (i : Nat) : Int × Option Nat :=
  (List.range points.length).foldl (bruteStep points i) (DBL_MAX, none)

/-- The body of the outer loop of BruteNENeighbours for point `i`. -/
def bruteBody (points : List Point2D) (all_neighbours : List (Option Nat)) (i : Nat) :
    List (Option Nat) :=
  let r := bruteScan points i
  match r.2, all_neighbours.getD i none with
  | some closest_id, some cur =>
    let dist := ManhattanDistance (pt points i) (pt points cur)
    if r.1 < dist then all_neighbours.set i (some closest_id) else all_neighbours
  | some closest_id, none => all_neighbours.set i (some closest_id)
  | none, _ => all_neighbours

/-- BruteNENeighbours of the source, on the neighbour table `all_neighbours`. -/
def BruteNENeighbours (points : List Point2D) (all_neighbours : List (Option Nat)) :
    List (Option Nat) :=
  (List.range points.length).foldl (bruteBody points) all_neighbours

/-! ## FindNENeighbours -/

/-- One step of the inner loop of the base case: candidate position `j` for position `i`. -/
def baseStep (all_points : List Point2D) (points : List Nat) (i : Nat)
    (acc : Int × Option Nat) (j : Nat) : Int × Option Nat :=
  if points.getD i 0 = points.getD j 0
      ∨ (pt all_points (points.getD j 0)).x < (pt all_points (points.getD i 0)).x
      ∨ (pt all_points (points.getD j 0)).y < (pt all_points (points.getD i 0)).y then acc
  else
    let dist := ManhattanDistance (pt all_points (points.getD i 0)) (pt all_points (points.getD j 0))
    if dist < acc.1 then (dist, some (points.getD j 0)) else acc

/-- The inner loop `for (j = l; j < r; ++j)` of the base case: `(min_dist, closest_id)`. -/
def baseScan (all_points : List Point2D) (points : List Nat) (l r i : Nat) : Int × Option Nat :=
  (List.range' l (r - l)).foldl (baseStep all_points points i) (DBL_MAX, none)

/-- The body of the outer loop of the base case for position `i`. -/
def baseBody (all_points : List Point2D) (points : List Nat) (l r : Nat)
    (all_neighbours : List (Option Nat)) (i : Nat) : List (Option Nat) :=
  UpdateNeighbour all_points all_neighbours (points.getD i 0) (baseScan all_points points l r i).2

/-- The base case of FindNENeighbours (`r - l < kMaxSize`): the quadratic scan, then the
  sort of the range by y. -/
def baseCase (all_points : List Point2D) (points : List Nat) (all_neighbours : List (Option Nat))
    (l r : Nat) : List Nat × List (Option Nat) :=
  ((putRange points l r (stdSort (lessY all_points) (getRange points l r))),
   (List.range' l (r - l)).foldl (baseBody all_points points l r) all_neighbours)

/-- The first loop of the sweep, `while (left >= 0 && R[min_id].y < L[left].y) --left`.
  The argument and the result are `left + 1`. -/
def skipLeft (P : List Point2D) (L R : List Nat) (min_id : Nat) : Nat → Nat
  | 0 => 0
  | left + 1 =>
    if (pt P (R.getD min_id 0)).y < (pt P (L.getD left 0)).y then skipLeft P L R min_id left
    else left + 1

/-- State of the sweep: the table, `left + 1`, `min_id` and `min_dist`. -/
structure Sweep where
  nb : List (Option Nat)
  left1 : Nat
  min_id : Nat
  min_dist : Int
deriving DecidableEq, Repr

/-- The inner loop of the sweep,
  `while (left >= 0 && R[right].y < L[left].y) { UpdateNeighbour(L[left], R[min_id]); --left; ... }`.
  The first argument is `left + 1`. -/
def sweepInner (P : List Point2D) (L R : List Nat) (right min_id : Nat) :
    Nat → List (Option Nat) → Int → List (Option Nat) × Nat × Int
  | 0, nb, min_dist => (nb, 0, min_dist)
  | left + 1, nb, min_dist =>
    if (pt P (R.getD right 0)).y < (pt P (L.getD left 0)).y then
      sweepInner P L R right min_id left
        (UpdateNeighbour P nb (L.getD left 0) (some (R.getD min_id 0)))
        (match left with
          | 0 => min_dist
          | k + 1 => ManhattanDistance (pt P (L.getD k 0)) (pt P (R.getD min_id 0)))
    else (nb, left + 1, min_dist)

/-- The outer loop of the sweep, `while (right > 0 && left >= 0) { --right; ... }`; the first
  argument is `right`. -/
def sweepOuter (P : List Point2D) (L R : List Nat) : Nat → Sweep → Sweep
  | 0, st => st
  | right + 1, st =>
    match st.left1 with
    | 0 => st
    | _ + 1 =>
      let r := sweepInner P L R right st.min_id st.left1 st.nb st.min_dist
      match r.2.1 with
      | 0 => sweepOuter P L R right ⟨r.1, 0, st.min_id, r.2.2⟩
      | left + 1 =>
        let cur_dist := ManhattanDistance (pt P (L.getD left 0)) (pt P (R.getD right 0))
        if cur_dist < r.2.2 then sweepOuter P L R right ⟨r.1, left + 1, right, cur_dist⟩
        else sweepOuter P L R right ⟨r.1, left + 1, st.min_id, r.2.2⟩

/-- The last loop of the sweep, `while (left >= 0) { UpdateNeighbour(L[left], R[min_id]); --left; }`;
  the argument is `left + 1`. -/
def sweepRest (P : List Point2D) (L R : List Nat) (min_id : Nat) :
    Nat → List (Option Nat) → List (Option Nat)
  | 0, nb => nb
  | left + 1, nb =>
    sweepRest P L R min_id left (UpdateNeighbour P nb (L.getD left 0) (some (R.getD min_id 0)))

/-- The cross-boundary part of the recursive case, from the copies `left_points` and
  `right_points` up to the last `UpdateNeighbour`. -/
def sweep (P : List Point2D) (L R : List Nat) (nb : List (Option Nat)) : List (Option Nat) :=
  let min_id := R.length - 1
  let left1 := skipLeft P L R min_id L.length
  let min_dist : Int :=
    match left1 with
    | 0 => -1
    | left + 1 => ManhattanDistance (pt P (L.getD left 0)) (pt P (R.getD min_id 0))
  let st := sweepOuter P L R (R.length - 1) ⟨nb, left1, min_id, min_dist⟩
  sweepRest P L R st.min_id st.left1 st.nb

/-- The work of the recursive case after the two recursive calls. -/
def combine (all_points : List Point2D) (points : List Nat) (all_neighbours : List (Option Nat))
    (l r : Nat) : List Nat × List (Option Nat) :=
  let left_points := getRange points l (l + (r - l) / 2)
  let right_points := getRange points (l + (r - l) / 2) r
  (putRange points l r (Merge all_points left_points right_points),
   sweep all_points left_points right_points all_neighbours)

/-- FindNENeighbours with a bound on the depth of the recursion. -/
def FindNENeighboursAux (all_points : List Point2D) :
    Nat → List Nat × List (Option Nat) → Nat → Nat → List Nat × List (Option Nat)
  | fuel, st, l, r =>
    if r - l < kMaxSize then baseCase all_points st.1 st.2 l r
    else
      match fuel with
      | 0 => st
      | fuel + 1 =>
        let st1 := FindNENeighboursAux all_points fuel st l (l + (r - l) / 2)
        let st2 := FindNENeighboursAux all_points fuel st1 (l + (r - l) / 2) r
        combine all_points st2.1 st2.2 l r

/-- FindNENeighbours of the source on the state `(points, all_neighbours)`. The recursion
  of the source is on the size of the range; the depth bound `r - l` is never reached
  (see `FindNENeighbours_eq`). -/
def FindNENeighbours (all_points : List Point2D) (st : List Nat × List (Option Nat))
    (l r : Nat) : List Nat × List (Option Nat) :=
  FindNENeighboursAux all_points (r - l) st l r

/-- The x-sorted index vector that CheckNENeighbours and BuildGraph hand to FindNENeighbours. -/
def sortedIndices (all_points : List Point2D) : List Nat :=
  stdSort (lessX all_points) (List.range all_points.length)

/-! ## CheckNENeighbours -/

/-- The checks of the last loop of CheckNENeighbours for point `i`; `EPS` is `1E-6`. -/
def checkPoint (all_points : List Point2D) (tmp all_neighbours : List (Option Nat)) (i : Nat) :
    Bool :=
  match all_neighbours.getD i none, tmp.getD i none with
  | none, t => t.isNone
  | some _, none => false
  | some a, some t =>
    decide (fabs (ManhattanDistance (pt all_points i) (pt all_points a)
      - ManhattanDistance (pt all_points i) (pt all_points t)) * 1000000 < 1)

/-- CheckNENeighbours of the source: `ok` when every assertion holds. -/
def CheckNENeighbours (all_points : List Point2D) : Outcome Unit :=
  let tmp := BruteNENeighbours all_points (List.replicate all_points.length none)
  let res := FindNENeighbours all_points
    (sortedIndices all_points, List.replicate all_points.length none) 0 all_points.length
  if (List.range all_points.length).all (checkPoint all_points tmp res.2) then Outcome.ok ()
  else Outcome.assertFailed

/-! ## BuildGraph -/

/-- The adjacency structure `std::vector<std::vector<std::pair<int, double>>>`. -/
abbrev Graph := List (List (Nat × Int))

/-- The statement `g[i].push_back(e)`. -/
def pushBack (g : Graph) (i : Nat) (e : Nat × Int) : Graph :=
  g.set i (g.getD i [] ++ [e])

/-- The body of the edge loop of BuildGraph for point `i`, after the points are restored. -/
def addEdge (all_points : List Point2D) (all_neighbours : List (Option Nat)) (g : Graph)
    (i : Nat) : Graph :=
  match all_neighbours.getD i none with
  | none => g
  | some neighbour_id =>
    if (g.getD i []).any (fun e => e.1 == neighbour_id) then g
    else
      let dist := ManhattanDistance (pt all_points i) (pt all_points neighbour_id)
      pushBack (pushBack g i (neighbour_id, dist)) neighbour_id (i, dist)

/-- The variables that BuildGraph works on: the globals `all_points` and `all_neighbours`,
  the local `angle` and the graph `g`. -/
structure BuildState (A : Type) where
  all_points : List Point2D
  all_neighbours : List (Option Nat)
  angle : A
  g : Graph

/-- One pass of the rotation loop of BuildGraph. `delta_angle` stands for `M_PI / 8.0` and
  `rotate angle p` for the point `(x * cosl(angle) - y * sinl(angle),
  x * sinl(angle) + y * cosl(angle))` computed from `p = (x, y)`. -/
def BuildGraphPass {A : Type} [Add A] (delta_angle : A) (rotate : A → Point2D → Point2D)
    (st : BuildState A) : BuildState A :=
  let angle := st.angle + delta_angle
  let tpoints := st.all_points
  let rotated := st.all_points.map (rotate angle)
  let points := sortedIndices rotated
  let cleared : List (Option Nat) := List.replicate rotated.length none
  let found := FindNENeighbours rotated (points, cleared) 0 rotated.length
  let all_points := tpoints
  { all_points := all_points
    all_neighbours := found.2
    angle := angle
    g := (List.range all_points.length).foldl (addEdge all_points found.2) st.g }

/-- The state of BuildGraph after `k` passes of the rotation loop. -/
def BuildGraphLoop {A : Type} [Add A] [Zero A] (delta_angle : A)
    (rotate : A → Point2D → Point2D) (all_points : List Point2D)
    (all_neighbours : List (Option Nat)) : Nat → BuildState A
  | 0 => { all_points := all_points
           all_neighbours := all_neighbours
           angle := 0
           g := List.replicate all_points.length [] }
  | k + 1 => BuildGraphPass delta_angle rotate
      (BuildGraphLoop delta_angle rotate all_points all_neighbours k)

/-- BuildGraph of the source: 16 passes, then the assertion that no adjacency list is
  empty. `all_neighbours` is the value of the global table on entry. -/
def BuildGraph {A : Type} [Add A] [Zero A] (delta_angle : A)
    (rotate : A → Point2D → Point2D) (all_points : List Point2D)
    (all_neighbours : List (Option Nat)) : Outcome (BuildState A) :=
  let st := BuildGraphLoop delta_angle rotate all_points all_neighbours 16
  if st.g.all (fun adj => decide (adj.length > 0)) then Outcome.ok st else Outcome.assertFailed

/-! ## Prim -/

/-- The order of `std::pair<double, int>`: by distance, then by index. -/
def pairLt (a b : Int × Nat) : Prop := a.1 < b.1 ∨ (a.1 = b.1 ∧ a.2 < b.2)

instance : DecidableRel pairLt := fun _ _ => by unfold pairLt; infer_instance

/-- The operation `s.insert(p)` on a `std::set`, kept as a strictly increasing list. -/
def setInsert (p : Int × Nat) : List (Int × Nat) → List (Int × Nat)
  | [] => [p]
  | q :: s => if pairLt p q then p :: q :: s else if p = q then q :: s else q :: setInsert p s

/-- The variables of Prim: the set `s`, `dists` and `parents`. -/
structure PrimState where
  s : List (Int × Nat)
  dists : List Int
  parents : List (Option Nat)
deriving DecidableEq, Repr

/-- The body of the loop over `g[u]` in Prim for the entry `e = g[u][i]`. -/
def primRelax (u : Nat) (st : PrimState) (e : Nat × Int) : PrimState :=
  if st.dists.getD e.1 0 < e.2 then st
  else if (st.dists.getD e.1 0, e.1) ∈ st.s then
    { s := setInsert (e.2, e.1) (st.s.erase (st.dists.getD e.1 0, e.1))
      dists := st.dists.set e.1 e.2
      parents := st.parents.set e.1 (some u) }
  else st

/-- One iteration of `while (!s.empty())` in Prim, where `(d, u)` is `*s.begin()` and
  `rest` is the set after `s.erase(s.begin())`. -/
def primStep (g : Graph) (st : PrimState) (u : Nat) (rest : List (Int × Nat)) : PrimState :=
  (g.getD u []).foldl (primRelax u) { st with s := rest }

/-- The loop `while (!s.empty())` of Prim, run for at most the given number of iterations. -/
def primLoop (g : Graph) : Nat → PrimState → PrimState
  | 0, st => st
  | k + 1, st =>
    match st.s with
    | [] => st
    | p :: rest => primLoop g k (primStep g st p.2 rest)

/-- The state of Prim before its main loop: `parents.assign`, `dists[0] = 0`, the first
  `s.insert`, and the loop `for (i = 1; i < g.size(); ++i)`. -/
def primInit (g : Graph) : PrimState :=
  (List.range' 1 (g.length - 1)).foldl
    (fun st i =>
      { st with
        s := setInsert ((st.dists.set i DBL_MAX).getD i 0, i) st.s
        dists := st.dists.set i DBL_MAX })
    { s := setInsert (((List.replicate g.length (0 : Int)).set 0 0).getD 0 0, 0) []
      dists := (List.replicate g.length (0 : Int)).set 0 0
      parents := List.replicate g.length none }

/-- The state of Prim after its main loop. The loop removes one element of `s` per
  iteration, so `g.size()` iterations empty the set (see `primRun_s`). -/
def primRun (g : Graph) : PrimState := primLoop g g.length (primInit g)

/-- Prim of the source. With an empty graph the source writes `dists[0]` and reads `g[0]`
  out of range; otherwise the result is `parents` when the final assertion holds. -/
def Prim (g : Graph) : Outcome (List (Option Nat)) :=
  if g.length = 0 then Outcome.outOfRange
  else
    let st := primRun g
    if (List.range' 1 (st.parents.length - 1)).all (fun i => (st.parents.getD i none).isSome) then
      Outcome.ok st.parents
    else Outcome.assertFailed

/-! ## GetTreeWeight, BrutePrim, ManhattanMST -/

/-- GetTreeWeight of the source. -/
def GetTreeWeight (all_points : List Point2D) (parents : List (Option Nat)) : Int :=
  (List.range parents.length).foldl (fun total_weight i =>
    match parents.getD i none with
    | some p => total_weight + ManhattanDistance (pt all_points i) (pt all_points p)
    | none => total_weight) 0

/-- The body of the inner loop of BrutePrim for the pair `(i, j)`. -/
def bruteEdge (all_points : List Point2D) (i : Nat) (g : Graph) (j : Nat) : Graph :=
  if i = j then g
  else
    let dist := ManhattanDistance (pt all_points i) (pt all_points j)
    pushBack (pushBack g i (j, dist)) j (i, dist)

/-- The complete graph that BrutePrim builds. -/
def bruteGraph (all_points : List Point2D) : Graph :=
  (List.range all_points.length).foldl (fun g i =>
    (List.range all_points.length).foldl (bruteEdge all_points i) g)
    (List.replicate all_points.length [])

/-- BrutePrim of the source: the parents written to the file and the weight printed. -/
def BrutePrim (all_points : List Point2D) : Outcome (List (Option Nat) × Int) :=
  match Prim (bruteGraph all_points) with
  | Outcome.ok parents => Outcome.ok (parents, GetTreeWeight all_points parents)
  | Outcome.assertFailed => Outcome.assertFailed
  | Outcome.outOfRange => Outcome.outOfRange

/-- ManhattanMST of the source: the graph and parents written to the files and the
  weight printed. -/
def ManhattanMST {A : Type} [Add A] [Zero A] (delta_angle : A)
    (rotate : A → Point2D → Point2D) (all_points : List Point2D)
    (all_neighbours : List (Option Nat)) : Outcome (Graph × List (Option Nat) × Int) :=
  match BuildGraph delta_angle rotate all_points all_neighbours with
  | Outcome.ok st =>
    match Prim st.g with
    | Outcome.ok parents => Outcome.ok (st.g, parents, GetTreeWeight st.all_points parents)
    | Outcome.assertFailed => Outcome.assertFailed
    | Outcome.outOfRange => Outcome.outOfRange
  | Outcome.assertFailed => Outcome.assertFailed
  | Outcome.outOfRange => Outcome.outOfRange

/-! ## Inputs of the concrete scenarios -/

/-- The four points of the concrete scenario of the specification. -/
def scenarioPoints : List Point2D := [⟨0, 0⟩, ⟨1, 1⟩, ⟨2, 0⟩, ⟨0, 2⟩]

/-- Five points on one vertical line, listed from top to bottom. -/
def columnPoints : List Point2D := [⟨0, 4⟩, ⟨0, 3⟩, ⟨0, 2⟩, ⟨0, 1⟩, ⟨0, 0⟩]

/-- The candidate graph that every pass builds from five coincident points. -/
def fiveGraph : Graph := [[(1, 0)], [(0, 0)], [(3, 0), (4, 0)], [(2, 0)], [(2, 0)]]

/-- The candidate graph of two coincident points. -/
def pairGraph : Graph := [[(1, 0)], [(0, 0)]]

/-! ## Notions used in the statements -/

/-- Every entry of the table is none or a point index other than its own. -/
def ValidTable (n : Nat) (nb : List (Option Nat)) : Prop :=
  nb.length = n ∧ ∀ i j, nb.getD i none = some j → j < n ∧ j ≠ i

/-- The invariant of the candidate graph for the point store `P`: one list per point, every
  entry `(j, w)` of `g[i]` has `j` in range and other than `i`, is mirrored by `(i, w)` in
  `g[j]`, carries the Manhattan distance of the points `i` and `j` of `P`, and no list names
  a neighbour twice. -/
def GraphInv (P : List Point2D) (g : Graph) : Prop :=
  g.length = P.length
  ∧ (∀ i, ∀ e ∈ g.getD i [], e.1 < P.length ∧ e.1 ≠ i ∧ (i, e.2) ∈ g.getD e.1 []
      ∧ e.2 = ManhattanDistance (pt P i) (pt P e.1))
  ∧ ∀ i, ((g.getD i []).map Prod.fst).Nodup

/-- The exact rotation of a point by `k` quarter turns (cosine and sine are 0, 1 or -1). -/
def quarterTurns (k : Nat) (p : Point2D) : Point2D :=
  match k % 4 with
  | 0 => p
  | 1 => ⟨-p.y, p.x⟩
  | 2 => ⟨-p.x, -p.y⟩
  | _ => ⟨p.y, -p.x⟩

/-- Every target of an adjacency list is a vertex of the graph. -/
def WellFormed (g : Graph) : Prop := ∀ u, ∀ e ∈ g.getD u [], e.1 < g.length

/-- The position of a vertex in the order of extraction (the length of the order for a
  vertex not extracted). -/
abbrev pos (ord : List Nat) (v : Nat) : Nat := ord.indexOf v

/-- The invariant of the main loop of Prim, for the graph `g`, the state `st` and the list
  `ord` of the vertices extracted so far, in the order of their extraction. -/
structure PrimInv (g : Graph) (n : Nat) (st : PrimState) (ord : List Nat) : Prop where
  -- sizes, and the targets of the adjacency lists are vertices
  len_g : g.length = n
  wf : ∀ u, ∀ e ∈ g.getD u [], e.1 < n
  len_d : st.dists.length = n
  len_p : st.parents.length = n
  -- the order of extraction: distinct vertices, vertex 0 first
  nodup : ord.Nodup
  lt_n : ∀ v ∈ ord, v < n
  zero : ord ≠ [] → ord.head? = some 0
  d0 : ord = [] → st.dists.getD 0 0 = 0
  -- the set is strictly increasing and holds the pair (dists[v], v) of every vertex not
  -- extracted, and nothing else
  sorted : st.s.Pairwise pairLt
  mem_s : ∀ d v, (d, v) ∈ st.s ↔ (v < n ∧ v ∉ ord ∧ d = st.dists.getD v 0)
  -- vertex 0 has no parent; any other vertex either has none and the distance DBL_MAX, or
  -- hangs from a vertex extracted before it by an entry of weight dists[v]
  par0 : st.parents.getD 0 none = none
  par : ∀ v, v < n → v ≠ 0 →
    (st.parents.getD v none = none ∧ st.dists.getD v 0 = DBL_MAX)
    ∨ ∃ p, st.parents.getD v none = some p ∧ pos ord p < pos ord v
        ∧ (v, st.dists.getD v 0) ∈ g.getD p []
  -- dists[y] is at most the weight of every entry that leads from an extracted vertex to
  -- the vertex y not extracted
  key : ∀ x ∈ ord, ∀ e ∈ g.getD x [], e.1 ∉ ord → st.dists.getD e.1 0 ≤ e.2
  -- when v was extracted, dists[v] was at most the weight of every entry leading from a
  -- vertex extracted before v to a vertex not extracted before v
  cert : ∀ v ∈ ord, ∀ x, pos ord x < pos ord v → ∀ e ∈ g.getD x [],
    ¬ pos ord e.1 < pos ord v → st.dists.getD v 0 ≤ e.2

/-- The vertex reached from `i` by following the parent relation `k` times, if there is
  one. -/
def ancestor (parents : List (Option Nat)) : Nat → Nat → Option Nat
  | 0, i => some i
  | k + 1, i =>
    match parents.getD i none with
    | some p => ancestor parents k p
    | none => none

/-- WellFormed as a computation. -/
def wellFormedCheck (g : Graph) : Bool :=
  g.all (fun adj => adj.all (fun e => decide (e.1 < g.length)))

/-- Mirrored adjacency lists: every entry `(v, w)` of `g[u]` has the entry `(u, w)` in
  `g[v]`. -/
def Mirrored (g : Graph) : Prop := ∀ u, ∀ e ∈ g.getD u [], (u, e.2) ∈ g.getD e.1 []

/-- Every weight is below the double maximum. -/
def WeightsBelowMax (g : Graph) : Prop := ∀ u, ∀ e ∈ g.getD u [], e.2 < DBL_MAX

/-- The vertex `b` is named in the adjacency list of `a`. -/
def Adjacent (g : Graph) (a b : Nat) : Prop := ∃ w, (b, w) ∈ g.getD a []

/-- Every vertex can be reached from vertex 0 along adjacency lists. -/
def Connected (g : Graph) : Prop :=
  ∀ v, v < g.length → Relation.ReflTransGen (Adjacent g) 0 v

/-- An edge `(u, v, w)`: the entry `(v, w)` of `g[u]`. -/
abbrev Edge := Nat × Nat × Int

/-- Two vertices are joined by an edge of the list, in either direction. -/
def Joined (T : List Edge) (a b : Nat) : Prop := ∃ w, (a, b, w) ∈ T ∨ (b, a, w) ∈ T

/-- A spanning tree of `g`: a list of `n - 1` edges of `g` that joins every vertex to
  vertex 0. -/
def IsSpanningTree (g : Graph) (T : List Edge) : Prop :=
  (∀ e ∈ T, (e.2.1, e.2.2) ∈ g.getD e.1 [])
  ∧ T.length + 1 = g.length
  ∧ ∀ v, v < g.length → Relation.ReflTransGen (Joined T) 0 v

/-- The total weight of a list of edges. -/
def treeWeight (T : List Edge) : Int := (T.map (fun e => e.2.2)).sum

/-- The weight of the edge from `u` to `v` in `g`: the least weight of an entry `(v, w)` of
  `g[u]` (parallel edges are allowed), the double maximum if there is none. -/
def edgeWeight (g : Graph) (u v : Nat) : Int :=
  (((g.getD u []).filter (fun e => e.1 = v)).map Prod.snd).foldr min DBL_MAX

/-- The edges `{i, parents[i]}` for `i != 0` of a parent assignment, with their weights in
  `g`. -/
def primTree (g : Graph) (parents : List (Option Nat)) : List Edge :=
  (List.range' 1 (parents.length - 1)).filterMap
    (fun i => (parents.getD i none).map (fun p => (p, i, edgeWeight g p i)))

/-- Mirrored as a computation. -/
def mirroredCheck (g : Graph) : Bool :=
  (List.range g.length).all (fun u => (g.getD u []).all
    (fun e => decide ((u, e.2) ∈ g.getD e.1 [])))

/-- WeightsBelowMax as a computation. -/
def weightsCheck (g : Graph) : Bool :=
  g.all (fun adj => adj.all (fun e => decide (e.2 < DBL_MAX)))

/-- A sufficient test for Connected: every vertex other than 0 is named in the adjacency
  list of a vertex of smaller index. -/
def connectedCheck (g : Graph) : Bool :=
  (List.range g.length).all (fun v => v == 0 ||
    (List.range v).any (fun u => (g.getD u []).any (fun e => e.1 == v)))

/-- The store that a pass of BuildGraph hands to FindNENeighbours: every point of the
  store rotated by the angle of the pass, `angle + delta_angle`. -/
def rotatedStore {A : Type} [Add A] (delta_angle : A) (rotate : A → Point2D → Point2D)
    (st : BuildState A) : List Point2D :=
  st.all_points.map (rotate (st.angle + delta_angle))

/-- The update rule in the words of the specification: the candidate `c` replaces the
  current best of `id` when it is weakly north-east of `id` and either there is no current
  best or the distance to `c` is strictly smaller than the distance to the current best. -/
def shouldReplace (P : List Point2D) (nb : List (Option Nat)) (id c : Nat) : Bool :=
  decide ((pt P c).x ≥ (pt P id).x ∧ (pt P c).y ≥ (pt P id).y)
  && (match nb.getD id none with
      | none => true
      | some cur =>
        decide (ManhattanDistance (pt P id) (pt P c) < ManhattanDistance (pt P id) (pt P cur)))

/-- The indices at which UpdateNeighbour reads `all_points` in its first test,
  `all_points[id].x > all_points[new_neighbour].x`; the candidate none is the index -1. -/
def UpdateNeighbourReads (id : Nat) (new_neighbour : Option Nat) : List Int :=
  [Int.ofNat id,
   match new_neighbour with
   | some c => Int.ofNat c
   | none => -1]

/-- The indices at which the calls of UpdateNeighbour in the base case of
  FindNENeighbours read `all_points`, in the order of the calls. -/
def baseUpdateReads (all_points : List Point2D) (points : List Nat) (l r : Nat) : List Int :=
  (List.range' l (r - l)).foldl
    (fun acc i =>
      acc ++ UpdateNeighbourReads (points.getD i 0) (baseScan all_points points l r i).2) []

/-- The nesting depth of the recursive calls of FindNENeighbours below a call on a range
  of `n` elements, with a bound on the depth. -/
def recursionDepthAux : Nat → Nat → Nat
  | 0, _ => 0
  | fuel + 1, n =>
    if n < kMaxSize then 0
    else 1 + max (recursionDepthAux fuel (n / 2)) (recursionDepthAux fuel (n - n / 2))

/-- The nesting depth of the recursive calls of FindNENeighbours below a call on a range
  of `n` elements: a range of `r - l = n >= kMaxSize` elements is split at `l + (r - l) / 2`
  into ranges of `n / 2` and `n - n / 2` elements. -/
def recursionDepth (n : Nat) : Nat := recursionDepthAux n n

/-- The vertices that the main loop of Prim extracts from the set, in the order of their
  extraction, for at most the given number of iterations (the `u` of `*s.begin()` in each
  iteration of `while (!s.empty())`). -/
def primOrder (g : Graph) : Nat → PrimState → List Nat
  | 0, _ => []
  | k + 1, st =>
    match st.s with
    | [] => []
    | p :: rest => p.2 :: primOrder g k (primStep g st p.2 rest)

/-- The state of Prim after `k` iterations of its main loop, that is at the start of
  iteration `k + 1`. -/
def primAfter (g : Graph) (k : Nat) : PrimState := primLoop g k (primInit g)

/-- The vertices extracted by the first `k` iterations of the main loop of Prim. -/
def primExtracted (g : Graph) (k : Nat) : List Nat := primOrder g k (primInit g)

/-- A sequence of point indices is sorted by non-decreasing y-coordinate. -/
def SortedByY (P : List Point2D) (l : List Nat) : Prop :=
  l.Pairwise (fun a b => (pt P a).y ≤ (pt P b).y)

/-- The calls `UpdateNeighbour(L[left], R[min_id])` of the inner loop of the sweep, in the
  order of the calls, as pairs (id, new_neighbour); the loop is that of `sweepInner`, with
  the calls recorded instead of performed. The last two components are `left + 1` and
  `min_dist` after the loop. -/
def sweepInnerOffers (P : List Point2D) (L R : List Nat) (right min_id : Nat) :
    Nat → Int → List (Nat × Nat) × Nat × Int
  | 0, min_dist => ([], 0, min_dist)
  | left + 1, min_dist =>
    if (pt P (R.getD right 0)).y < (pt P (L.getD left 0)).y then
      let r := sweepInnerOffers P L R right min_id left
        (match left with
          | 0 => min_dist
          | k + 1 => ManhattanDistance (pt P (L.getD k 0)) (pt P (R.getD min_id 0)))
      ((L.getD left 0, R.getD min_id 0) :: r.1, r.2)
    else ([], left + 1, min_dist)

/-- The calls of UpdateNeighbour in the outer loop of the sweep (see `sweepOuter`); the
  state is `left + 1`, `min_id` and `min_dist`. -/
def sweepOuterOffers (P : List Point2D) (L R : List Nat) :
    Nat → Nat × Nat × Int → List (Nat × Nat) × Nat × Nat × Int
  | 0, st => ([], st)
  | right + 1, st =>
    match st.1 with
    | 0 => ([], st)
    | _ + 1 =>
      let r := sweepInnerOffers P L R right st.2.1 st.1 st.2.2
      match r.2.1 with
      | 0 =>
        let q := sweepOuterOffers P L R right (0, st.2.1, r.2.2)
        (r.1 ++ q.1, q.2)
      | left + 1 =>
        let cur_dist := ManhattanDistance (pt P (L.getD left 0)) (pt P (R.getD right 0))
        if cur_dist < r.2.2 then
          let q := sweepOuterOffers P L R right (left + 1, right, cur_dist)
          (r.1 ++ q.1, q.2)
        else
          let q := sweepOuterOffers P L R right (left + 1, st.2.1, r.2.2)
          (r.1 ++ q.1, q.2)

/-- The calls of UpdateNeighbour in the last loop of the sweep (see `sweepRest`). -/
def sweepRestOffers (L R : List Nat) (min_id : Nat) : Nat → List (Nat × Nat)
  | 0 => []
  | left + 1 => (L.getD left 0, R.getD min_id 0) :: sweepRestOffers L R min_id left

/-- The calls `UpdateNeighbour(id, new_neighbour)` of the cross-boundary sweep on the
  copies `left_points` and `right_points`, in the order of the calls (see `sweep`). -/
def sweepOffers (P : List Point2D) (L R : List Nat) : List (Nat × Nat) :=
  let min_id := R.length - 1
  let left1 := skipLeft P L R min_id L.length
  let min_dist : Int :=
    match left1 with
    | 0 => -1
    | left + 1 => ManhattanDistance (pt P (L.getD left 0)) (pt P (R.getD min_id 0))
  let q := sweepOuterOffers P L R (R.length - 1) (left1, min_id, min_dist)
  q.1 ++ sweepRestOffers L R q.2.2.1 q.2.1

/-- The calls of a list performed on a table, first to last. -/
def applyOffers (P : List Point2D) (nb : List (Option Nat)) (offers : List (Nat × Nat)) :
    List (Option Nat) :=
  offers.foldl (fun t o => UpdateNeighbour P t o.1 (some o.2)) nb

/-- The point `j` is another point weakly north-east of the point `i`. -/
def IsNE (P : List Point2D) (i j : Nat) : Prop :=
  j ≠ i ∧ (pt P j).x ≥ (pt P i).x ∧ (pt P j).y ≥ (pt P i).y

/-- The entry `e` of the table is right for the point `i` and the candidates `S`: none when
  no candidate is weakly north-east of `i`, otherwise a candidate weakly north-east of `i`
  at the least Manhattan distance. -/
def Optimal (P : List Point2D) (S : List Nat) (i : Nat) (e : Option Nat) : Prop :=
  match e with
  | none => ∀ j ∈ S, ¬ IsNE P i j
  | some c => c ∈ S ∧ IsNE P i c
      ∧ ∀ j ∈ S, IsNE P i j →
          ManhattanDistance (pt P i) (pt P c) ≤ ManhattanDistance (pt P i) (pt P j)

/-- The right-half point `c` offered to the left-half point `p`: a point of `R` with
  `y >= y_p` that minimises `x + y` among the points of `R` with `y >= y_p`. -/
def GoodOffer (P : List Point2D) (R : List Nat) (p c : Nat) : Prop :=
  c ∈ R ∧ (pt P c).y ≥ (pt P p).y
  ∧ ∀ q ∈ R, (pt P q).y ≥ (pt P p).y → (pt P c).x + (pt P c).y ≤ (pt P q).x + (pt P q).y

/-- Two points of distinct x whose Manhattan distance is the double maximum. -/
def farPoints : List Point2D := [⟨0, 0⟩, ⟨DBL_MAX, 0⟩]

/-- Six points of pairwise distinct x, listed by increasing x. -/
def staircasePoints : List Point2D := [⟨0, 0⟩, ⟨1, 2⟩, ⟨2, 1⟩, ⟨3, 3⟩, ⟨4, 0⟩, ⟨5, 5⟩]

/-- The copy `left_points` of the recursive case of FindNENeighbours, taken from the
  vector `points` for the range `[l, r)`. -/
def left_points (points : List Nat) (l r : Nat) : List Nat :=
  getRange points l (l + (r - l) / 2)

/-- The copy `right_points` of the recursive case of FindNENeighbours. -/
def right_points (points : List Nat) (l r : Nat) : List Nat :=
  getRange points (l + (r - l) / 2) r

/-- The state after the two recursive calls of the recursive case of FindNENeighbours on
  the range `[l, r)`, from which `left_points` and `right_points` are copied. -/
def afterHalves (all_points : List Point2D) (st : List Nat × List (Option Nat)) (l r : Nat) :
    List Nat × List (Option Nat) :=
  FindNENeighbours all_points (FindNENeighbours all_points st l (l + (r - l) / 2))
    (l + (r - l) / 2) r

/-- Integer coordinates of absolute value at most 2^51. Every difference of two such
  coordinates, its absolute value and the sum of two such absolute values is an integer of
  absolute value at most 2^53, so it is a double, and the double arithmetic of
  ManhattanDistance and the comparisons of the source are exactly those of the model. -/
def ExactCoords (all_points : List Point2D) : Prop :=
  ∀ p ∈ all_points, -(2 ^ 51) ≤ p.x ∧ p.x ≤ 2 ^ 51 ∧ -(2 ^ 51) ≤ p.y ∧ p.y ≤ 2 ^ 51

/-! ## The angle and the rotation of BuildGraph in double arithmetic -/

/-- A finite floating-point value, `mant * 2 ^ expo`. -/
structure Double where
  mant : Int
  expo : Int
deriving DecidableEq, Repr

/-- The number of low bits of `n` that do not fit into 53 significant bits: the least `s`
  with `n / 2 ^ s < 2 ^ 53` (the first argument bounds the recursion). -/
def excessBits : Nat → Nat → Nat
  | 0, _ => 0
  | fuel + 1, n => if n < 2 ^ 53 then 0 else 1 + excessBits fuel (n / 2)

/-- Round a natural number to 53 significant bits, to nearest, ties to even (the rounding
  of double arithmetic); the result `(m, s)` stands for `m * 2 ^ s`. -/
def round53 (n : Nat) : Nat × Nat :=
  let s := excessBits n n
  if s = 0 then (n, 0)
  else
    let q := n / 2 ^ s
    let r := n % 2 ^ s
    let half := 2 ^ (s - 1)
    if r < half then (q, s)
    else if half < r then (q + 1, s)
    else if q % 2 = 0 then (q, s) else (q + 1, s)

/-- Addition of two doubles: the exact sum, rounded to 53 significant bits (values in the
  normal range, no overflow). -/
def Double.add (a b : Double) : Double :=
  let e := min a.expo b.expo
  let sum : Int := a.mant * 2 ^ (a.expo - e).toNat + b.mant * 2 ^ (b.expo - e).toNat
  let r := round53 sum.natAbs
  ⟨(if sum < 0 then -1 else 1) * Int.ofNat r.1, e + Int.ofNat r.2⟩

instance : Add Double := ⟨Double.add⟩

instance : Zero Double := ⟨⟨0, 0⟩⟩

/-- The rational number that a floating-point value stands for. -/
def Double.toRat (a : Double) : ℚ := (a.mant : ℚ) * (2 : ℚ) ^ a.expo

/-- The constant `M_PI` of the C library: the double nearest to pi,
  `0x400921FB54442D18 = 884279719003555 * 2 ^ (-48)`. -/
def M_PI : Double := ⟨884279719003555, -48⟩

/-- The local `delta_angle` of BuildGraph, `M_PI / 8.0`: the division of a double by
  `8 = 2 ^ 3` is exact and lowers the exponent by 3. -/
def delta_angle : Double := ⟨M_PI.mant, M_PI.expo - 3⟩

/-- The rotation of one point in BuildGraph,
  `x = point.x; y = point.y; point.x = x * cosl(angle) - y * sinl(angle);
  point.y = x * sinl(angle) + y * cosl(angle)`. The functions `cosl` and `sinl` are
  parameters, from the value of the angle to the value returned; `roundl` is the rounding
  of a long double operation, and `toDouble` turns the long double value of the right-hand
  side into the coordinate that is stored (the coordinates of the model are integers). -/
def rotatePoint (cosl sinl : ℚ → ℚ) (roundl : ℚ → ℚ) (toDouble : ℚ → Int) (angle : Double)
    (point : Point2D) : Point2D :=
  let x : ℚ := point.x
  let y : ℚ := point.y
  { x := toDouble (roundl (roundl (x * cosl angle.toRat) - roundl (y * sinl angle.toRat)))
    y := toDouble (roundl (roundl (x * sinl angle.toRat) + roundl (y * cosl angle.toRat))) }

/-- The value of `angle` in pass `k` of BuildGraph: `angle = 0.0`, then
  `angle += delta_angle` once per pass. -/
def passAngle : Nat → Double
  | 0 => 0
  | k + 1 => passAngle k + delta_angle

/-- A floating-point value in units of `2 ^ (-51)` (for an exponent of at least -51). -/
def Double.units (a : Double) : Int := a.mant * 2 ^ (a.expo + 51).toNat

/-! ## Basic facts -/

theorem fabs_zero : fabs 0 = 0 := by decide

theorem ManhattanDistance_self (q : Point2D) : ManhattanDistance q q = 0 := by
  simp [ManhattanDistance, fabs_zero]

theorem DBL_MAX_pos : 0 < DBL_MAX := by decide

theorem BuildGraphPass_all_points {A : Type} [Add A] (d : A) (rot : A → Point2D → Point2D)
    (st : BuildState A) : (BuildGraphPass d rot st).all_points = st.all_points := rfl

theorem BuildGraphLoop_all_points {A : Type} [Add A] [Zero A] (d : A)
    (rot : A → Point2D → Point2D) (P : List Point2D) (nb : List (Option Nat)) (k : Nat) :
    (BuildGraphLoop d rot P nb k).all_points = P := by
  induction k with
  | zero => rfl
  | succ k ih => rw [BuildGraphLoop, BuildGraphPass_all_points, ih]

/-! ## Coincident points -/

theorem sortedIndices_five_coincident (q : Point2D) :
    sortedIndices (List.replicate 5 q) = [0, 1, 2, 3, 4] := by
  simp [sortedIndices, stdSort, List.range, List.range.loop, sortInsert, lessX, pt]

theorem FindNE_five_coincident (q : Point2D) :
    FindNENeighbours (List.replicate 5 q)
        (sortedIndices (List.replicate 5 q), List.replicate 5 none) 0 5
      = ([2, 3, 4, 0, 1], [some 1, some 0, some 3, some 2, some 2]) := by
  rw [sortedIndices_five_coincident]
  simp [FindNENeighbours, FindNENeighboursAux, kMaxSize, baseCase, combine, baseBody, baseScan,
    baseStep, List.range', UpdateNeighbour, pt, ManhattanDistance_self, DBL_MAX_pos, putRange,
    getRange, stdSort, sortInsert, lessY, sweep, skipLeft, sweepOuter, sweepInner, sweepRest,
    Merge, MergeAux]

theorem pass_five_coincident {A : Type} [Add A] (d : A) (rot : A → Point2D → Point2D)
    (p : Point2D) (st : BuildState A) (hP : st.all_points = List.replicate 5 p)
    (hg : st.g = List.replicate 5 [] ∨ st.g = fiveGraph) :
    (BuildGraphPass d rot st).g = fiveGraph := by
  have h := FindNE_five_coincident (rot (st.angle + d) p)
  unfold BuildGraphPass
  simp only [hP, List.map_replicate, List.length_replicate, h]
  rcases hg with hg | hg <;> rw [hg] <;>
    simp [fiveGraph, addEdge, pushBack, pt, ManhattanDistance_self, List.range, List.range.loop]

theorem loop_five_coincident {A : Type} [Add A] [Zero A] (d : A) (rot : A → Point2D → Point2D)
    (p : Point2D) (nb : List (Option Nat)) (k : Nat) :
    (BuildGraphLoop d rot (List.replicate 5 p) nb (k + 1)).g = fiveGraph := by
  induction k with
  | zero =>
    exact pass_five_coincident d rot p _ (BuildGraphLoop_all_points d rot _ nb 0) (Or.inl rfl)
  | succ k ih =>
    exact pass_five_coincident d rot p _ (BuildGraphLoop_all_points d rot _ nb (k + 1)) (Or.inr ih)

theorem bruteGraph_five (p : Point2D) : bruteGraph (List.replicate 5 p) =
    bruteGraph (List.replicate 5 ⟨0, 0⟩) := by
  simp [bruteGraph, bruteEdge, pushBack, pt, ManhattanDistance_self, List.range, List.range.loop]

theorem GetTreeWeight_five (p : Point2D) (parents : List (Option Nat))
    (h : parents = [none, some 0, some 1, some 2, some 3]) :
    GetTreeWeight (List.replicate 5 p) parents = 0 := by
  subst h
  simp [GetTreeWeight, pt, ManhattanDistance_self, List.range, List.range.loop]

theorem FindNE_one (q : Point2D) :
    FindNENeighbours [q] (sortedIndices [q], List.replicate 1 none) 0 1 = ([0], [none]) := by
  simp [FindNENeighbours, FindNENeighboursAux, kMaxSize, baseCase, baseBody, baseScan,
    baseStep, List.range', UpdateNeighbour, pt, putRange,
    getRange, stdSort, sortInsert, sortedIndices, List.range, List.range.loop]

theorem loop_one_point {A : Type} [Add A] [Zero A] (d : A) (rot : A → Point2D → Point2D)
    (p : Point2D) (nb : List (Option Nat)) (k : Nat) :
    (BuildGraphLoop d rot [p] nb k).g = [[]] := by
  induction k with
  | zero => rfl
  | succ k ih =>
    have hP := BuildGraphLoop_all_points d rot [p] nb k
    have h := FindNE_one (rot ((BuildGraphLoop d rot [p] nb k).angle + d) p)
    rw [BuildGraphLoop]
    unfold BuildGraphPass
    simp only [hP, List.map_cons, List.map_nil, List.length_cons, List.length_nil, h, ih]
    simp [addEdge, List.range, List.range.loop]

theorem loop_no_point {A : Type} [Add A] [Zero A] (d : A) (rot : A → Point2D → Point2D)
    (nb : List (Option Nat)) (k : Nat) :
    (BuildGraphLoop d rot [] nb k).g = [] := by
  induction k with
  | zero => rfl
  | succ k ih =>
    have hP := BuildGraphLoop_all_points d rot [] nb k
    rw [BuildGraphLoop]
    unfold BuildGraphPass
    simp only [hP, List.map_nil, List.length_nil, ih]
    simp [List.range, List.range.loop]

/-! ## Claims settled by evaluation -/

/-- Claim C1, evaluated at its failing input: on five points of equal x, listed from top to
  bottom, the x-sort leaves the index vector as it is, the brute-force scan gives point 2 =
  (0,2) the neighbour 1 = (0,3), FindNENeighbours leaves the entry of point 2 at none, and
  the assertions of CheckNENeighbours fail. -/
theorem finder_misses_neighbour_on_equal_x :
    CheckNENeighbours columnPoints = Outcome.assertFailed
    ∧ sortedIndices columnPoints = [0, 1, 2, 3, 4]
    ∧ BruteNENeighbours columnPoints (List.replicate 5 none)
        = [none, some 0, some 1, some 2, some 3]
    ∧ (FindNENeighbours columnPoints (sortedIndices columnPoints, List.replicate 5 none) 0 5).2
        = [none, some 0, none, some 2, some 3] := by
  decide

/-- Claim C2, evaluated at its failing input: for five coincident points, whatever the
  angle increment and the rotation function, the fast path stops on the assertion of Prim
  (the candidate graph has the two components 0-1 and 2-3-4), while the brute-force path
  returns a tree of weight 0. -/
theorem fast_path_aborts_on_five_coincident_points {A : Type} [Add A] [Zero A]
    (delta_angle : A) (rotate : A → Point2D → Point2D) (p : Point2D)
    (all_neighbours : List (Option Nat)) :
    ManhattanMST delta_angle rotate (List.replicate 5 p) all_neighbours = Outcome.assertFailed
    ∧ BrutePrim (List.replicate 5 p)
        = Outcome.ok ([none, some 0, some 1, some 2, some 3], 0) := by
  constructor
  · have hg : (BuildGraphLoop delta_angle rotate (List.replicate 5 p) all_neighbours 16).g
        = fiveGraph := loop_five_coincident delta_angle rotate p all_neighbours 15
    have hprim : Prim fiveGraph = Outcome.assertFailed := by decide
    simp only [ManhattanMST, BuildGraph, hg]
    have : (fiveGraph.all fun adj => decide (adj.length > 0)) = true := by decide
    simp only [this, if_true, hg, hprim]
  · have hprim : Prim (bruteGraph (List.replicate 5 ⟨0, 0⟩))
        = Outcome.ok [none, some 0, some 1, some 2, some 3] := by decide
    simp only [BrutePrim, bruteGraph_five p, hprim]
    rw [GetTreeWeight_five p _ rfl]

/-- Claim C8: for the points (0,0), (1,1), (2,0), (0,2), the complete graph of BrutePrim
  (every edge pushed twice in each direction), Prim on it returns parents [none, 0, 1, 1],
  that is the edges (0,0)-(1,1), (1,1)-(2,0), (1,1)-(0,2), each of weight 2, and
  GetTreeWeight returns 6. -/
theorem scenario_brute_prim :
    bruteGraph scenarioPoints =
      [[(1, 2), (2, 2), (3, 2), (1, 2), (2, 2), (3, 2)],
       [(0, 2), (0, 2), (2, 2), (3, 2), (2, 2), (3, 2)],
       [(0, 2), (1, 2), (0, 2), (1, 2), (3, 4), (3, 4)],
       [(0, 2), (1, 2), (2, 4), (0, 2), (1, 2), (2, 4)]]
    ∧ Prim (bruteGraph scenarioPoints) = Outcome.ok [none, some 0, some 1, some 1]
    ∧ ManhattanDistance ⟨0, 0⟩ ⟨1, 1⟩ = 2 ∧ ManhattanDistance ⟨1, 1⟩ ⟨2, 0⟩ = 2
    ∧ ManhattanDistance ⟨1, 1⟩ ⟨0, 2⟩ = 2
    ∧ GetTreeWeight scenarioPoints [none, some 0, some 1, some 1] = 6
    ∧ BrutePrim scenarioPoints = Outcome.ok ([none, some 0, some 1, some 1], 6) := by
  decide

/-! ## Sorting, merging and ranges keep the elements -/

theorem foldl_invariant {α β : Type} (f : β → α → β) (Inv : β → Prop) (l : List α) (b0 : β)
    (h : ∀ b a, a ∈ l → Inv b → Inv (f b a)) (h0 : Inv b0) : Inv (l.foldl f b0) := by
  induction l generalizing b0 with
  | nil => exact h0
  | cons a l ih =>
    exact ih (f b0 a) (fun b x hx hb => h b x (List.mem_cons_of_mem _ hx) hb)
      (h b0 a (List.mem_cons_self _ _) h0)

theorem getD_mem {α : Type} (l : List α) (i : Nat) (d : α) (h : i < l.length) :
    l.getD i d ∈ l := by
  rw [List.getD_eq_getElem l d h]
  exact List.getElem_mem h

theorem sortInsert_perm (lt : Nat → Nat → Prop) [DecidableRel lt] (a : Nat) (l : List Nat) :
    (sortInsert lt a l).Perm (a :: l) := by
  induction l with
  | nil => exact List.Perm.refl _
  | cons b l ih =>
    unfold sortInsert
    split
    · exact List.Perm.refl _
    · exact (List.Perm.cons b ih).trans (List.Perm.swap a b l)

theorem stdSort_foldl_perm (lt : Nat → Nat → Prop) [DecidableRel lt] (l acc : List Nat) :
    (l.foldl (fun acc a => sortInsert lt a acc) acc).Perm (acc ++ l) := by
  induction l generalizing acc with
  | nil => simp
  | cons a l ih =>
    refine (ih (sortInsert lt a acc)).trans ?_
    refine (List.Perm.append_right l (sortInsert_perm lt a acc)).trans ?_
    exact (List.perm_middle).symm

theorem stdSort_perm (lt : Nat → Nat → Prop) [DecidableRel lt] (l : List Nat) :
    (stdSort lt l).Perm l := by
  simpa [stdSort] using stdSort_foldl_perm lt l []

theorem MergeAux_perm (P : List Point2D) (a : Nat) (rest : List Nat → List Nat) (l1 : List Nat)
    (h : ∀ l2, (rest l2).Perm (l1 ++ l2)) (l2 : List Nat) :
    (MergeAux P a rest l2).Perm (a :: l1 ++ l2) := by
  induction l2 with
  | nil => exact List.Perm.cons a (h [])
  | cons b l2 ih =>
    unfold MergeAux
    split
    · exact List.Perm.cons a (h (b :: l2))
    · exact (List.Perm.cons b ih).trans (@List.perm_middle Nat b (a :: l1) l2).symm

theorem Merge_perm (P : List Point2D) (l1 l2 : List Nat) :
    (Merge P l1 l2).Perm (l1 ++ l2) := by
  induction l1 generalizing l2 with
  | nil => exact List.Perm.refl _
  | cons a l1 ih => exact MergeAux_perm P a (Merge P l1) l1 ih l2

theorem range_split (points : List Nat) (l r : Nat) (h : l ≤ r) :
    points = points.take l ++ getRange points l r ++ points.drop r := by
  have h1 : points.drop r = (points.drop l).drop (r - l) := by
    rw [List.drop_drop]; congr 1; omega
  rw [h1, getRange, List.append_assoc, List.take_append_drop, List.take_append_drop]

theorem putRange_perm (points seg : List Nat) (l r : Nat) (h : l ≤ r)
    (hs : seg.Perm (getRange points l r)) : (putRange points l r seg).Perm points := by
  have h2 : (putRange points l r seg).Perm (points.take l ++ getRange points l r ++ points.drop r) :=
    List.Perm.append_right _ (List.Perm.append_left _ hs)
  rwa [← range_split points l r h] at h2

theorem getRange_append (points : List Nat) (l m r : Nat) (h1 : l ≤ m) (h2 : m ≤ r) :
    getRange points l m ++ getRange points m r = getRange points l r := by
  unfold getRange
  have h3 : points.drop m = (points.drop l).drop (m - l) := by
    rw [List.drop_drop]; congr 1; omega
  have h4 : r - l = (m - l) + (r - m) := by omega
  rw [h3, h4, List.take_add]

theorem getRange_sublist (points : List Nat) (l r : Nat) :
    (getRange points l r).Sublist points :=
  (List.take_sublist _ _).trans (List.drop_sublist _ _)

/-! ## An induction principle for the calls of UpdateNeighbour -/

section Finder

variable (P : List Point2D) (Q : List (Option Nat) → Prop)

theorem sweepRest_inv (L R : List Nat)
    (hQ : ∀ nb id c, id ∈ L → c ∈ R → Q nb → Q (UpdateNeighbour P nb id (some c)))
    (min_id : Nat) (hm : min_id < R.length) (left1 : Nat) (nb : List (Option Nat))
    (hl : left1 ≤ L.length) (h : Q nb) : Q (sweepRest P L R min_id left1 nb) := by
  induction left1 generalizing nb with
  | zero => exact h
  | succ left ih =>
    unfold sweepRest
    exact ih _ (by omega) (hQ _ _ _ (getD_mem L left 0 (by omega)) (getD_mem R min_id 0 hm) h)

theorem sweepInner_inv (L R : List Nat)
    (hQ : ∀ nb id c, id ∈ L → c ∈ R → Q nb → Q (UpdateNeighbour P nb id (some c)))
    (right min_id : Nat) (hm : min_id < R.length) (left1 : Nat) (nb : List (Option Nat))
    (min_dist : Int) (hl : left1 ≤ L.length) (h : Q nb) :
    Q (sweepInner P L R right min_id left1 nb min_dist).1
      ∧ (sweepInner P L R right min_id left1 nb min_dist).2.1 ≤ L.length := by
  induction left1 generalizing nb min_dist with
  | zero => exact ⟨h, Nat.zero_le _⟩
  | succ left ih =>
    unfold sweepInner
    split
    · exact ih _ _ (by omega)
        (hQ _ _ _ (getD_mem L left 0 (by omega)) (getD_mem R min_id 0 hm) h)
    · exact ⟨h, hl⟩

theorem sweepOuter_inv (L R : List Nat)
    (hQ : ∀ nb id c, id ∈ L → c ∈ R → Q nb → Q (UpdateNeighbour P nb id (some c)))
    (right : Nat) (st : Sweep) (hr : right < R.length) (hm : st.min_id < R.length)
    (hl : st.left1 ≤ L.length) (h : Q st.nb) :
    Q (sweepOuter P L R right st).nb ∧ (sweepOuter P L R right st).min_id < R.length
      ∧ (sweepOuter P L R right st).left1 ≤ L.length := by
  induction right generalizing st with
  | zero => exact ⟨h, hm, hl⟩
  | succ right ih =>
    unfold sweepOuter
    split
    · exact ⟨h, hm, hl⟩
    · have hin := sweepInner_inv P Q L R hQ right st.min_id hm st.left1 st.nb st.min_dist hl h
      simp only
      split
      · exact ih _ (by omega) hm (Nat.zero_le _) hin.1
      · rename_i left hleft
        have hle : left + 1 ≤ L.length := by have := hin.2; omega
        split
        · exact ih _ (by omega) (by simp only; omega) hle hin.1
        · exact ih _ (by omega) hm hle hin.1

theorem sweep_inv (L R : List Nat)
    (hQ : ∀ nb id c, id ∈ L → c ∈ R → Q nb → Q (UpdateNeighbour P nb id (some c)))
    (hR : R ≠ []) (nb : List (Option Nat)) (h : Q nb) : Q (sweep P L R nb) := by
  have hpos : 0 < R.length := List.length_pos.mpr hR
  have hsk : ∀ k, skipLeft P L R (R.length - 1) k ≤ k := by
    intro k
    induction k with
    | zero => exact Nat.le_refl _
    | succ k ih =>
      unfold skipLeft
      split
      · omega
      · exact Nat.le_refl _
  unfold sweep
  simp only
  have ho := sweepOuter_inv P Q L R hQ (R.length - 1)
    ⟨nb, skipLeft P L R (R.length - 1) L.length, R.length - 1,
      match skipLeft P L R (R.length - 1) L.length with
      | 0 => -1
      | left + 1 => ManhattanDistance (pt P (L.getD left 0)) (pt P (R.getD (R.length - 1) 0))⟩
    (by omega) (by simp only; omega) (hsk _) h
  exact sweepRest_inv P Q L R hQ _ ho.2.1 _ _ ho.2.2 ho.1

theorem baseScan_result (points : List Nat) (l r i : Nat) :
    (baseScan P points l r i).2 = none
      ∨ ∃ j, l ≤ j ∧ j < r ∧ (baseScan P points l r i).2 = some (points.getD j 0)
          ∧ points.getD i 0 ≠ points.getD j 0 := by
  unfold baseScan
  refine foldl_invariant (baseStep P points i)
    (fun acc => acc.2 = none ∨ ∃ j, l ≤ j ∧ j < r ∧ acc.2 = some (points.getD j 0)
      ∧ points.getD i 0 ≠ points.getD j 0) _ _ ?_ (Or.inl rfl)
  intro acc j hj hacc
  rw [List.mem_range'_1] at hj
  unfold baseStep
  split
  · exact hacc
  · rename_i hne
    simp only
    split
    · exact Or.inr ⟨j, hj.1, by omega, rfl, fun h => hne (Or.inl h)⟩
    · exact hacc

theorem baseCase_inv (S : List Nat)
    (hQ : ∀ nb id c, id ∈ S → c ∈ S → id ≠ c → Q nb → Q (UpdateNeighbour P nb id (some c)))
    (points : List Nat) (nb : List (Option Nat)) (l r : Nat) (hlr : l ≤ r)
    (hr : r ≤ points.length) (hp : points.Perm S) (h : Q nb) :
    (baseCase P points nb l r).1.Perm S ∧ Q (baseCase P points nb l r).2 := by
  unfold baseCase
  constructor
  · exact (putRange_perm points _ l r hlr (stdSort_perm _ _)).trans hp
  · refine foldl_invariant (baseBody P points l r) Q _ _ ?_ h
    intro b i hi hb
    rw [List.mem_range'_1] at hi
    unfold baseBody
    rcases baseScan_result P points l r i with h0 | ⟨j, hj1, hj2, hj3, hne⟩
    · rw [h0]; exact hb
    · rw [hj3]
      exact hQ _ _ _ (hp.subset (getD_mem points i 0 (by omega)))
        (hp.subset (getD_mem points j 0 (by omega))) hne hb

theorem combine_inv (S : List Nat) (hS : S.Nodup)
    (hQ : ∀ nb id c, id ∈ S → c ∈ S → id ≠ c → Q nb → Q (UpdateNeighbour P nb id (some c)))
    (points : List Nat) (nb : List (Option Nat)) (l r : Nat) (hlr : l + kMaxSize ≤ r)
    (hr : r ≤ points.length) (hp : points.Perm S) (h : Q nb) :
    (combine P points nb l r).1.Perm S ∧ Q (combine P points nb l r).2 := by
  have hk : kMaxSize = 5 := rfl
  have hm1 : l ≤ l + (r - l) / 2 := Nat.le_add_right _ _
  have hm2 : l + (r - l) / 2 ≤ r := by omega
  have happ := getRange_append points l (l + (r - l) / 2) r hm1 hm2
  have hnd : (getRange points l (l + (r - l) / 2) ++ getRange points (l + (r - l) / 2) r).Nodup := by
    rw [happ]
    exact (hp.nodup_iff.mpr hS).sublist (getRange_sublist points l r)
  have hdisj := List.disjoint_of_nodup_append hnd
  have hsubL : ∀ x, x ∈ getRange points l (l + (r - l) / 2) → x ∈ S :=
    fun x hx => hp.subset ((getRange_sublist points _ _).subset hx)
  have hsubR : ∀ x, x ∈ getRange points (l + (r - l) / 2) r → x ∈ S :=
    fun x hx => hp.subset ((getRange_sublist points _ _).subset hx)
  have hRne : getRange points (l + (r - l) / 2) r ≠ [] := by
    intro h0
    have hlen : (getRange points (l + (r - l) / 2) r).length = r - (l + (r - l) / 2) := by
      unfold getRange
      rw [List.length_take, List.length_drop]
      omega
    rw [h0] at hlen
    simp only [List.length_nil] at hlen
    omega
  unfold combine
  constructor
  · refine (putRange_perm points _ l r (by omega) ?_).trans hp
    rw [← happ]
    exact Merge_perm P _ _
  · refine sweep_inv P Q _ _ ?_ hRne nb h
    intro nb0 id c hid hc hq
    exact hQ nb0 id c (hsubL id hid) (hsubR c hc) (fun heq => hdisj hid (heq ▸ hc)) hq

theorem FindNENeighboursAux_inv (S : List Nat) (hS : S.Nodup)
    (hQ : ∀ nb id c, id ∈ S → c ∈ S → id ≠ c → Q nb → Q (UpdateNeighbour P nb id (some c)))
    (fuel : Nat) (st : List Nat × List (Option Nat)) (l r : Nat) (hlr : l ≤ r)
    (hr : r ≤ S.length) (hp : st.1.Perm S) (h : Q st.2) :
    (FindNENeighboursAux P fuel st l r).1.Perm S ∧ Q (FindNENeighboursAux P fuel st l r).2 := by
  induction fuel generalizing st l r with
  | zero =>
    unfold FindNENeighboursAux
    split
    · exact baseCase_inv P Q S hQ st.1 st.2 l r hlr (hp.length_eq ▸ hr) hp h
    · exact ⟨hp, h⟩
  | succ fuel ih =>
    unfold FindNENeighboursAux
    split
    · exact baseCase_inv P Q S hQ st.1 st.2 l r hlr (hp.length_eq ▸ hr) hp h
    · rename_i hbig
      simp only
      have h1 := ih st l (l + (r - l) / 2) (Nat.le_add_right _ _) (by omega) hp h
      have h2 := ih (FindNENeighboursAux P fuel st l (l + (r - l) / 2)) (l + (r - l) / 2) r
        (by omega) hr h1.1 h1.2
      exact combine_inv P Q S hS hQ _ _ l r (by omega) (h2.1.length_eq ▸ hr) h2.1 h2.2

end Finder

/-! ## The depth bound of FindNENeighbours is never reached -/

theorem FindNENeighboursAux_base (P : List Point2D) (fuel : Nat)
    (st : List Nat × List (Option Nat)) (l r : Nat) (h : r - l < kMaxSize) :
    FindNENeighboursAux P fuel st l r = baseCase P st.1 st.2 l r := by
  unfold FindNENeighboursAux
  rw [if_pos h]

theorem FindNENeighboursAux_succ (P : List Point2D) (fuel : Nat)
    (st : List Nat × List (Option Nat)) (l r : Nat) (h : ¬ r - l < kMaxSize) :
    FindNENeighboursAux P (fuel + 1) st l r =
      combine P
        (FindNENeighboursAux P fuel (FindNENeighboursAux P fuel st l (l + (r - l) / 2))
          (l + (r - l) / 2) r).1
        (FindNENeighboursAux P fuel (FindNENeighboursAux P fuel st l (l + (r - l) / 2))
          (l + (r - l) / 2) r).2 l r := by
  rw [FindNENeighboursAux, if_neg h]

theorem FindNENeighboursAux_fuel (P : List Point2D) (fuel1 fuel2 : Nat)
    (st : List Nat × List (Option Nat)) (l r : Nat) (h1 : r - l ≤ fuel1) (h2 : r - l ≤ fuel2) :
    FindNENeighboursAux P fuel1 st l r = FindNENeighboursAux P fuel2 st l r := by
  induction fuel1 generalizing fuel2 st l r with
  | zero =>
    have hb : r - l < kMaxSize := by simp only [kMaxSize]; omega
    rw [FindNENeighboursAux_base P _ st l r hb, FindNENeighboursAux_base P _ st l r hb]
  | succ k ih =>
    by_cases hb : r - l < kMaxSize
    · rw [FindNENeighboursAux_base P _ st l r hb, FindNENeighboursAux_base P _ st l r hb]
    · have hb5 : ¬ r - l < 5 := hb
      obtain ⟨j, rfl⟩ : ∃ j, fuel2 = j + 1 := ⟨fuel2 - 1, by omega⟩
      rw [FindNENeighboursAux_succ P k st l r hb, FindNENeighboursAux_succ P j st l r hb]
      rw [ih j st l (l + (r - l) / 2) (by omega) (by omega)]
      rw [ih j _ (l + (r - l) / 2) r (by omega) (by omega)]

/-- FindNENeighbours satisfies the recursion of the source: the base case below kMaxSize,
  otherwise the two recursive calls on the halves followed by the sweep and the merge. -/
theorem FindNENeighbours_eq (P : List Point2D) (st : List Nat × List (Option Nat)) (l r : Nat) :
    FindNENeighbours P st l r =
      if r - l < kMaxSize then baseCase P st.1 st.2 l r
      else
        combine P
          (FindNENeighbours P (FindNENeighbours P st l (l + (r - l) / 2)) (l + (r - l) / 2) r).1
          (FindNENeighbours P (FindNENeighbours P st l (l + (r - l) / 2)) (l + (r - l) / 2) r).2
          l r := by
  unfold FindNENeighbours
  by_cases hbig : r - l < kMaxSize
  · rw [if_pos hbig, FindNENeighboursAux_base P _ st l r hbig]
  · rw [if_neg hbig]
    have hb5 : ¬ r - l < 5 := hbig
    obtain ⟨k, hk⟩ : ∃ k, r - l = k + 1 := ⟨r - l - 1, by omega⟩
    rw [hk, FindNENeighboursAux_succ P k st l r hbig]
    rw [FindNENeighboursAux_fuel P k (l + (r - l) / 2 - l) st l _ (by omega) (by omega)]
    rw [FindNENeighboursAux_fuel P k (r - (l + (r - l) / 2)) _ _ r (by omega) (by omega)]
    rw [hk]

/-! ## The neighbour table after FindNENeighbours -/

theorem getD_set_eq {α : Type} (l : List α) (i j : Nat) (v d : α) :
    (l.set i v).getD j d = if j = i ∧ i < l.length then v else l.getD j d := by
  simp only [List.getD_eq_getElem?_getD, List.getElem?_set]
  by_cases hij : i = j
  · subst hij
    by_cases hi : i < l.length
    · simp [hi]
    · simp [hi, List.getElem?_eq_none (Nat.le_of_not_lt hi)]
  · have hji : ¬ j = i := fun h => hij h.symm
    simp [hij, hji]

theorem length_UpdateNeighbour (P : List Point2D) (nb : List (Option Nat)) (id : Nat)
    (c : Option Nat) : (UpdateNeighbour P nb id c).length = nb.length := by
  unfold UpdateNeighbour
  split
  · rfl
  · split
    · rfl
    · split
      · simp only
        split
        · exact List.length_set _ _ _
        · rfl
      · exact List.length_set _ _ _

theorem ValidTable_set (n : Nat) (nb : List (Option Nat)) (id c : Nat) (hc : c < n)
    (hne : id ≠ c) (h : ValidTable n nb) : ValidTable n (nb.set id (some c)) := by
  refine ⟨by rw [List.length_set]; exact h.1, ?_⟩
  intro i j hij
  rw [getD_set_eq] at hij
  split at hij
  · rename_i hi
    cases hij
    exact ⟨hc, fun h0 => hne (hi.1 ▸ h0.symm)⟩
  · exact h.2 i j hij

theorem ValidTable_UpdateNeighbour (P : List Point2D) (n : Nat) (nb : List (Option Nat))
    (id c : Nat) (hc : c < n) (hne : id ≠ c) (h : ValidTable n nb) :
    ValidTable n (UpdateNeighbour P nb id (some c)) := by
  simp only [UpdateNeighbour]
  split
  · exact h
  · split
    · split
      · exact ValidTable_set n nb id c hc hne h
      · exact h
    · exact ValidTable_set n nb id c hc hne h

theorem sortedIndices_perm (P : List Point2D) : (sortedIndices P).Perm (List.range P.length) :=
  stdSort_perm _ _

theorem FindNENeighbours_valid (P : List Point2D) :
    ValidTable P.length
      (FindNENeighbours P (sortedIndices P, List.replicate P.length none) 0 P.length).2 := by
  unfold FindNENeighbours
  refine (FindNENeighboursAux_inv P (ValidTable P.length) (List.range P.length)
    (List.nodup_range _) ?_ _ _ 0 P.length (Nat.zero_le _) ?_ (sortedIndices_perm P) ?_).2
  · intro nb id c _ hc hne h
    exact ValidTable_UpdateNeighbour P _ nb id c (List.mem_range.mp hc) hne h
  · rw [List.length_range]
  · refine ⟨List.length_replicate _ _, ?_⟩
    intro i j hij
    simp only [List.getD_eq_getElem?_getD, List.getElem?_replicate] at hij
    split at hij <;> simp at hij

/-! ## The candidate graph -/

theorem fabs_eq_abs (a : Int) : fabs a = |a| := by
  unfold fabs
  split
  · rename_i h; rw [abs_of_neg h]
  · rename_i h; rw [abs_of_nonneg (not_lt.mp h)]

theorem ManhattanDistance_eq (p q : Point2D) :
    ManhattanDistance p q = |p.x - q.x| + |p.y - q.y| := by
  simp only [ManhattanDistance, fabs_eq_abs]

theorem ManhattanDistance_comm (p q : Point2D) :
    ManhattanDistance p q = ManhattanDistance q p := by
  simp only [ManhattanDistance_eq, abs_sub_comm]

theorem getD_pushBack (g : Graph) (i k : Nat) (e : Nat × Int) :
    (pushBack g i e).getD k [] = if k = i ∧ i < g.length then g.getD i [] ++ [e] else g.getD k [] := by
  unfold pushBack
  exact getD_set_eq g i k _ _

theorem length_pushBack (g : Graph) (i : Nat) (e : Nat × Int) :
    (pushBack g i e).length = g.length := by
  unfold pushBack
  exact List.length_set _ _ _

theorem getD_nil_of_le (g : Graph) (i : Nat) (h : g.length ≤ i) : g.getD i [] = [] := by
  rw [List.getD_eq_getElem?_getD, List.getElem?_eq_none h]
  rfl

theorem GraphInv_addEdge (P : List Point2D) (nb : List (Option Nat)) (g : Graph) (i : Nat)
    (hi : i < P.length) (hnb : ∀ j, nb.getD i none = some j → j < P.length ∧ j ≠ i)
    (h : GraphInv P g) : GraphInv P (addEdge P nb g i) := by
  unfold addEdge
  split
  · exact h
  · rename_i j hj
    obtain ⟨hjn, hji⟩ := hnb j hj
    split
    · exact h
    · rename_i hany
      obtain ⟨hlen, hent, hnd⟩ := h
      have hnotin : j ∉ (g.getD i []).map Prod.fst := by
        intro hmem
        obtain ⟨e, he, hej⟩ := List.mem_map.mp hmem
        apply hany
        rw [List.any_eq_true]
        exact ⟨e, he, by simp [hej]⟩
      have hnotin2 : i ∉ (g.getD j []).map Prod.fst := by
        intro hmem
        obtain ⟨e, he, hei⟩ := List.mem_map.mp hmem
        have := (hent j e he).2.2.1
        rw [hei] at this
        exact hnotin (List.mem_map.mpr ⟨(j, e.2), this, rfl⟩)
      have hget : ∀ k, (pushBack (pushBack g i (j, ManhattanDistance (pt P i) (pt P j))) j
            (i, ManhattanDistance (pt P i) (pt P j))).getD k []
          = if k = i then g.getD i [] ++ [(j, ManhattanDistance (pt P i) (pt P j))]
            else if k = j then g.getD j [] ++ [(i, ManhattanDistance (pt P i) (pt P j))]
            else g.getD k [] := by
        intro k
        rw [getD_pushBack, length_pushBack, getD_pushBack, getD_pushBack]
        by_cases hki : k = i
        · subst hki
          have : ¬ k = j := fun h0 => hji h0.symm
          simp [this, hlen, hi]
        · by_cases hkj : k = j
          · subst hkj
            simp [hki, hlen, hjn, hi]
          · simp [hki, hkj]
      simp only
      refine ⟨by rw [length_pushBack, length_pushBack]; exact hlen, ?_, ?_⟩
      · have hmono : ∀ m x, x ∈ g.getD m [] →
            x ∈ (if m = i then g.getD i [] ++ [(j, ManhattanDistance (pt P i) (pt P j))]
              else if m = j then g.getD j [] ++ [(i, ManhattanDistance (pt P i) (pt P j))]
              else g.getD m []) := by
          intro m x hx
          split
          · rename_i hm; subst hm; exact List.mem_append_left _ hx
          · split
            · rename_i hm; subst hm; exact List.mem_append_left _ hx
            · exact hx
        intro k e he
        rw [hget] at he
        rw [hget e.1]
        by_cases hki : k = i
        · subst hki
          rw [if_pos rfl] at he
          rcases List.mem_append.mp he with he | he
          · obtain ⟨h1, h2, h3, h4⟩ := hent k e he
            exact ⟨h1, h2, hmono _ _ h3, h4⟩
          · rw [List.mem_singleton] at he
            subst he
            refine ⟨hjn, hji, ?_, rfl⟩
            rw [if_neg hji, if_pos rfl]
            exact List.mem_append_right _ (List.mem_singleton.mpr rfl)
        · rw [if_neg hki] at he
          by_cases hkj : k = j
          · subst hkj
            rw [if_pos rfl] at he
            rcases List.mem_append.mp he with he | he
            · obtain ⟨h1, h2, h3, h4⟩ := hent k e he
              exact ⟨h1, h2, hmono _ _ h3, h4⟩
            · rw [List.mem_singleton] at he
              subst he
              refine ⟨hi, fun h0 => hki h0.symm, ?_, ManhattanDistance_comm _ _⟩
              rw [if_pos rfl]
              exact List.mem_append_right _ (List.mem_singleton.mpr rfl)
          · rw [if_neg hkj] at he
            obtain ⟨h1, h2, h3, h4⟩ := hent k e he
            exact ⟨h1, h2, hmono _ _ h3, h4⟩
      · intro k
        rw [hget]
        split
        · rw [List.map_append, List.map_singleton]
          exact List.Nodup.append (hnd i) (List.nodup_singleton _)
            (List.disjoint_singleton.mpr hnotin)
        · split
          · rw [List.map_append, List.map_singleton]
            exact List.Nodup.append (hnd j) (List.nodup_singleton _)
              (List.disjoint_singleton.mpr hnotin2)
          · exact hnd k

theorem GraphInv_pass {A : Type} [Add A] (d : A) (rot : A → Point2D → Point2D)
    (st : BuildState A) (h : GraphInv st.all_points st.g) :
    GraphInv (BuildGraphPass d rot st).all_points (BuildGraphPass d rot st).g := by
  have hv := FindNENeighbours_valid (st.all_points.map (rot (st.angle + d)))
  unfold BuildGraphPass
  simp only
  refine foldl_invariant _ (GraphInv st.all_points) _ _ ?_ h
  intro g i hi hg
  refine GraphInv_addEdge st.all_points _ g i (List.mem_range.mp hi) (fun j hj => ?_) hg
  have := hv.2 i j hj
  rwa [List.length_map] at this

theorem GraphInv_loop {A : Type} [Add A] [Zero A] (d : A) (rot : A → Point2D → Point2D)
    (P : List Point2D) (nb : List (Option Nat)) (k : Nat) :
    GraphInv P (BuildGraphLoop d rot P nb k).g := by
  induction k with
  | zero =>
    refine ⟨List.length_replicate _ _, ?_, ?_⟩
    · intro i e he
      simp only [BuildGraphLoop, List.getD_eq_getElem?_getD, List.getElem?_replicate] at he
      split at he <;> simp at he
    · intro i
      simp only [BuildGraphLoop, List.getD_eq_getElem?_getD, List.getElem?_replicate]
      split <;> simp
  | succ k ih =>
    have h := GraphInv_pass d rot (BuildGraphLoop d rot P nb k)
      (by rw [BuildGraphLoop_all_points]; exact ih)
    rw [BuildGraphPass_all_points, BuildGraphLoop_all_points] at h
    exact h

/-- Claim C9: after any number of passes of the rotation loop of BuildGraph, for any
  point set, angle increment and rotation function, no adjacency list `g[i]` names a
  neighbour twice and no list `g[i]` names `i` itself. -/
theorem candidate_graph_no_duplicate_edges {A : Type} [Add A] [Zero A] (delta_angle : A)
    (rotate : A → Point2D → Point2D) (all_points : List Point2D)
    (all_neighbours : List (Option Nat)) (k i : Nat) :
    (((BuildGraphLoop delta_angle rotate all_points all_neighbours k).g.getD i []).map
        Prod.fst).Nodup
    ∧ i ∉ ((BuildGraphLoop delta_angle rotate all_points all_neighbours k).g.getD i []).map
        Prod.fst := by
  obtain ⟨_, hent, hnd⟩ := GraphInv_loop delta_angle rotate all_points all_neighbours k
  refine ⟨hnd i, ?_⟩
  intro hmem
  obtain ⟨e, he, hei⟩ := List.mem_map.mp hmem
  exact (hent i e he).2.1 hei

/-- Claim C10: after any number of passes of BuildGraph (16 for the graph it returns), for
  any point set, angle increment and rotation function, every entry `(j, w)` of `g[i]` is
  mirrored by the entry `(i, w)` of `g[j]`, and `w` is `|x_i - x_j| + |y_i - y_j|` on the
  coordinates of the store as it was handed to BuildGraph. -/
theorem candidate_graph_mirrored_original_weights {A : Type} [Add A] [Zero A] (delta_angle : A)
    (rotate : A → Point2D → Point2D) (all_points : List Point2D)
    (all_neighbours : List (Option Nat)) (k i j : Nat) (w : Int)
    (he : (j, w) ∈ (BuildGraphLoop delta_angle rotate all_points all_neighbours k).g.getD i []) :
    (i, w) ∈ (BuildGraphLoop delta_angle rotate all_points all_neighbours k).g.getD j []
    ∧ w = |(pt all_points i).x - (pt all_points j).x|
        + |(pt all_points i).y - (pt all_points j).y| := by
  obtain ⟨_, hent, _⟩ := GraphInv_loop delta_angle rotate all_points all_neighbours k
  obtain ⟨_, _, h3, h4⟩ := hent i (j, w) he
  exact ⟨h3, by rw [← ManhattanDistance_eq]; exact h4⟩

set_option maxRecDepth 100000 in
/-- Witness of claim C10: the scenario points under quarter turns; the entry (1, 2) of g[0]
  after the 16 passes. -/
theorem candidate_graph_mirrored_original_weights_witness :
    (1, 2) ∈ (BuildGraphLoop (1 : Nat) quarterTurns scenarioPoints [] 16).g.getD 0 []
    ∧ ((0, 2) ∈ (BuildGraphLoop (1 : Nat) quarterTurns scenarioPoints [] 16).g.getD 1 []
      ∧ (2 : Int) = |(pt scenarioPoints 0).x - (pt scenarioPoints 1).x|
        + |(pt scenarioPoints 0).y - (pt scenarioPoints 1).y|) :=
  ⟨by decide,
    candidate_graph_mirrored_original_weights (1 : Nat) quarterTurns scenarioPoints [] 16 0 1 2
      (by decide)⟩

/-! ## The ordered set of Prim -/

theorem pairLt_irrefl (p : Int × Nat) : ¬ pairLt p p := by
  unfold pairLt; omega

theorem pairLt_trans {p q r : Int × Nat} (h1 : pairLt p q) (h2 : pairLt q r) : pairLt p r := by
  unfold pairLt at *; omega

theorem pairLt_of_not {p q : Int × Nat} (h1 : ¬ pairLt p q) (h2 : p ≠ q) : pairLt q p := by
  unfold pairLt at *
  have : p.1 ≠ q.1 ∨ p.2 ≠ q.2 := by
    by_contra hc
    push_neg at hc
    exact h2 (Prod.ext hc.1 hc.2)
  omega

theorem mem_setInsert (p q : Int × Nat) (s : List (Int × Nat)) :
    q ∈ setInsert p s ↔ q = p ∨ q ∈ s := by
  induction s with
  | nil => simp [setInsert]
  | cons a s ih =>
    unfold setInsert
    split
    · simp
    · split
      · rename_i h; subst h; simp
      · simp only [List.mem_cons, ih]
        tauto

theorem length_setInsert_le (p : Int × Nat) (s : List (Int × Nat)) :
    (setInsert p s).length ≤ s.length + 1 := by
  induction s with
  | nil => simp [setInsert]
  | cons a s ih =>
    unfold setInsert
    split
    · simp
    · split
      · simp
      · simp only [List.length_cons]; omega

theorem setInsert_sorted (p : Int × Nat) (s : List (Int × Nat)) (h : s.Pairwise pairLt) :
    (setInsert p s).Pairwise pairLt := by
  induction s with
  | nil => simp [setInsert]
  | cons a s ih =>
    rw [List.pairwise_cons] at h
    unfold setInsert
    split
    · rename_i hpa
      rw [List.pairwise_cons]
      refine ⟨?_, List.pairwise_cons.mpr h⟩
      intro x hx
      rcases List.mem_cons.mp hx with hx | hx
      · rw [hx]; exact hpa
      · exact pairLt_trans hpa (h.1 x hx)
    · split
      · exact List.pairwise_cons.mpr h
      · rename_i hpa hne
        rw [List.pairwise_cons]
        refine ⟨?_, ih h.2⟩
        intro x hx
        rcases (mem_setInsert p x s).mp hx with hx | hx
        · rw [hx]; exact pairLt_of_not hpa hne
        · exact h.1 x hx

theorem sorted_nodup (s : List (Int × Nat)) (h : s.Pairwise pairLt) : s.Nodup := by
  unfold List.Nodup
  refine List.Pairwise.imp ?_ h
  intro a b hab heq
  rw [heq] at hab
  exact pairLt_irrefl _ hab

/-! ## Prim: the loop empties the set -/

theorem primRelax_length (u : Nat) (st : PrimState) (e : Nat × Int) :
    (primRelax u st e).s.length ≤ st.s.length := by
  unfold primRelax
  split
  · exact Nat.le_refl _
  · split
    · rename_i hmem
      simp only
      have h1 := length_setInsert_le (e.2, e.1) (st.s.erase (st.dists.getD e.1 0, e.1))
      have h2 := List.length_erase_of_mem hmem
      have h3 := List.length_pos_of_mem hmem
      omega
    · exact Nat.le_refl _

theorem primStep_length (g : Graph) (st : PrimState) (u : Nat) (rest : List (Int × Nat)) :
    (primStep g st u rest).s.length ≤ rest.length := by
  unfold primStep
  refine foldl_invariant (primRelax u) (fun st0 => st0.s.length ≤ rest.length) _ _ ?_
    (Nat.le_refl _)
  intro b a _ hb
  exact (primRelax_length u b a).trans hb

theorem primLoop_s (g : Graph) (fuel : Nat) (st : PrimState) (h : st.s.length ≤ fuel) :
    (primLoop g fuel st).s = [] := by
  induction fuel generalizing st with
  | zero =>
    unfold primLoop
    exact List.length_eq_zero.mp (Nat.le_zero.mp h)
  | succ k ih =>
    unfold primLoop
    split
    · rename_i hs; exact hs
    · rename_i p rest hs
      apply ih
      have := primStep_length g st p.2 rest
      rw [hs, List.length_cons] at h
      omega

/-! ## Prim: the invariant is kept -/

theorem getD_setAdj (g : Graph) (u x : Nat) (L : List (Nat × Int)) (hu : u < g.length) :
    (g.set u L).getD x [] = if x = u then L else g.getD x [] := by
  rw [getD_set_eq]
  by_cases hx : x = u
  · simp [hx, hu]
  · simp [hx]

theorem pos_append_mem (ord : List Nat) (u x : Nat) (hx : x ∈ ord) :
    pos (ord ++ [u]) x = pos ord x := List.indexOf_append_of_mem hx

theorem pos_append_ge (ord : List Nat) (u x : Nat) (hx : x ∉ ord) :
    ord.length ≤ pos (ord ++ [u]) x := by
  unfold pos
  rw [List.indexOf_append_of_not_mem hx]
  exact Nat.le_add_right _ _

theorem pos_append_self (ord : List Nat) (u : Nat) (hu : u ∉ ord) :
    pos (ord ++ [u]) u = ord.length := by
  unfold pos
  rw [List.indexOf_append_of_not_mem hu, List.indexOf_cons_self]
  rfl

theorem mem_of_pos_lt (ord : List Nat) (x : Nat) (k : Nat) (h : pos ord x < k)
    (hk : k ≤ ord.length) : x ∈ ord :=
  List.indexOf_lt_length.mp (Nat.lt_of_lt_of_le h hk)

theorem mem_of_pos_append_lt (ord : List Nat) (u x : Nat) (h : pos (ord ++ [u]) x < ord.length) :
    x ∈ ord := by
  by_contra hx
  have := pos_append_ge ord u x hx
  omega

/-- Extraction of the minimum: the invariant holds for the order with `u` appended and for
  the graph in which the adjacency list of `u` is not yet visited. -/
theorem PrimInv_extract (g : Graph) (n : Nat) (st : PrimState) (ord : List Nat) (d : Int)
    (u : Nat) (rest : List (Int × Nat)) (h : PrimInv g n st ord) (hs : st.s = (d, u) :: rest) :
    u < n ∧ u ∉ ord ∧ PrimInv (g.set u []) n { st with s := rest } (ord ++ [u]) := by
  have hmem : (d, u) ∈ st.s := by rw [hs]; exact List.mem_cons_self _ _
  obtain ⟨hun, huo, hd⟩ := (h.mem_s d u).mp hmem
  have hsorted := h.sorted
  rw [hs, List.pairwise_cons] at hsorted
  have hug : u < g.length := by rw [h.len_g]; exact hun
  have hadj : ∀ x, x ≠ u → (g.set u []).getD x [] = g.getD x [] := by
    intro x hx
    rw [getD_setAdj g u x [] hug, if_neg hx]
  have hadju : (g.set u []).getD u [] = [] := by
    rw [getD_setAdj g u u [] hug, if_pos rfl]
  have hmin : ∀ v, v < n → v ∉ ord → d ≤ st.dists.getD v 0 := by
    intro v hv hvo
    have hv2 : (st.dists.getD v 0, v) ∈ st.s := (h.mem_s _ v).mpr ⟨hv, hvo, rfl⟩
    rw [hs] at hv2
    rcases List.mem_cons.mp hv2 with heq | hin
    · have := congrArg Prod.fst heq
      simp only at this
      omega
    · have := hsorted.1 _ hin
      unfold pairLt at this
      simp only at this
      omega
  refine ⟨hun, huo, ?_⟩
  constructor
  · rw [List.length_set]; exact h.len_g
  · intro x e he
    by_cases hx : x = u
    · rw [hx, hadju] at he; cases he
    · rw [hadj x hx] at he; exact h.wf x e he
  · exact h.len_d
  · exact h.len_p
  · exact List.Nodup.append h.nodup (List.nodup_singleton u)
      (List.disjoint_singleton.mpr huo)
  · intro v hv
    rcases List.mem_append.mp hv with hv | hv
    · exact h.lt_n v hv
    · rw [List.mem_singleton.mp hv]; exact hun
  · intro _
    by_cases ho : ord = []
    · subst ho
      simp only [List.nil_append, List.head?_cons]
      by_contra hu0
      have hu0 : u ≠ 0 := fun h0 => hu0 (by rw [h0])
      have hdu : st.dists.getD u 0 = DBL_MAX := by
        rcases h.par u hun hu0 with hp | ⟨p, _, hp, _⟩
        · exact hp.2
        · simp [pos] at hp
      have h0n : 0 < n := by omega
      have := hmin 0 h0n (List.not_mem_nil 0)
      rw [h.d0 rfl] at this
      have hpos := DBL_MAX_pos
      have h0mem : ((0 : Int), 0) ∈ st.s :=
        (h.mem_s 0 0).mpr ⟨h0n, List.not_mem_nil 0, (h.d0 rfl).symm⟩
      rw [hs] at h0mem
      rcases List.mem_cons.mp h0mem with heq | hin
      · exact hu0 (congrArg Prod.snd heq).symm
      · have hlt := hsorted.1 _ hin
        unfold pairLt at hlt
        simp only at hlt
        omega
    · rw [List.head?_append_of_ne_nil _ ho]
      exact h.zero ho
  · intro hnil
    exact absurd hnil (by simp)
  · exact hsorted.2
  · intro d' v
    constructor
    · intro hv
      have hv2 : (d', v) ∈ st.s := by rw [hs]; exact List.mem_cons_of_mem _ hv
      obtain ⟨h1, h2, h3⟩ := (h.mem_s d' v).mp hv2
      refine ⟨h1, ?_, h3⟩
      intro hvo
      rcases List.mem_append.mp hvo with hvo | hvo
      · exact h2 hvo
      · have hvu : v = u := List.mem_singleton.mp hvo
        subst hvu
        have : d' = d := by rw [h3, hd]
        subst this
        exact pairLt_irrefl _ (hsorted.1 _ hv)
    · rintro ⟨h1, h2, h3⟩
      have hvo : v ∉ ord := fun hc => h2 (List.mem_append_left _ hc)
      have hvu : v ≠ u := fun hc => h2 (List.mem_append_right _ (List.mem_singleton.mpr hc))
      have hv2 : (d', v) ∈ st.s := (h.mem_s d' v).mpr ⟨h1, hvo, h3⟩
      rw [hs] at hv2
      rcases List.mem_cons.mp hv2 with heq | hin
      · exact absurd (congrArg Prod.snd heq) hvu
      · exact hin
  · exact h.par0
  · intro v hv hv0
    rcases h.par v hv hv0 with hp | ⟨p, hp1, hp2, hp3⟩
    · exact Or.inl hp
    · refine Or.inr ⟨p, hp1, ?_, ?_⟩
      · have hpo : p ∈ ord := mem_of_pos_lt ord p _ hp2 List.indexOf_le_length
        rw [pos_append_mem ord u p hpo]
        by_cases hvo : v ∈ ord
        · rw [pos_append_mem ord u v hvo]; exact hp2
        · have := pos_append_ge ord u v hvo
          have := List.indexOf_lt_length.mpr hpo
          unfold pos at *
          omega
      · have hpo : p ∈ ord := mem_of_pos_lt ord p _ hp2 List.indexOf_le_length
        rw [hadj p (fun hc => huo (hc ▸ hpo))]
        exact hp3
  · intro x hx e he heo
    rcases List.mem_append.mp hx with hx | hx
    · rw [hadj x (fun hc => huo (hc ▸ hx))] at he
      exact h.key x hx e he (fun hc => heo (List.mem_append_left _ hc))
    · rw [List.mem_singleton.mp hx, hadju] at he; cases he
  · intro v hv x hxv e he hev
    have hvle : pos (ord ++ [u]) v ≤ ord.length := by
      rcases List.mem_append.mp hv with hv | hv
      · rw [pos_append_mem ord u v hv]; exact List.indexOf_le_length
      · rw [List.mem_singleton.mp hv, pos_append_self ord u huo]
    have hxo : x ∈ ord := mem_of_pos_append_lt ord u x (by omega)
    have hxu : x ≠ u := fun hc => huo (hc ▸ hxo)
    rw [hadj x hxu] at he
    rw [pos_append_mem ord u x hxo] at hxv
    rcases List.mem_append.mp hv with hv | hv
    · rw [pos_append_mem ord u v hv] at hxv hev
      refine h.cert v hv x hxv e he ?_
      intro hc
      apply hev
      have heo : e.1 ∈ ord := mem_of_pos_lt ord e.1 _ hc List.indexOf_le_length
      rw [pos_append_mem ord u e.1 heo]
      exact hc
    · have hvu : v = u := List.mem_singleton.mp hv
      subst hvu
      rw [pos_append_self ord v huo] at hev
      have heo : e.1 ∉ ord := by
        intro hc
        apply hev
        rw [pos_append_mem ord v e.1 hc]
        exact List.indexOf_lt_length.mpr hc
      have h1 := h.key x hxo e he heo
      have h2 := hmin e.1 (h.wf x e he) heo
      simp only
      omega

theorem PrimInv_grow (g : Graph) (n : Nat) (st : PrimState) (ord : List Nat) (u : Nat)
    (pre : List (Nat × Int)) (e : Nat × Int) (huo : u ∉ ord) (hen : e.1 < n)
    (h : PrimInv (g.set u pre) n st (ord ++ [u]))
    (hkey : e.1 ∉ ord ++ [u] → st.dists.getD e.1 0 ≤ e.2) :
    PrimInv (g.set u (pre ++ [e])) n st (ord ++ [u]) := by
  have hlen : g.length = n := by rw [← h.len_g, List.length_set]
  have hug : u < g.length := by
    rw [hlen]; exact h.lt_n u (List.mem_append_right _ (List.mem_singleton.mpr rfl))
  have hadj : ∀ x, x ≠ u → (g.set u (pre ++ [e])).getD x [] = (g.set u pre).getD x [] := by
    intro x hx
    rw [getD_setAdj g u x _ hug, getD_setAdj g u x _ hug, if_neg hx, if_neg hx]
  have hadju : (g.set u (pre ++ [e])).getD u [] = (g.set u pre).getD u [] ++ [e] := by
    rw [getD_setAdj g u u _ hug, getD_setAdj g u u _ hug, if_pos rfl, if_pos rfl]
  have hmono : ∀ x y, y ∈ (g.set u pre).getD x [] → y ∈ (g.set u (pre ++ [e])).getD x [] := by
    intro x y hy
    by_cases hx : x = u
    · rw [hx, hadju]; rw [hx] at hy; exact List.mem_append_left _ hy
    · rw [hadj x hx]; exact hy
  have hlast : ∀ v x, v ∈ ord ++ [u] → pos (ord ++ [u]) x < pos (ord ++ [u]) v → x ≠ u := by
    intro v x hv hxv hxu
    rw [hxu, pos_append_self ord u huo] at hxv
    have : pos (ord ++ [u]) v < (ord ++ [u]).length := List.indexOf_lt_length.mpr hv
    rw [List.length_append, List.length_singleton] at this
    omega
  constructor
  · rw [List.length_set]; exact hlen
  · intro x y hy
    by_cases hx : x = u
    · rw [hx, hadju] at hy
      rcases List.mem_append.mp hy with hy | hy
      · exact h.wf u y hy
      · rw [List.mem_singleton.mp hy]; exact hen
    · rw [hadj x hx] at hy; exact h.wf x y hy
  · exact h.len_d
  · exact h.len_p
  · exact h.nodup
  · exact h.lt_n
  · exact h.zero
  · exact h.d0
  · exact h.sorted
  · exact h.mem_s
  · exact h.par0
  · intro v hv hv0
    rcases h.par v hv hv0 with hp | ⟨p, hp1, hp2, hp3⟩
    · exact Or.inl hp
    · exact Or.inr ⟨p, hp1, hp2, hmono _ _ hp3⟩
  · intro x hx y hy hyo
    by_cases hxu : x = u
    · rw [hxu, hadju] at hy
      rcases List.mem_append.mp hy with hy | hy
      · exact h.key u (hxu ▸ hx) y hy hyo
      · rw [List.mem_singleton.mp hy] at hyo ⊢
        exact hkey hyo
    · rw [hadj x hxu] at hy
      exact h.key x hx y hy hyo
  · intro v hv x hxv y hy hyv
    rw [hadj x (hlast v x hv hxv)] at hy
    exact h.cert v hv x hxv y hy hyv

/-- One entry of the adjacency list of the extracted vertex `u`. -/
theorem PrimInv_relax (g : Graph) (n : Nat) (st : PrimState) (ord : List Nat) (u : Nat)
    (pre : List (Nat × Int)) (e : Nat × Int) (huo : u ∉ ord) (hen : e.1 < n)
    (h : PrimInv (g.set u pre) n st (ord ++ [u])) :
    PrimInv (g.set u (pre ++ [e])) n (primRelax u st e) (ord ++ [u]) := by
  unfold primRelax
  split
  · rename_i hlt
    exact PrimInv_grow g n st ord u pre e huo hen h (fun _ => Int.le_of_lt hlt)
  · rename_i hnlt
    split
    · rename_i hmem
      obtain ⟨_, hto, _⟩ := (h.mem_s _ _).mp hmem
      have hw : e.2 ≤ st.dists.getD e.1 0 := not_lt.mp hnlt
      have hu' : u ∈ ord ++ [u] := List.mem_append_right _ (List.mem_singleton.mpr rfl)
      have hord0 : (0 : Nat) ∈ ord ++ [u] := by
        have hne : ord ++ [u] ≠ [] := by simp
        have := h.zero hne
        exact List.mem_of_mem_head? this
      have hto0 : e.1 ≠ 0 := fun hc => hto (hc ▸ hord0)
      have hdto : (st.dists.set e.1 e.2).getD e.1 0 = e.2 := by
        rw [getD_set_eq, if_pos ⟨rfl, by rw [h.len_d]; exact hen⟩]
      have hdv : ∀ v, v ≠ e.1 → (st.dists.set e.1 e.2).getD v 0 = st.dists.getD v 0 := by
        intro v hv
        rw [getD_set_eq, if_neg (fun hc => hv hc.1)]
      have hdle : ∀ v, (st.dists.set e.1 e.2).getD v 0 ≤ st.dists.getD v 0 := by
        intro v
        by_cases hv : v = e.1
        · rw [hv, hdto]; exact hw
        · rw [hdv v hv]
      have hpto : (st.parents.set e.1 (some u)).getD e.1 none = some u := by
        rw [getD_set_eq, if_pos ⟨rfl, by rw [h.len_p]; exact hen⟩]
      have hpv : ∀ v, v ≠ e.1 →
          (st.parents.set e.1 (some u)).getD v none = st.parents.getD v none := by
        intro v hv
        rw [getD_set_eq, if_neg (fun hc => hv hc.1)]
      have hlen : g.length = n := by rw [← h.len_g, List.length_set]
      have hug : u < g.length := by rw [hlen]; exact h.lt_n u hu'
      have hadj : ∀ x, x ≠ u →
          (g.set u (pre ++ [e])).getD x [] = (g.set u pre).getD x [] := by
        intro x hx
        rw [getD_setAdj g u x _ hug, getD_setAdj g u x _ hug, if_neg hx, if_neg hx]
      have hadju : (g.set u (pre ++ [e])).getD u [] = (g.set u pre).getD u [] ++ [e] := by
        rw [getD_setAdj g u u _ hug, getD_setAdj g u u _ hug, if_pos rfl, if_pos rfl]
      have hmono : ∀ x y, y ∈ (g.set u pre).getD x [] →
          y ∈ (g.set u (pre ++ [e])).getD x [] := by
        intro x y hy
        by_cases hx : x = u
        · rw [hx, hadju]; rw [hx] at hy; exact List.mem_append_left _ hy
        · rw [hadj x hx]; exact hy
      have hlast : ∀ v x, v ∈ ord ++ [u] → pos (ord ++ [u]) x < pos (ord ++ [u]) v → x ≠ u := by
        intro v x hv hxv hxu
        rw [hxu, pos_append_self ord u huo] at hxv
        have : pos (ord ++ [u]) v < (ord ++ [u]).length := List.indexOf_lt_length.mpr hv
        rw [List.length_append, List.length_singleton] at this
        omega
      constructor
      · rw [List.length_set]; exact hlen
      · intro x y hy
        by_cases hx : x = u
        · rw [hx, hadju] at hy
          rcases List.mem_append.mp hy with hy | hy
          · exact h.wf u y hy
          · rw [List.mem_singleton.mp hy]; exact hen
        · rw [hadj x hx] at hy; exact h.wf x y hy
      · simp only [List.length_set]; exact h.len_d
      · simp only [List.length_set]; exact h.len_p
      · exact h.nodup
      · exact h.lt_n
      · exact h.zero
      · intro hc; exact absurd hc (by simp)
      · exact setInsert_sorted _ _ (h.sorted.sublist (List.erase_sublist _ _))
      · intro d' v
        simp only
        rw [mem_setInsert, (sorted_nodup _ h.sorted).mem_erase_iff, h.mem_s]
        constructor
        · rintro (heq | ⟨hne, h1, h2, h3⟩)
          · have hv : v = e.1 := congrArg Prod.snd heq
            have hd' : d' = e.2 := congrArg Prod.fst heq
            subst hv
            exact ⟨hen, hto, by rw [hdto]; exact hd'⟩
          · have hv : v ≠ e.1 := by
              intro hc
              apply hne
              rw [h3, hc]
            exact ⟨h1, h2, by rw [hdv v hv]; exact h3⟩
        · rintro ⟨h1, h2, h3⟩
          by_cases hv : v = e.1
          · left
            rw [h3, hv, hdto]
          · right
            rw [hdv v hv] at h3
            refine ⟨?_, h1, h2, h3⟩
            intro hc
            exact hv (congrArg Prod.snd hc)
      · simp only
        rw [hpv 0 (fun hc => hto0 hc.symm)]
        exact h.par0
      · intro v hv hv0
        simp only
        by_cases hvto : v = e.1
        · right
          refine ⟨u, by rw [hvto]; exact hpto, ?_, ?_⟩
          · rw [hvto, pos_append_self ord u huo]
            have := pos_append_ge ord u e.1 (fun hc => hto (List.mem_append_left _ hc))
            have h2 : pos (ord ++ [u]) e.1 = (ord ++ [u]).length :=
              List.indexOf_eq_length.mpr hto
            rw [h2, List.length_append, List.length_singleton]
            omega
          · rw [hvto, hdto, hadju]
            exact List.mem_append_right _ (List.mem_singleton.mpr rfl)
        · rw [hpv v hvto, hdv v hvto]
          rcases h.par v hv hv0 with hp | ⟨p, hp1, hp2, hp3⟩
          · exact Or.inl hp
          · exact Or.inr ⟨p, hp1, hp2, hmono _ _ hp3⟩
      · intro x hx y hy hyo
        simp only
        by_cases hxu : x = u
        · rw [hxu, hadju] at hy
          rcases List.mem_append.mp hy with hy | hy
          · exact (hdle y.1).trans (h.key u hu' y hy hyo)
          · rw [List.mem_singleton.mp hy, hdto]
        · rw [hadj x hxu] at hy
          exact (hdle y.1).trans (h.key x hx y hy hyo)
      · intro v hv x hxv y hy hyv
        simp only
        rw [hadj x (hlast v x hv hxv)] at hy
        rw [hdv v (fun hc => hto (hc ▸ hv))]
        exact h.cert v hv x hxv y hy hyv
    · rename_i hnmem
      refine PrimInv_grow g n st ord u pre e huo hen h (fun hc => ?_)
      exact absurd ((h.mem_s _ _).mpr ⟨hen, hc, rfl⟩) hnmem

theorem PrimInv_relaxAll (g : Graph) (n : Nat) (ord : List Nat) (u : Nat) (huo : u ∉ ord)
    (post : List (Nat × Int)) (hpost : ∀ e ∈ post, e.1 < n) (pre : List (Nat × Int))
    (st : PrimState) (h : PrimInv (g.set u pre) n st (ord ++ [u])) :
    PrimInv (g.set u (pre ++ post)) n (post.foldl (primRelax u) st) (ord ++ [u]) := by
  induction post generalizing pre st with
  | nil => simpa using h
  | cons e post ih =>
    have h1 := PrimInv_relax g n st ord u pre e huo (hpost e (List.mem_cons_self _ _)) h
    have h2 := ih (fun x hx => hpost x (List.mem_cons_of_mem _ hx)) (pre ++ [e]) _ h1
    simpa using h2

theorem set_getD_self (g : Graph) (u : Nat) (hu : u < g.length) : g.set u (g.getD u []) = g := by
  induction g generalizing u with
  | nil => cases hu
  | cons a g ih =>
    cases u with
    | zero => rfl
    | succ u =>
      simp only [List.set_cons_succ, List.getD_cons_succ]
      rw [ih u (by simpa using hu)]

/-- One iteration of the main loop of Prim keeps the invariant and appends the extracted
  vertex to the order. -/
theorem PrimInv_step (g : Graph) (n : Nat) (st : PrimState) (ord : List Nat) (d : Int)
    (u : Nat) (rest : List (Int × Nat)) (h : PrimInv g n st ord) (hs : st.s = (d, u) :: rest) :
    PrimInv g n (primStep g st u rest) (ord ++ [u]) := by
  obtain ⟨hun, huo, h1⟩ := PrimInv_extract g n st ord d u rest h hs
  have hug : u < g.length := by rw [h.len_g]; exact hun
  have h2 := PrimInv_relaxAll g n ord u huo (g.getD u []) (fun e he => h.wf u e he) [] _ h1
  rw [List.nil_append, set_getD_self g u hug] at h2
  exact h2

/-- The main loop of Prim: with enough iterations the set is empty at the end and the
  invariant holds for an order that extends the initial one. -/
theorem PrimInv_loop (g : Graph) (n : Nat) (fuel : Nat) (st : PrimState) (ord : List Nat)
    (h : PrimInv g n st ord) (hf : st.s.length ≤ fuel) :
    ∃ ord', PrimInv g n (primLoop g fuel st) ord' ∧ (primLoop g fuel st).s = [] := by
  induction fuel generalizing st ord with
  | zero =>
    exact ⟨ord, h, List.length_eq_zero.mp (Nat.le_zero.mp hf)⟩
  | succ k ih =>
    unfold primLoop
    split
    · rename_i hs; exact ⟨ord, h, hs⟩
    · rename_i p rest hs
      have hstep := PrimInv_step g n st ord p.1 p.2 rest h hs
      apply ih _ (ord ++ [p.2]) hstep
      have := primStep_length g st p.2 rest
      rw [hs, List.length_cons] at hf
      omega

/-! ## Prim: the initial state -/

/-- The state after `m` rounds of the initialisation loop of Prim. -/
theorem primInit_fold (n m : Nat) (hm : m + 1 ≤ n) :
    let st := (List.range' 1 m).foldl
      (fun (st : PrimState) i =>
        { st with
          s := setInsert ((st.dists.set i DBL_MAX).getD i 0, i) st.s
          dists := st.dists.set i DBL_MAX })
      { s := setInsert (((List.replicate n (0 : Int)).set 0 0).getD 0 0, 0) []
        dists := (List.replicate n (0 : Int)).set 0 0
        parents := List.replicate n none }
    st.dists.length = n ∧ st.parents = List.replicate n none
      ∧ (∀ i, st.dists.getD i 0 = if 1 ≤ i ∧ i ≤ m then DBL_MAX else 0)
      ∧ st.s.Pairwise pairLt
      ∧ ∀ d v, (d, v) ∈ st.s ↔ (v = 0 ∧ d = 0) ∨ (1 ≤ v ∧ v ≤ m ∧ d = DBL_MAX) := by
  induction m with
  | zero =>
    simp only [List.range'_zero, List.foldl_nil]
    refine ⟨by simp, trivial, ?_, ?_, ?_⟩
    · intro i
      rw [getD_set_eq]
      have : ¬ (1 ≤ i ∧ i ≤ 0) := by omega
      rw [if_neg this]
      split
      · rfl
      · simp only [List.getD_eq_getElem?_getD, List.getElem?_replicate]
        split <;> rfl
    · simp [setInsert]
    · intro d v
      have h0 : ((List.replicate n (0 : Int)).set 0 0).getD 0 0 = 0 := by
        rw [getD_set_eq]; split <;> simp
      rw [h0]
      simp only [setInsert, List.mem_singleton, Prod.mk.injEq]
      constructor
      · rintro ⟨h1, h2⟩; exact Or.inl ⟨h2, h1⟩
      · rintro (⟨h1, h2⟩ | ⟨h1, h2, _⟩)
        · exact ⟨h2, h1⟩
        · omega
  | succ m ih =>
    have ih := ih (by omega)
    simp only at ih
    rw [List.range'_1_concat, List.foldl_append]
    simp only [List.foldl_cons, List.foldl_nil]
    obtain ⟨h1, h2, h3, h4, h5⟩ := ih
    have hget : ∀ (l : List Int), l.length = n → (l.set (1 + m) DBL_MAX).getD (1 + m) 0 = DBL_MAX := by
      intro l hl
      rw [getD_set_eq, if_pos ⟨rfl, by omega⟩]
    refine ⟨by rw [List.length_set]; exact h1, h2, ?_, ?_, ?_⟩
    · intro i
      rw [getD_set_eq, h3 i]
      by_cases hi : i = 1 + m
      · rw [if_pos ⟨hi, by omega⟩, if_pos (by omega)]
      · rw [if_neg (fun hc => hi hc.1)]
        by_cases hi2 : 1 ≤ i ∧ i ≤ m
        · rw [if_pos hi2, if_pos (by omega)]
        · rw [if_neg hi2, if_neg (by omega)]
    · exact setInsert_sorted _ _ h4
    · intro d v
      rw [mem_setInsert, h5 d v, hget _ h1]
      simp only [Prod.mk.injEq]
      constructor
      · rintro (⟨hd, hv⟩ | hc | ⟨hv1, hv2, hd⟩)
        · exact Or.inr ⟨by omega, by omega, hd⟩
        · exact Or.inl hc
        · exact Or.inr ⟨hv1, by omega, hd⟩
      · rintro (hc | ⟨hv1, hv2, hd⟩)
        · exact Or.inr (Or.inl hc)
        · by_cases hv : v = 1 + m
          · exact Or.inl ⟨hd, hv⟩
          · exact Or.inr (Or.inr ⟨hv1, by omega, hd⟩)

theorem PrimInv_init (g : Graph) (hn : 1 ≤ g.length) (hwf : WellFormed g) :
    PrimInv g g.length (primInit g) [] := by
  have hfold := primInit_fold g.length (g.length - 1) (by omega)
  simp only at hfold
  obtain ⟨h1, h2, h3, h4, h5⟩ := hfold
  have hpar : ∀ v, (primInit g).parents.getD v none = none := by
    intro v
    unfold primInit
    rw [h2]
    simp only [List.getD_eq_getElem?_getD, List.getElem?_replicate]
    split <;> rfl
  constructor
  · rfl
  · exact hwf
  · exact h1
  · unfold primInit; rw [h2]; exact List.length_replicate _ _
  · exact List.nodup_nil
  · intro v hv; cases hv
  · intro hc; exact absurd rfl hc
  · intro _
    unfold primInit
    rw [h3 0, if_neg (by omega)]
  · exact h4
  · intro d v
    unfold primInit
    rw [h5 d v, h3 v]
    constructor
    · rintro (⟨hv, hd⟩ | ⟨hv1, hv2, hd⟩)
      · subst hv
        exact ⟨by omega, List.not_mem_nil _, by rw [if_neg (by omega)]; exact hd⟩
      · exact ⟨by omega, List.not_mem_nil _, by rw [if_pos ⟨hv1, hv2⟩]; exact hd⟩
    · rintro ⟨hv, _, hd⟩
      by_cases hv0 : v = 0
      · subst hv0
        rw [if_neg (by omega)] at hd
        exact Or.inl ⟨rfl, hd⟩
      · rw [if_pos ⟨by omega, by omega⟩] at hd
        exact Or.inr ⟨by omega, by omega, hd⟩
  · exact hpar 0
  · intro v hv hv0
    left
    refine ⟨hpar v, ?_⟩
    unfold primInit
    rw [h3 v, if_pos ⟨by omega, by omega⟩]
  · intro x hx; cases hx
  · intro v hv; cases hv

/-- The state of Prim after its main loop: the set is empty, and the invariant holds for an
  order of extraction that contains every vertex. -/
theorem primRun_spec (g : Graph) (hn : 1 ≤ g.length) (hwf : WellFormed g) :
    (primRun g).s = []
    ∧ ∃ ord, PrimInv g g.length (primRun g) ord ∧ ∀ v, v < g.length → v ∈ ord := by
  have hinit := PrimInv_init g hn hwf
  have hlen : (primInit g).s.length ≤ g.length := by
    have hnd := sorted_nodup _ hinit.sorted
    have hsub : (primInit g).s ⊆ (List.range g.length).map
        (fun v => ((primInit g).dists.getD v 0, v)) := by
      intro p hp
      obtain ⟨h1, _, h3⟩ := (hinit.mem_s p.1 p.2).mp hp
      exact List.mem_map.mpr ⟨p.2, List.mem_range.mpr h1, by rw [← h3]⟩
    have := (List.subperm_of_subset hnd hsub).length_le
    simpa using this
  obtain ⟨ord, hinv, hs⟩ := PrimInv_loop g g.length g.length (primInit g) [] hinit hlen
  refine ⟨hs, ord, hinv, ?_⟩
  intro v hv
  by_contra hvo
  have := (hinv.mem_s _ v).mpr ⟨hv, hvo, rfl⟩
  unfold primRun at this
  rw [hs] at this
  cases this

theorem primInit_length (g : Graph) (hn : 1 ≤ g.length) :
    (primInit g).s.length ≤ g.length := by
  have hfold := primInit_fold g.length (g.length - 1) (by omega)
  simp only at hfold
  obtain ⟨_, _, _, h4, h5⟩ := hfold
  have hnd := sorted_nodup _ h4
  have hsub : (primInit g).s ⊆ (List.range g.length).map
      (fun v => ((if v = 0 then (0 : Int) else DBL_MAX), v)) := by
    intro p hp
    unfold primInit at hp
    rcases (h5 p.1 p.2).mp hp with ⟨hv, hd⟩ | ⟨h1, h2, hd⟩
    · refine List.mem_map.mpr ⟨0, List.mem_range.mpr (by omega), ?_⟩
      exact Prod.ext (by simp [hd]) (by simp [hv])
    · refine List.mem_map.mpr ⟨p.2, List.mem_range.mpr (by omega), ?_⟩
      have : ¬ p.2 = 0 := by omega
      exact Prod.ext (by simp [this, hd]) rfl
  have := (List.subperm_of_subset hnd hsub).length_le
  rw [List.length_map, List.length_range] at this
  exact this

/-- The loop of Prim ends with the empty set within `g.size()` iterations, for every
  non-empty graph. -/
theorem primRun_s (g : Graph) (hn : 1 ≤ g.length) : (primRun g).s = [] :=
  primLoop_s g g.length (primInit g) (primInit_length g hn)

/-! ## Prim: the parent assignment is a tree rooted at 0 -/

theorem wellFormed_of_check (g : Graph) (h : wellFormedCheck g = true) : WellFormed g := by
  intro u e he
  unfold wellFormedCheck at h
  rw [List.all_eq_true] at h
  by_cases hu : u < g.length
  · have h1 := h (g.getD u []) (getD_mem g u [] hu)
    rw [List.all_eq_true] at h1
    exact of_decide_eq_true (h1 e he)
  · rw [getD_nil_of_le g u (Nat.le_of_not_lt hu)] at he
    cases he

theorem Prim_ok (g : Graph) (parents : List (Option Nat)) (h : Prim g = Outcome.ok parents) :
    1 ≤ g.length ∧ parents = (primRun g).parents
      ∧ ∀ i, 1 ≤ i → i < parents.length → ∃ p, parents.getD i none = some p := by
  unfold Prim at h
  split at h
  · cases h
  · rename_i hn
    simp only at h
    split at h
    · rename_i hall
      injection h with h
      subst h
      refine ⟨by omega, rfl, ?_⟩
      intro i hi1 hi2
      rw [List.all_eq_true] at hall
      have := hall i (List.mem_range'_1.mpr ⟨hi1, by omega⟩)
      exact Option.isSome_iff_exists.mp this
    · cases h

theorem ord_length_le (g : Graph) (n : Nat) (st : PrimState) (ord : List Nat)
    (h : PrimInv g n st ord) : ord.length ≤ n := by
  have hsub : ord ⊆ List.range n := fun v hv => List.mem_range.mpr (h.lt_n v hv)
  have := (List.subperm_of_subset h.nodup hsub).length_le
  simpa using this

theorem ancestor_pos (g : Graph) (n : Nat) (st : PrimState) (ord : List Nat)
    (h : PrimInv g n st ord) (k : Nat) :
    ∀ i a, ancestor st.parents k i = some a → pos ord a + k ≤ pos ord i := by
  induction k with
  | zero =>
    intro i a ha
    simp only [ancestor, Option.some.injEq] at ha
    rw [ha]; exact Nat.le_refl _
  | succ k ih =>
    intro i a ha
    unfold ancestor at ha
    split at ha
    · rename_i p hp
      have hi0 : i ≠ 0 := by
        intro hc
        rw [hc, h.par0] at hp
        cases hp
      have hin : i < n := by
        by_contra hc
        rw [List.getD_eq_getElem?_getD,
          List.getElem?_eq_none (by rw [h.len_p]; omega)] at hp
        cases hp
      rcases h.par i hin hi0 with hnone | ⟨p', hp1, hp2, _⟩
      · rw [hnone.1] at hp; cases hp
      · rw [hp] at hp1
        injection hp1 with hp1
        subst hp1
        have := ih p a ha
        omega
    · cases ha

theorem ancestor_reaches_root (g : Graph) (n : Nat) (st : PrimState) (ord : List Nat)
    (h : PrimInv g n st ord)
    (hsome : ∀ i, 1 ≤ i → i < n → ∃ p, st.parents.getD i none = some p) (m : Nat) :
    ∀ i, i < n → pos ord i ≤ m → ∃ k, k ≤ m ∧ ancestor st.parents k i = some 0 := by
  induction m with
  | zero =>
    intro i hi hpos
    by_cases hi0 : i = 0
    · exact ⟨0, Nat.le_refl _, by rw [hi0]; rfl⟩
    · exfalso
      obtain ⟨p, hp⟩ := hsome i (by omega) hi
      rcases h.par i hi hi0 with hnone | ⟨p', _, hp2, _⟩
      · rw [hnone.1] at hp; cases hp
      · omega
  | succ m ih =>
    intro i hi hpos
    by_cases hi0 : i = 0
    · exact ⟨0, Nat.zero_le _, by rw [hi0]; rfl⟩
    · obtain ⟨p, hp⟩ := hsome i (by omega) hi
      rcases h.par i hi hi0 with hnone | ⟨p', hp1, hp2, _⟩
      · rw [hnone.1] at hp; cases hp
      · have hpo : p' ∈ ord := mem_of_pos_lt ord p' _ hp2 List.indexOf_le_length
        obtain ⟨k, hk, hanc⟩ := ih p' (h.lt_n p' hpo) (by omega)
        refine ⟨k + 1, by omega, ?_⟩
        unfold ancestor
        rw [hp1]
        exact hanc

/-- Claim C4: whenever Prim returns a parent assignment for a graph whose adjacency lists
  name vertices only, the graph has n >= 1 vertices, the assignment has n entries, the
  entry of vertex i is none exactly for i = 0 (one root, vertex 0), every parent is a
  vertex, following the parents from any vertex reaches vertex 0 in fewer than n steps (so
  every vertex is in the tree), and no vertex is its own ancestor (no cycle). -/
theorem prim_parents_form_rooted_tree (g : Graph) (parents : List (Option Nat))
    (hwf : WellFormed g) (h : Prim g = Outcome.ok parents) :
    1 ≤ g.length ∧ parents.length = g.length
    ∧ (∀ i, i < g.length → (parents.getD i none = none ↔ i = 0))
    ∧ (∀ i p, parents.getD i none = some p → i < g.length ∧ p < g.length)
    ∧ (∀ i, i < g.length → ∃ k, k < g.length ∧ ancestor parents k i = some 0)
    ∧ (∀ i k, 1 ≤ k → ancestor parents k i ≠ some i) := by
  obtain ⟨hn, hpar, hsome⟩ := Prim_ok g parents h
  obtain ⟨_, ord, hinv, hall⟩ := primRun_spec g hn hwf
  subst hpar
  have hlen := hinv.len_p
  rw [hlen] at hsome
  refine ⟨hn, hlen, ?_, ?_, ?_, ?_⟩
  · intro i hi
    constructor
    · intro hnone
      by_contra hi0
      obtain ⟨p, hp⟩ := hsome i (by omega) hi
      rw [hnone] at hp
      cases hp
    · intro hi0
      rw [hi0]
      exact hinv.par0
  · intro i p hp
    have hin : i < g.length := by
      by_contra hc
      rw [List.getD_eq_getElem?_getD, List.getElem?_eq_none (by rw [hlen]; omega)] at hp
      cases hp
    have hi0 : i ≠ 0 := by
      intro hc
      rw [hc, hinv.par0] at hp
      cases hp
    rcases hinv.par i hin hi0 with hnone | ⟨p', hp1, hp2, _⟩
    · rw [hnone.1] at hp; cases hp
    · rw [hp] at hp1
      injection hp1 with hp1
      subst hp1
      exact ⟨hin, hinv.lt_n p (mem_of_pos_lt ord p _ hp2 List.indexOf_le_length)⟩
  · intro i hi
    obtain ⟨k, hk, hanc⟩ := ancestor_reaches_root g g.length _ ord hinv hsome (pos ord i) i hi
      (Nat.le_refl _)
    have h1 : pos ord i < ord.length := List.indexOf_lt_length.mpr (hall i hi)
    have h2 := ord_length_le g g.length _ ord hinv
    exact ⟨k, by omega, hanc⟩
  · intro i k hk hanc
    have := ancestor_pos g g.length _ ord hinv k i i hanc
    omega

set_option maxRecDepth 100000 in
/-- Witness of claim C4: the complete graph of the scenario points. -/
theorem prim_parents_form_rooted_tree_witness :
    WellFormed (bruteGraph scenarioPoints)
    ∧ Prim (bruteGraph scenarioPoints) = Outcome.ok [none, some 0, some 1, some 1]
    ∧ (1 ≤ (bruteGraph scenarioPoints).length
      ∧ [none, some 0, some 1, some 1].length = (bruteGraph scenarioPoints).length
      ∧ (∀ i, i < (bruteGraph scenarioPoints).length →
          (([none, some 0, some 1, some 1] : List (Option Nat)).getD i none = none ↔ i = 0))
      ∧ (∀ i p, ([none, some 0, some 1, some 1] : List (Option Nat)).getD i none = some p →
          i < (bruteGraph scenarioPoints).length ∧ p < (bruteGraph scenarioPoints).length)
      ∧ (∀ i, i < (bruteGraph scenarioPoints).length → ∃ k, k < (bruteGraph scenarioPoints).length
          ∧ ancestor [none, some 0, some 1, some 1] k i = some 0)
      ∧ (∀ i k, 1 ≤ k → ancestor [none, some 0, some 1, some 1] k i ≠ some i)) :=
  ⟨wellFormed_of_check _ (by decide), by decide,
    prim_parents_form_rooted_tree (bruteGraph scenarioPoints) [none, some 0, some 1, some 1]
      (wellFormed_of_check _ (by decide)) (by decide)⟩

/-! ## Spanning trees: the exchange step -/

theorem crossing_last (r : Nat → Nat → Prop) (S : Nat → Prop) (a b : Nat)
    (h : Relation.ReflTransGen r a b) (hb : ¬ S b) :
    (¬ S a ∧ Relation.ReflTransGen (fun c d => r c d ∧ ¬ S c ∧ ¬ S d) a b)
    ∨ ∃ x y, S x ∧ ¬ S y ∧ r x y
        ∧ Relation.ReflTransGen (fun c d => r c d ∧ ¬ S c ∧ ¬ S d) y b := by
  induction h using Relation.ReflTransGen.head_induction_on with
  | refl => exact Or.inl ⟨hb, Relation.ReflTransGen.refl⟩
  | @head a c hac _ ih =>
    rcases ih with ⟨hc, hcb⟩ | hex
    · by_cases ha : S a
      · exact Or.inr ⟨a, c, ha, hc, hac, hcb⟩
      · exact Or.inl ⟨ha, Relation.ReflTransGen.head ⟨hac, ha, hc⟩ hcb⟩
    · exact Or.inr hex

theorem crossing_exists (r : Nat → Nat → Prop) (S : Nat → Prop) (a b : Nat)
    (h : Relation.ReflTransGen r a b) (ha : S a) (hb : ¬ S b) :
    ∃ x y, S x ∧ ¬ S y ∧ r x y
      ∧ Relation.ReflTransGen (fun c d => r c d ∧ ¬ S c ∧ ¬ S d) y b := by
  rcases crossing_last r S a b h hb with ⟨hna, _⟩ | hex
  · exact absurd ha hna
  · exact hex

theorem Joined_symm (T : List Edge) : Symmetric (Joined T) := by
  rintro a b ⟨w, h | h⟩
  · exact ⟨w, Or.inr h⟩
  · exact ⟨w, Or.inl h⟩

theorem Reach_symm (T : List Edge) {a b : Nat} (h : Relation.ReflTransGen (Joined T) a b) :
    Relation.ReflTransGen (Joined T) b a :=
  Relation.ReflTransGen.symmetric (Joined_symm T) h

theorem Joined_mono {T T' : List Edge} (h : ∀ e ∈ T, e ∈ T') {a b : Nat} (hj : Joined T a b) :
    Joined T' a b := by
  rcases hj with ⟨w, hw | hw⟩
  · exact ⟨w, Or.inl (h _ hw)⟩
  · exact ⟨w, Or.inr (h _ hw)⟩

theorem Reach_mono {T T' : List Edge} (h : ∀ e ∈ T, e ∈ T') {a b : Nat}
    (hr : Relation.ReflTransGen (Joined T) a b) : Relation.ReflTransGen (Joined T') a b :=
  Relation.ReflTransGen.mono (fun _ _ hj => Joined_mono h hj) hr

theorem treeWeight_append (T1 T2 : List Edge) :
    treeWeight (T1 ++ T2) = treeWeight T1 + treeWeight T2 := by
  simp [treeWeight]

theorem treeWeight_perm {T1 T2 : List Edge} (h : T1.Perm T2) : treeWeight T1 = treeWeight T2 :=
  (h.map _).sum_eq

theorem treeWeight_erase (R : List Edge) (f : Edge) (hf : f ∈ R) :
    treeWeight R = f.2.2 + treeWeight (R.erase f) := by
  induction R with
  | nil => cases hf
  | cons a R ih =>
    by_cases ha : a = f
    · subst ha
      simp [treeWeight]
    · have hf' : f ∈ R := by
        rcases List.mem_cons.mp hf with h | h
        · exact absurd h.symm ha
        · exact h
      have hb : (a == f) = false := by simpa using ha
      rw [List.erase_cons, hb]
      have := ih hf'
      simp only [treeWeight, List.map_cons, List.sum_cons, Bool.false_eq_true, if_false]
        at this ⊢
      omega

/-- The exchange step: in a connected list of edges `E ++ R`, where the edges of `E` stay
  inside the vertex set `S` and join all of `S` to 0, an edge from `p` inside `S` to `v`
  outside can replace an edge `f` of `R` that leaves `S`, and the list stays connected. -/
theorem exchange_step (n : Nat) (S : Nat → Prop) (E R : List Edge) (p v : Nat) (w : Int)
    (hS0 : S 0) (hp : S p) (hv : ¬ S v) (hvn : v < n)
    (hE : ∀ e ∈ E, S e.1 ∧ S e.2.1)
    (hES : ∀ x, S x → Relation.ReflTransGen (Joined E) 0 x)
    (hconn : ∀ z, z < n → Relation.ReflTransGen (Joined (E ++ R)) 0 z) :
    ∃ f, f ∈ R ∧ ((S f.1 ∧ ¬ S f.2.1) ∨ (¬ S f.1 ∧ S f.2.1))
      ∧ ∀ z, z < n → Relation.ReflTransGen (Joined ((E ++ [(p, v, w)]) ++ R.erase f)) 0 z := by
  obtain ⟨a, b, ha, hb, hab, hout⟩ :=
    crossing_exists (Joined (E ++ R)) S 0 v (hconn v hvn) hS0 hv
  -- the edge of the list that joins a and b
  obtain ⟨f, hfT, hfab⟩ : ∃ f : Edge, f ∈ E ++ R
      ∧ ((f.1 = a ∧ f.2.1 = b) ∨ (f.1 = b ∧ f.2.1 = a)) := by
    rcases hab with ⟨w', h | h⟩
    · exact ⟨_, h, Or.inl ⟨rfl, rfl⟩⟩
    · exact ⟨_, h, Or.inr ⟨rfl, rfl⟩⟩
  have hfE : f ∉ E := by
    intro hc
    have := hE f hc
    rcases hfab with ⟨h1, h2⟩ | ⟨h1, h2⟩
    · rw [h2] at this; exact hb this.2
    · rw [h1] at this; exact hb this.1
  have hfR : f ∈ R := by
    rcases List.mem_append.mp hfT with h | h
    · exact absurd h hfE
    · exact h
  have hcross : (S f.1 ∧ ¬ S f.2.1) ∨ (¬ S f.1 ∧ S f.2.1) := by
    rcases hfab with ⟨h1, h2⟩ | ⟨h1, h2⟩
    · left; rw [h1, h2]; exact ⟨ha, hb⟩
    · right; rw [h1, h2]; exact ⟨hb, ha⟩
  refine ⟨f, hfR, hcross, ?_⟩
  -- edges other than f survive
  have hkeep : ∀ e, e ∈ E ++ R → e ≠ f → e ∈ (E ++ [(p, v, w)]) ++ R.erase f := by
    intro e he hne
    rcases List.mem_append.mp he with h | h
    · exact List.mem_append_left _ (List.mem_append_left _ h)
    · exact List.mem_append_right _ ((List.mem_erase_of_ne hne).mpr h)
  have hEsub : ∀ e ∈ E, e ∈ (E ++ [(p, v, w)]) ++ R.erase f :=
    fun e he => List.mem_append_left _ (List.mem_append_left _ he)
  -- a and b stay joined
  have hbv : Relation.ReflTransGen (Joined ((E ++ [(p, v, w)]) ++ R.erase f)) b v := by
    refine Relation.ReflTransGen.mono ?_ hout
    rintro c d ⟨⟨w', h | h⟩, hc, hd⟩
    · refine ⟨w', Or.inl (hkeep _ h ?_)⟩
      intro heq
      rcases hcross with ⟨h1, _⟩ | ⟨_, h2⟩
      · rw [← heq] at h1; exact hc h1
      · rw [← heq] at h2; exact hd h2
    · refine ⟨w', Or.inr (hkeep _ h ?_)⟩
      intro heq
      rcases hcross with ⟨h1, _⟩ | ⟨_, h2⟩
      · rw [← heq] at h1; exact hd h1
      · rw [← heq] at h2; exact hc h2
  have hpv : Joined ((E ++ [(p, v, w)]) ++ R.erase f) p v :=
    ⟨w, Or.inl (List.mem_append_left _ (List.mem_append_right _ (List.mem_singleton.mpr rfl)))⟩
  have hap : Relation.ReflTransGen (Joined ((E ++ [(p, v, w)]) ++ R.erase f)) a p :=
    (Reach_symm _ (Reach_mono hEsub (hES a ha))).trans (Reach_mono hEsub (hES p hp))
  have hab' : Relation.ReflTransGen (Joined ((E ++ [(p, v, w)]) ++ R.erase f)) a b :=
    (hap.tail hpv).trans (Reach_symm _ hbv)
  have hall : ∀ c d, Relation.ReflTransGen (Joined (E ++ R)) c d →
      Relation.ReflTransGen (Joined ((E ++ [(p, v, w)]) ++ R.erase f)) c d := by
    intro c d hcd
    induction hcd with
    | refl => exact Relation.ReflTransGen.refl
    | @tail x y _ hxy ih =>
      refine ih.trans ?_
      rcases hxy with ⟨w', h | h⟩
      · by_cases hne : ((x, y, w') : Edge) = f
        · rcases hfab with ⟨h1, h2⟩ | ⟨h1, h2⟩
          · rw [← hne] at h1 h2; simp only at h1 h2; rw [h1, h2]; exact hab'
          · rw [← hne] at h1 h2; simp only at h1 h2; rw [h1, h2]; exact Reach_symm _ hab'
        · exact Relation.ReflTransGen.single ⟨w', Or.inl (hkeep _ h hne)⟩
      · by_cases hne : ((y, x, w') : Edge) = f
        · rcases hfab with ⟨h1, h2⟩ | ⟨h1, h2⟩
          · rw [← hne] at h1 h2; simp only at h1 h2; rw [h1, h2]; exact Reach_symm _ hab'
          · rw [← hne] at h1 h2; simp only at h1 h2; rw [h1, h2]; exact hab'
        · exact Relation.ReflTransGen.single ⟨w', Or.inr (hkeep _ h hne)⟩
  exact fun z hz => hall 0 z (hconn z hz)

/-! ## Spanning trees: a tree grown by minimum crossing edges is minimal -/

theorem order_length (n : Nat) (ord : List Nat) (hnd : ord.Nodup)
    (hall : ∀ v, v < n → v ∈ ord) (hlt : ∀ v ∈ ord, v < n) : ord.Perm (List.range n) :=
  (List.perm_ext_iff_of_nodup hnd (List.nodup_range n)).mpr
    (fun v => ⟨fun h => List.mem_range.mpr (hlt v h), fun h => hall v (List.mem_range.mp h)⟩)

theorem grown_tree_prefix (g : Graph) (hmir : Mirrored g) (ord : List Nat) (par : Nat → Nat)
    (d : Nat → Int) (hnd : ord.Nodup) (hhead : ord.head? = some 0)
    (hlt : ∀ v ∈ ord, v < g.length)
    (hcert : ∀ l1 v post, ord = l1 ++ v :: post → l1 ≠ [] →
      par v ∈ l1 ∧ (v, d v) ∈ g.getD (par v) []
        ∧ ∀ x ∈ l1, ∀ e ∈ g.getD x [], e.1 ∉ l1 → d v ≤ e.2)
    (T : List Edge) (hT : IsSpanningTree g T) (l1 : List Nat) :
    ∀ post, ord = l1 ++ post → l1 ≠ [] →
      (∀ x ∈ l1, Relation.ReflTransGen (Joined (l1.tail.map (fun v => (par v, v, d v)))) 0 x)
      ∧ (∀ e ∈ l1.tail.map (fun v => ((par v, v, d v) : Edge)), e.1 ∈ l1 ∧ e.2.1 ∈ l1)
      ∧ (∀ e ∈ l1.tail.map (fun v => ((par v, v, d v) : Edge)),
          (e.2.1, e.2.2) ∈ g.getD e.1 [])
      ∧ ∃ R : List Edge, (∀ e ∈ R, (e.2.1, e.2.2) ∈ g.getD e.1 [])
          ∧ (l1.tail.map (fun v => ((par v, v, d v) : Edge))).length + R.length + 1 = g.length
          ∧ (∀ z, z < g.length → Relation.ReflTransGen
              (Joined (l1.tail.map (fun v => ((par v, v, d v) : Edge)) ++ R)) 0 z)
          ∧ treeWeight (l1.tail.map (fun v => ((par v, v, d v) : Edge)) ++ R)
              ≤ treeWeight T := by
  induction l1 using List.reverseRecOn with
  | nil => intro post _ hne; exact absurd rfl hne
  | append_singleton l1 v ih =>
    intro post hord _
    by_cases hl1 : l1 = []
    · subst hl1
      have hv0 : v = 0 := by
        rw [hord] at hhead
        simpa using hhead
      subst hv0
      simp only [List.nil_append, List.tail_cons, List.map_nil, List.not_mem_nil,
        List.mem_singleton, List.length_nil, Nat.zero_add, false_implies, implies_true,
        true_and, List.nil_append]
      refine ⟨fun x hx => by rw [hx], T, hT.1, ?_, hT.2.2, le_refl _⟩
      have := hT.2.1
      omega
    · have hord' : ord = l1 ++ v :: post := by rw [hord]; simp
      obtain ⟨ha, hc, hg, R, hRg, hlen, hconn, hw⟩ := ih (v :: post) hord' hl1
      obtain ⟨hpar, hedge, hmin⟩ := hcert l1 v post hord' hl1
      have hvl : v ∉ l1 := by
        rw [hord'] at hnd
        have := (List.nodup_append.mp hnd).2.2
        exact fun hc => this hc (List.mem_cons_self _ _)
      have hvn : v < g.length := hlt v (by rw [hord']; simp)
      have h0 : (0 : Nat) ∈ l1 := by
        rw [hord', List.head?_append_of_ne_nil _ hl1] at hhead
        exact List.mem_of_mem_head? hhead
      have htail : (l1 ++ [v]).tail.map (fun v => ((par v, v, d v) : Edge))
          = l1.tail.map (fun v => ((par v, v, d v) : Edge)) ++ [(par v, v, d v)] := by
        rw [List.tail_append_of_ne_nil hl1, List.map_append]
        rfl
      rw [htail]
      obtain ⟨f, hfR, hcross, hconn'⟩ := exchange_step g.length (fun x => x ∈ l1)
        (l1.tail.map (fun v => ((par v, v, d v) : Edge))) R (par v) v (d v) h0 hpar hvl hvn
        hc ha hconn
      have hfw : d v ≤ f.2.2 := by
        have hfg := hRg f hfR
        rcases hcross with ⟨h1, h2⟩ | ⟨h1, h2⟩
        · exact hmin f.1 h1 (f.2.1, f.2.2) hfg h2
        · exact hmin f.2.1 h2 (f.1, f.2.2) (hmir f.1 (f.2.1, f.2.2) hfg) h1
      refine ⟨?_, ?_, ?_, R.erase f, ?_, ?_, hconn', ?_⟩
      · intro x hx
        rcases List.mem_append.mp hx with hx | hx
        · exact Reach_mono (fun e he => List.mem_append_left _ he) (ha x hx)
        · rw [List.mem_singleton.mp hx]
          exact (Reach_mono (fun e he => List.mem_append_left _ he) (ha _ hpar)).tail
            ⟨d v, Or.inl (List.mem_append_right _ (List.mem_singleton.mpr rfl))⟩
      · intro e he
        rcases List.mem_append.mp he with he | he
        · exact ⟨List.mem_append_left _ (hc e he).1, List.mem_append_left _ (hc e he).2⟩
        · rw [List.mem_singleton.mp he]
          exact ⟨List.mem_append_left _ hpar,
            List.mem_append_right _ (List.mem_singleton.mpr rfl)⟩
      · intro e he
        rcases List.mem_append.mp he with he | he
        · exact hg e he
        · rw [List.mem_singleton.mp he]; exact hedge
      · intro e he
        exact hRg e (List.mem_of_mem_erase he)
      · have h1 := List.length_erase_of_mem hfR
        have h2 := List.length_pos_of_mem hfR
        rw [List.length_append, List.length_singleton, h1]
        omega
      · have h1 := treeWeight_erase R f hfR
        rw [treeWeight_append, treeWeight_append] at *
        have h2 : treeWeight [((par v, v, d v) : Edge)] = d v := by simp [treeWeight]
        rw [h2]
        omega


theorem grown_tree_reach (g : Graph) (ord : List Nat) (par : Nat → Nat)
    (d : Nat → Int) (hhead : ord.head? = some 0)
    (hcert : ∀ l1 v post, ord = l1 ++ v :: post → l1 ≠ [] →
      par v ∈ l1 ∧ (v, d v) ∈ g.getD (par v) []) (l1 : List Nat) :
    ∀ post, ord = l1 ++ post → l1 ≠ [] →
      (∀ x ∈ l1, Relation.ReflTransGen (Joined (l1.tail.map (fun v => (par v, v, d v)))) 0 x)
      ∧ (∀ e ∈ l1.tail.map (fun v => ((par v, v, d v) : Edge)),
          (e.2.1, e.2.2) ∈ g.getD e.1 []) := by
  induction l1 using List.reverseRecOn with
  | nil => intro post _ hne; exact absurd rfl hne
  | append_singleton l1 v ih =>
    intro post hord _
    by_cases hl1 : l1 = []
    · subst hl1
      have hv0 : v = 0 := by
        rw [hord] at hhead
        simpa using hhead
      subst hv0
      simp only [List.nil_append, List.tail_cons, List.map_nil, List.not_mem_nil,
        List.mem_singleton, false_implies, implies_true, and_true]
      exact fun x hx => by rw [hx]
    · have hord' : ord = l1 ++ v :: post := by rw [hord]; simp
      obtain ⟨ha, hg⟩ := ih (v :: post) hord' hl1
      obtain ⟨hpar, hedge⟩ := hcert l1 v post hord' hl1
      have htail : (l1 ++ [v]).tail.map (fun v => ((par v, v, d v) : Edge))
          = l1.tail.map (fun v => ((par v, v, d v) : Edge)) ++ [(par v, v, d v)] := by
        rw [List.tail_append_of_ne_nil hl1, List.map_append]
        rfl
      rw [htail]
      constructor
      · intro x hx
        rcases List.mem_append.mp hx with hx | hx
        · exact Reach_mono (fun e he => List.mem_append_left _ he) (ha x hx)
        · rw [List.mem_singleton.mp hx]
          exact (Reach_mono (fun e he => List.mem_append_left _ he) (ha _ hpar)).tail
            ⟨d v, Or.inl (List.mem_append_right _ (List.mem_singleton.mpr rfl))⟩
      · intro e he
        rcases List.mem_append.mp he with he | he
        · exact hg e he
        · rw [List.mem_singleton.mp he]; exact hedge

/-- A tree grown from vertex 0 in the order `ord`, every vertex `v` hanging from an earlier
  vertex `par v` by an edge of weight `d v` that is a lightest edge leaving the set of the
  earlier vertices, is a spanning tree of least total weight. -/
theorem grown_tree_minimal (g : Graph) (hmir : Mirrored g) (ord : List Nat) (par : Nat → Nat)
    (d : Nat → Int) (hnd : ord.Nodup) (hhead : ord.head? = some 0)
    (hall : ∀ v, v < g.length → v ∈ ord) (hlt : ∀ v ∈ ord, v < g.length)
    (hcert : ∀ l1 v post, ord = l1 ++ v :: post → l1 ≠ [] →
      par v ∈ l1 ∧ (v, d v) ∈ g.getD (par v) []
        ∧ ∀ x ∈ l1, ∀ e ∈ g.getD x [], e.1 ∉ l1 → d v ≤ e.2) :
    IsSpanningTree g (ord.tail.map (fun v => ((par v, v, d v) : Edge)))
    ∧ ∀ T, IsSpanningTree g T →
      treeWeight (ord.tail.map (fun v => ((par v, v, d v) : Edge))) ≤ treeWeight T := by
  have hne : ord ≠ [] := by
    intro hc
    rw [hc] at hhead
    cases hhead
  have hlen : ord.length = g.length := by
    rw [(order_length g.length ord hnd hall hlt).length_eq, List.length_range]
  have hEl : (ord.tail.map (fun v => ((par v, v, d v) : Edge))).length + 1 = g.length := by
    rw [List.length_map, List.length_tail]
    have := List.length_pos.mpr hne
    omega
  constructor
  · obtain ⟨ha, hg⟩ := grown_tree_reach g ord par d hhead
      (fun l1 v post h1 h2 => ⟨(hcert l1 v post h1 h2).1, (hcert l1 v post h1 h2).2.1⟩)
      ord [] (by simp) hne
    exact ⟨hg, hEl, fun v hv => ha v (hall v hv)⟩
  · intro T hT
    obtain ⟨_, _, _, R, _, hRlen, _, hw⟩ :=
      grown_tree_prefix g hmir ord par d hnd hhead hlt hcert T hT ord [] (by simp) hne
    have hR : R = [] := List.length_eq_zero.mp (by omega)
    rw [hR, List.append_nil] at hw
    exact hw

/-! ## Prim computes a minimum spanning tree -/

theorem mirrored_of_check (g : Graph) (h : mirroredCheck g = true) : Mirrored g := by
  intro u e he
  unfold mirroredCheck at h
  rw [List.all_eq_true] at h
  by_cases hu : u < g.length
  · have h1 := h u (List.mem_range.mpr hu)
    rw [List.all_eq_true] at h1
    exact of_decide_eq_true (h1 e he)
  · rw [getD_nil_of_le g u (Nat.le_of_not_lt hu)] at he
    cases he

theorem weights_of_check (g : Graph) (h : weightsCheck g = true) : WeightsBelowMax g := by
  intro u e he
  unfold weightsCheck at h
  rw [List.all_eq_true] at h
  by_cases hu : u < g.length
  · have h1 := h (g.getD u []) (getD_mem g u [] hu)
    rw [List.all_eq_true] at h1
    exact of_decide_eq_true (h1 e he)
  · rw [getD_nil_of_le g u (Nat.le_of_not_lt hu)] at he
    cases he

theorem connected_of_check (g : Graph) (h : connectedCheck g = true) : Connected g := by
  unfold connectedCheck at h
  rw [List.all_eq_true] at h
  intro v
  induction v using Nat.strong_induction_on with
  | _ v ih =>
    intro hv
    have h1 := h v (List.mem_range.mpr hv)
    rw [Bool.or_eq_true] at h1
    rcases h1 with h1 | h1
    · have : v = 0 := by simpa using h1
      rw [this]
    · rw [List.any_eq_true] at h1
      obtain ⟨u, hu, h2⟩ := h1
      rw [List.any_eq_true] at h2
      obtain ⟨e, he, h3⟩ := h2
      have huv : u < v := List.mem_range.mp hu
      have hev : e.1 = v := by simpa using h3
      refine (ih u huv (by omega)).tail ⟨e.2, ?_⟩
      rw [← hev]
      exact he

theorem foldr_min_le (L : List Int) (top m : Int) (h : ∀ x ∈ L, m ≤ x) (ht : m ≤ top) :
    m ≤ L.foldr min top := by
  induction L with
  | nil => exact ht
  | cons a L ih =>
    simp only [List.foldr_cons]
    exact le_min (h a (List.mem_cons_self _ _)) (ih (fun x hx => h x (List.mem_cons_of_mem _ hx)))

theorem foldr_min_eq (L : List Int) (top m : Int) (h : ∀ x ∈ L, m ≤ x) (hm : m ∈ L)
    (ht : m ≤ top) : L.foldr min top = m := by
  induction L with
  | nil => cases hm
  | cons a L ih =>
    simp only [List.foldr_cons]
    have hL : ∀ x ∈ L, m ≤ x := fun x hx => h x (List.mem_cons_of_mem _ hx)
    rcases List.mem_cons.mp hm with hma | hmL
    · rw [← hma]
      exact min_eq_left (foldr_min_le L top m hL ht)
    · rw [ih hL hmL]
      exact min_eq_right (h a (List.mem_cons_self _ _))

theorem edgeWeight_eq (g : Graph) (u v : Nat) (w : Int) (hmem : (v, w) ∈ g.getD u [])
    (hmin : ∀ e ∈ g.getD u [], e.1 = v → w ≤ e.2) (hw : w ≤ DBL_MAX) :
    edgeWeight g u v = w := by
  unfold edgeWeight
  apply foldr_min_eq
  · intro x hx
    obtain ⟨e, he, hex⟩ := List.mem_map.mp hx
    rw [List.mem_filter] at he
    rw [← hex]
    exact hmin e he.1 (by simpa using he.2)
  · exact List.mem_map.mpr ⟨(v, w), List.mem_filter.mpr ⟨hmem, by simp⟩, rfl⟩
  · exact hw

theorem IsSpanningTree_perm (g : Graph) {T1 T2 : List Edge} (hp : T1.Perm T2)
    (h : IsSpanningTree g T1) : IsSpanningTree g T2 :=
  ⟨fun e he => h.1 e (hp.mem_iff.mpr he), by rw [← hp.length_eq]; exact h.2.1,
    fun v hv => Reach_mono (fun e he => hp.mem_iff.mp he) (h.2.2 v hv)⟩

theorem pos_split (l1 : List Nat) (v : Nat) (post : List Nat) (hnd : (l1 ++ v :: post).Nodup) :
    pos (l1 ++ v :: post) v = l1.length
    ∧ ∀ x, (pos (l1 ++ v :: post) x < l1.length ↔ x ∈ l1) := by
  have hvl : v ∉ l1 := fun hc => (List.nodup_append.mp hnd).2.2 hc (List.mem_cons_self _ _)
  constructor
  · unfold pos
    rw [List.indexOf_append_of_not_mem hvl, List.indexOf_cons_self]
    rfl
  · intro x
    unfold pos
    constructor
    · intro hx
      by_contra hxl
      rw [List.indexOf_append_of_not_mem hxl] at hx
      omega
    · intro hx
      rw [List.indexOf_append_of_mem hx]
      exact List.indexOf_lt_length.mpr hx

/-- In a connected graph with weights below the double maximum every vertex other than 0
  has a parent at the end of the loop of Prim. -/
theorem prim_parent_of_connected (g : Graph) (st : PrimState) (ord : List Nat)
    (hinv : PrimInv g g.length st ord) (hall : ∀ v, v < g.length → v ∈ ord)
    (hw : WeightsBelowMax g) (hc : Connected g) (v : Nat) (hv : v < g.length) (hv0 : v ≠ 0) :
    ∃ p, st.parents.getD v none = some p ∧ pos ord p < pos ord v
      ∧ (v, st.dists.getD v 0) ∈ g.getD p [] := by
  rcases hinv.par v hv hv0 with ⟨_, hd⟩ | hex
  · exfalso
    have hne : ord ≠ [] := List.ne_nil_of_mem (hall v hv)
    have h0 : pos ord 0 = 0 := by
      have := hinv.zero hne
      cases ord with
      | nil => exact absurd rfl hne
      | cons a l =>
        simp only [List.head?_cons, Option.some.injEq] at this
        rw [this]
        exact List.indexOf_cons_self _ _
    have hvpos : 0 < pos ord v := by
      by_contra hcon
      have hz : pos ord v = pos ord 0 := by omega
      exact hv0 ((List.indexOf_inj (hall v hv) (hall 0 (by omega))).mp hz)
    obtain ⟨a, b, ha, hb, ⟨w, hab⟩, _⟩ := crossing_exists (Adjacent g)
      (fun x => pos ord x < pos ord v) 0 v (hc v hv) (by show pos ord 0 < pos ord v; omega)
      (lt_irrefl _)
    have h1 := hinv.cert v (hall v hv) a ha (b, w) hab hb
    have h2 := hw a (b, w) hab
    simp only at h1 h2
    omega
  · exact hex

theorem filterMap_eq_map_of_some {α β : Type} (f : α → Option β) (h : α → β) (L : List α)
    (hf : ∀ i ∈ L, f i = some (h i)) : L.filterMap f = L.map h := by
  induction L with
  | nil => rfl
  | cons a L ih =>
    rw [List.filterMap_cons, hf a (List.mem_cons_self _ _)]
    simp only [List.map_cons]
    rw [ih (fun i hi => hf i (List.mem_cons_of_mem _ hi))]

/-- Claim C3: for every connected graph g on n >= 1 vertices with mirrored adjacency
  lists, targets in range and weights below the double maximum (parallel edges and
  negative weights allowed), Prim passes its assertion and returns a parent assignment; its
  edges (parents[i], i) for i != 0, with their weights in g, form a spanning tree of g, and
  the total weight of this tree is at most the total weight of every spanning tree of g. -/
theorem prim_minimum_spanning_tree (g : Graph) (hn : 1 ≤ g.length) (hwf : WellFormed g)
    (hmir : Mirrored g) (hw : WeightsBelowMax g) (hc : Connected g) :
    ∃ parents, Prim g = Outcome.ok parents
      ∧ IsSpanningTree g (primTree g parents)
      ∧ ∀ T, IsSpanningTree g T → treeWeight (primTree g parents) ≤ treeWeight T := by
  obtain ⟨_, ord, hinv, hall⟩ := primRun_spec g hn hwf
  have hsome := prim_parent_of_connected g (primRun g) ord hinv hall hw hc
  have hne : ord ≠ [] := List.ne_nil_of_mem (hall 0 (by omega))
  have hhead := hinv.zero hne
  -- Prim passes its assertion
  have hprim : Prim g = Outcome.ok (primRun g).parents := by
    unfold Prim
    rw [if_neg (by omega)]
    simp only
    rw [if_pos]
    rw [List.all_eq_true]
    intro i hi
    rw [List.mem_range'_1, hinv.len_p] at hi
    obtain ⟨p, hp, _⟩ := hsome i (by omega) (by omega)
    rw [hp]
    rfl
  refine ⟨(primRun g).parents, hprim, ?_⟩
  -- the certificate of the order of extraction
  have hcert : ∀ l1 v post, ord = l1 ++ v :: post → l1 ≠ [] →
      ((primRun g).parents.getD v none).getD 0 ∈ l1
      ∧ (v, (primRun g).dists.getD v 0)
          ∈ g.getD (((primRun g).parents.getD v none).getD 0) []
      ∧ ∀ x ∈ l1, ∀ e ∈ g.getD x [], e.1 ∉ l1 → (primRun g).dists.getD v 0 ≤ e.2 := by
    intro l1 v post hord hl1
    have hnd := hinv.nodup
    rw [hord] at hnd
    obtain ⟨hposv, hposx⟩ := pos_split l1 v post hnd
    rw [← hord] at hposv hposx
    have hvord : v ∈ ord := by rw [hord]; simp
    have hvl : v ∉ l1 := fun hcon => (List.nodup_append.mp hnd).2.2 hcon (List.mem_cons_self _ _)
    have h0l : (0 : Nat) ∈ l1 := by
      rw [hord, List.head?_append_of_ne_nil _ hl1] at hhead
      exact List.mem_of_mem_head? hhead
    have hv0 : v ≠ 0 := fun hcon => hvl (hcon ▸ h0l)
    obtain ⟨p, hp1, hp2, hp3⟩ := hsome v (hinv.lt_n v hvord) hv0
    rw [hp1]
    refine ⟨(hposx p).mp (by omega), hp3, ?_⟩
    intro x hx e he hel
    refine hinv.cert v hvord x (by rw [hposv]; exact (hposx x).mpr hx) e he ?_
    rw [hposv]
    exact fun hcon => hel ((hposx e.1).mp hcon)
  obtain ⟨hspan, hminimal⟩ := grown_tree_minimal g hmir ord
    (fun v => ((primRun g).parents.getD v none).getD 0) (fun v => (primRun g).dists.getD v 0)
    hinv.nodup hhead hall hinv.lt_n hcert
  -- the edges in index order are the edges in the order of extraction
  have hperm : (primTree g (primRun g).parents).Perm
      (ord.tail.map (fun v => (((primRun g).parents.getD v none).getD 0, v,
        (primRun g).dists.getD v 0))) := by
    have hord0 : ord = 0 :: ord.tail := by
      cases ord with
      | nil => exact absurd rfl hne
      | cons a l =>
        simp only [List.head?_cons, Option.some.injEq] at hhead
        rw [hhead]
        rfl
    have hrange : List.range g.length = 0 :: List.range' 1 (g.length - 1) := by
      obtain ⟨k, hk⟩ : ∃ k, g.length = k + 1 := ⟨g.length - 1, by omega⟩
      rw [hk, List.range_eq_range', List.range'_succ]
      rfl
    have hp1 : (List.range' 1 (g.length - 1)).Perm ord.tail := by
      have := order_length g.length ord hinv.nodup hall hinv.lt_n
      rw [hrange, hord0] at this
      exact (List.Perm.cons_inv this).symm
    have h0t : (0 : Nat) ∉ ord.tail := by
      have := hinv.nodup
      rw [hord0] at this
      exact (List.nodup_cons.mp this).1
    unfold primTree
    rw [hinv.len_p]
    refine (List.Perm.filterMap _ hp1).trans ?_
    rw [filterMap_eq_map_of_some]
    intro i hi
    have hiord : i ∈ ord := List.mem_of_mem_tail hi
    have hi0 : i ≠ 0 := fun hcon => h0t (hcon ▸ hi)
    obtain ⟨p, hq1, hq2, hq3⟩ := hsome i (hinv.lt_n i hiord) hi0
    rw [hq1]
    simp only [Option.map_some', Option.getD_some, Option.some.injEq, Prod.mk.injEq, true_and]
    apply edgeWeight_eq g p i _ hq3
    · intro e he hei
      exact hinv.cert i hiord p hq2 e he (by rw [hei]; exact lt_irrefl _)
    · exact Int.le_of_lt (hw p _ hq3)
  exact ⟨IsSpanningTree_perm g hperm.symm hspan,
    fun T hT => by rw [treeWeight_perm hperm]; exact hminimal T hT⟩

set_option maxRecDepth 100000 in
/-- Witness of claim C3: the complete graph of the scenario points. -/
theorem prim_minimum_spanning_tree_witness :
    1 ≤ (bruteGraph scenarioPoints).length ∧ WellFormed (bruteGraph scenarioPoints)
    ∧ Mirrored (bruteGraph scenarioPoints) ∧ WeightsBelowMax (bruteGraph scenarioPoints)
    ∧ Connected (bruteGraph scenarioPoints)
    ∧ ∃ parents, Prim (bruteGraph scenarioPoints) = Outcome.ok parents
      ∧ IsSpanningTree (bruteGraph scenarioPoints) (primTree (bruteGraph scenarioPoints) parents)
      ∧ ∀ T, IsSpanningTree (bruteGraph scenarioPoints) T →
          treeWeight (primTree (bruteGraph scenarioPoints) parents) ≤ treeWeight T :=
  ⟨by decide, wellFormed_of_check _ (by decide), mirrored_of_check _ (by decide),
    weights_of_check _ (by decide), connected_of_check _ (by decide),
    prim_minimum_spanning_tree (bruteGraph scenarioPoints) (by decide)
      (wellFormed_of_check _ (by decide)) (mirrored_of_check _ (by decide))
      (weights_of_check _ (by decide)) (connected_of_check _ (by decide))⟩

/-! ## The rotation passes of BuildGraph -/

theorem BuildGraph_result {A : Type} [Add A] [Zero A] (d : A) (rot : A → Point2D → Point2D)
    (P : List Point2D) (nb : List (Option Nat)) :
    BuildGraph d rot P nb = Outcome.ok (BuildGraphLoop d rot P nb 16)
    ∨ BuildGraph d rot P nb = Outcome.assertFailed := by
  unfold BuildGraph
  simp only
  split
  · exact Or.inl rfl
  · exact Or.inr rfl

/-- Claim C11: for every point set, angle increment and rotation function, a pass of
  BuildGraph leaves the point store exactly as it found it, the store after any number of
  passes is the store handed to BuildGraph, and BuildGraph returns the state after the 16
  passes (with that store) or stops on its assertion. -/
theorem rotation_undone_exactly {A : Type} [Add A] [Zero A] (delta_angle : A)
    (rotate : A → Point2D → Point2D) (all_points : List Point2D)
    (all_neighbours : List (Option Nat)) :
    (∀ st : BuildState A, (BuildGraphPass delta_angle rotate st).all_points = st.all_points)
    ∧ (∀ k, (BuildGraphLoop delta_angle rotate all_points all_neighbours k).all_points
        = all_points)
    ∧ (BuildGraph delta_angle rotate all_points all_neighbours
          = Outcome.ok (BuildGraphLoop delta_angle rotate all_points all_neighbours 16)
        ∨ BuildGraph delta_angle rotate all_points all_neighbours = Outcome.assertFailed)
    ∧ ∀ st, BuildGraph delta_angle rotate all_points all_neighbours = Outcome.ok st →
        st.all_points = all_points := by
  refine ⟨fun _ => rfl, BuildGraphLoop_all_points delta_angle rotate all_points all_neighbours,
    BuildGraph_result delta_angle rotate all_points all_neighbours, ?_⟩
  intro st hst
  rcases BuildGraph_result delta_angle rotate all_points all_neighbours with h | h
  · rw [h] at hst
    injection hst with hst
    rw [← hst]
    exact BuildGraphLoop_all_points delta_angle rotate all_points all_neighbours 16
  · rw [h] at hst
    cases hst

theorem BuildGraphPass_angle {A : Type} [Add A] (d : A) (rot : A → Point2D → Point2D)
    (st : BuildState A) : (BuildGraphPass d rot st).angle = st.angle + d := rfl

theorem BuildGraphPass_finder {A : Type} [Add A] (d : A) (rot : A → Point2D → Point2D)
    (st : BuildState A) :
    (BuildGraphPass d rot st).all_neighbours
      = (FindNENeighbours (rotatedStore d rot st)
          (sortedIndices (rotatedStore d rot st),
            List.replicate (rotatedStore d rot st).length none)
          0 (rotatedStore d rot st).length).2 := rfl

theorem BuildGraphLoop_angle {A : Type} [AddMonoid A] (d : A) (rot : A → Point2D → Point2D)
    (P : List Point2D) (nb : List (Option Nat)) (k : Nat) :
    (BuildGraphLoop d rot P nb k).angle = k • d := by
  induction k with
  | zero => simp [BuildGraphLoop]
  | succ k ih => rw [BuildGraphLoop, BuildGraphPass_angle, ih, succ_nsmul]

theorem rotatedStore_loop {A : Type} [AddMonoid A] (d : A) (rot : A → Point2D → Point2D)
    (P : List Point2D) (nb : List (Option Nat)) (k : Nat) :
    rotatedStore d rot (BuildGraphLoop d rot P nb k) = P.map (rot ((k + 1) • d)) := by
  unfold rotatedStore
  rw [BuildGraphLoop_all_points, BuildGraphLoop_angle, succ_nsmul]

/-! ## The update rule of UpdateNeighbour -/

theorem UpdateNeighbour_rule (P : List Point2D) (nb : List (Option Nat)) (id c : Nat) :
    UpdateNeighbour P nb id (some c)
      = if shouldReplace P nb id c = true then nb.set id (some c) else nb := by
  simp only [UpdateNeighbour, shouldReplace]
  by_cases h : (pt P id).x > (pt P c).x ∨ (pt P id).y > (pt P c).y
  · rw [if_pos h]
    have h1 : ¬ ((pt P c).x ≥ (pt P id).x ∧ (pt P c).y ≥ (pt P id).y) := by
      intro hh; omega
    simp [h1]
  · rw [if_neg h]
    have h1 : (pt P c).x ≥ (pt P id).x ∧ (pt P c).y ≥ (pt P id).y := by omega
    have hc : nb.getD id none = none ∨ ∃ cur, nb.getD id none = some cur := by
      cases nb.getD id none with
      | none => exact Or.inl rfl
      | some cur => exact Or.inr ⟨cur, rfl⟩
    rcases hc with hc | ⟨cur, hc⟩
    · simp only [hc]
      simp [h1]
    · by_cases hd : ManhattanDistance (pt P id) (pt P c) < ManhattanDistance (pt P id) (pt P cur)
      · simp only [hc]
        simp [h1, hd]
      · simp only [hc]
        simp [h1, hd]

theorem UpdateNeighbour_frame (P : List Point2D) (nb : List (Option Nat)) (id : Nat)
    (cand : Option Nat) (i : Nat) (hi : i ≠ id) :
    (UpdateNeighbour P nb id cand).getD i none = nb.getD i none := by
  cases cand with
  | none => rfl
  | some c =>
    rw [UpdateNeighbour_rule]
    split
    · simp only [List.getD_eq_getElem?_getD]
      rw [List.getElem?_set_ne (Ne.symm hi)]
    · rfl

/-- Claim C14: UpdateNeighbour(id, c) writes c into neighbour[id] exactly when c is weakly
  north-east of id and either neighbour[id] is none or the distance from id to c is
  strictly smaller than the distance from id to neighbour[id]; otherwise the table is
  returned as it is, in particular for a candidate at the same distance as the current
  one; no entry other than neighbour[id] changes, and the table keeps its length. -/
theorem update_neighbour_rule (all_points : List Point2D) (all_neighbours : List (Option Nat))
    (id c : Nat) (hid : id < all_neighbours.length) :
    (shouldReplace all_points all_neighbours id c = true ↔
        ((pt all_points c).x ≥ (pt all_points id).x ∧ (pt all_points c).y ≥ (pt all_points id).y)
        ∧ (all_neighbours.getD id none = none
            ∨ ∃ cur, all_neighbours.getD id none = some cur
                ∧ ManhattanDistance (pt all_points id) (pt all_points c)
                    < ManhattanDistance (pt all_points id) (pt all_points cur)))
    ∧ (shouldReplace all_points all_neighbours id c = true →
        UpdateNeighbour all_points all_neighbours id (some c) = all_neighbours.set id (some c)
        ∧ (UpdateNeighbour all_points all_neighbours id (some c)).getD id none = some c)
    ∧ (shouldReplace all_points all_neighbours id c = false →
        UpdateNeighbour all_points all_neighbours id (some c) = all_neighbours)
    ∧ (∀ cur, all_neighbours.getD id none = some cur →
        ManhattanDistance (pt all_points id) (pt all_points c)
          = ManhattanDistance (pt all_points id) (pt all_points cur) →
        UpdateNeighbour all_points all_neighbours id (some c) = all_neighbours)
    ∧ (∀ cand i, i ≠ id →
        (UpdateNeighbour all_points all_neighbours id cand).getD i none
          = all_neighbours.getD i none)
    ∧ ∀ cand, (UpdateNeighbour all_points all_neighbours id cand).length
        = all_neighbours.length := by
  refine ⟨?_, ?_, ?_, ?_, ?_, ?_⟩
  · unfold shouldReplace
    cases hcur : all_neighbours.getD id none with
    | none => simp
    | some cur => simp
  · intro h
    rw [UpdateNeighbour_rule, if_pos h]
    refine ⟨rfl, ?_⟩
    rw [getD_set_eq, if_pos ⟨rfl, hid⟩]
  · intro h
    rw [UpdateNeighbour_rule, if_neg (by rw [h]; exact Bool.false_ne_true)]
  · intro cur hcur hd
    rw [UpdateNeighbour_rule, if_neg]
    unfold shouldReplace
    rw [hcur]
    simp [hd]
  · intro cand i hi
    exact UpdateNeighbour_frame all_points all_neighbours id cand i hi
  · intro cand
    exact length_UpdateNeighbour all_points all_neighbours id cand

set_option maxRecDepth 100000 in
/-- The update rule on the four points of the scenario: from the empty table, the candidate
  (1,1) is recorded for the point (0,0). -/
theorem update_neighbour_rule_witness :
    shouldReplace scenarioPoints [none, none, none, none] 0 1 = true
    ∧ UpdateNeighbour scenarioPoints [none, none, none, none] 0 (some 1)
        = [some 1, none, none, none] :=
  ⟨by decide,
   ((update_neighbour_rule scenarioPoints [none, none, none, none] 0 1 (by decide)).2.1
      (by decide)).1⟩

/-! ## The reads of UpdateNeighbour in the base case -/

/-- Claim C16, evaluated at its failing input: for one point p (n = 1, index vector [0]),
  FindNENeighbours(points, 0, 1) takes the base case, the scan of the base case finds no
  candidate for point 0, and the call UpdateNeighbour(0, -1) that follows reads
  `all_points` at the indices 0 and -1; the index -1 is not in 0..n-1. -/
theorem base_case_reads_index_minus_one (p : Point2D) :
    FindNENeighbours [p] ([0], [none]) 0 1 = baseCase [p] [0] [none] 0 1
    ∧ (baseScan [p] [0] 0 1 0).2 = none
    ∧ baseUpdateReads [p] [0] 0 1 = [0, -1]
    ∧ ¬ ∀ i ∈ baseUpdateReads [p] [0] 0 1, 0 ≤ i ∧ i < Int.ofNat ([p] : List Point2D).length := by
  have hscan : (baseScan [p] [0] 0 1 0).2 = none := by
    simp [baseScan, baseStep, List.range']
  have hreads : baseUpdateReads [p] [0] 0 1 = [0, -1] := by
    simp only [baseUpdateReads, Nat.sub_zero, List.range', List.foldl, hscan,
      UpdateNeighbourReads, List.nil_append]
    rfl
  refine ⟨?_, hscan, hreads, ?_⟩
  · rw [FindNENeighbours_eq, if_pos (by decide)]
  · rw [hreads]
    intro h
    have h1 := (h (-1) (by simp)).1
    omega

/-! ## Depth of the recursion of FindNENeighbours -/

theorem recursionDepthAux_stable (n : Nat) :
    ∀ fuel, n ≤ fuel → recursionDepthAux fuel n = recursionDepthAux n n := by
  induction n using Nat.strong_induction_on with
  | _ n ih =>
    intro fuel hf
    by_cases hn : n < kMaxSize
    · cases fuel with
      | zero =>
        have : n = 0 := by omega
        subst this
        rfl
      | succ f =>
        cases n with
        | zero => simp [recursionDepthAux, kMaxSize]
        | succ m => simp [recursionDepthAux, hn]
    · have h5 : ¬ n < 5 := hn
      obtain ⟨f, rfl⟩ : ∃ f, fuel = f + 1 := ⟨fuel - 1, by omega⟩
      obtain ⟨m, rfl⟩ : ∃ m, n = m + 1 := ⟨n - 1, by omega⟩
      rw [recursionDepthAux, if_neg hn, recursionDepthAux, if_neg hn]
      rw [ih ((m + 1) / 2) (by omega) f (by omega), ih ((m + 1) / 2) (by omega) m (by omega),
        ih (m + 1 - (m + 1) / 2) (by omega) f (by omega),
        ih (m + 1 - (m + 1) / 2) (by omega) m (by omega)]

theorem recursionDepth_eq (n : Nat) :
    recursionDepth n
      = if n < kMaxSize then 0
        else 1 + max (recursionDepth (n / 2)) (recursionDepth (n - n / 2)) := by
  unfold recursionDepth
  by_cases hn : n < kMaxSize
  · rw [if_pos hn]
    cases n with
    | zero => rfl
    | succ m => simp [recursionDepthAux, hn]
  · have h5 : ¬ n < 5 := hn
    rw [if_neg hn]
    obtain ⟨m, rfl⟩ : ∃ m, n = m + 1 := ⟨n - 1, by omega⟩
    rw [recursionDepthAux, if_neg hn,
      recursionDepthAux_stable ((m + 1) / 2) m (by omega),
      recursionDepthAux_stable (m + 1 - (m + 1) / 2) m (by omega)]

theorem recursionDepth_pow (n : Nat) :
    recursionDepth n = 0 ∨ 2 ^ (recursionDepth n + 1) + 1 ≤ n := by
  induction n using Nat.strong_induction_on with
  | _ n ih =>
    rw [recursionDepth_eq]
    by_cases hn : n < kMaxSize
    · rw [if_pos hn]
      exact Or.inl rfl
    · have h5 : ¬ n < 5 := hn
      rw [if_neg hn]
      right
      have key : ∀ k, k ≤ n - n / 2 → k < n → 2 ^ (1 + recursionDepth k + 1) + 1 ≤ n := by
        intro k hk hkn
        rcases ih k hkn with h0 | hp
        · rw [h0]
          norm_num
          omega
        · have : 2 ^ (1 + recursionDepth k + 1) = 2 * 2 ^ (recursionDepth k + 1) := by
            rw [show 1 + recursionDepth k + 1 = (recursionDepth k + 1) + 1 by omega, pow_succ]
            omega
          omega
      rcases le_total (recursionDepth (n / 2)) (recursionDepth (n - n / 2)) with hle | hle
      · rw [max_eq_right hle]
        exact key (n - n / 2) le_rfl (by omega)
      · rw [max_eq_left hle]
        exact key (n / 2) (by omega) (by omega)

theorem recursionDepth_le_log (n : Nat) : recursionDepth n ≤ Nat.log 2 n := by
  rcases recursionDepth_pow n with h0 | hp
  · rw [h0]
    exact Nat.zero_le _
  · apply Nat.le_log_of_pow_le (by norm_num)
    have : 2 ^ recursionDepth n ≤ 2 ^ (recursionDepth n + 1) :=
      Nat.pow_le_pow_right (by norm_num) (Nat.le_succ _)
    omega

theorem FindNENeighboursAux_depth (P : List Point2D) (fuel : Nat) :
    ∀ (st : List Nat × List (Option Nat)) (l r : Nat), recursionDepth (r - l) ≤ fuel →
      FindNENeighboursAux P fuel st l r = FindNENeighbours P st l r := by
  induction fuel with
  | zero =>
    intro st l r h
    rw [recursionDepth_eq] at h
    by_cases hb : r - l < kMaxSize
    · rw [FindNENeighboursAux_base P _ st l r hb, FindNENeighbours_eq, if_pos hb]
    · rw [if_neg hb] at h
      omega
  | succ k ih =>
    intro st l r h
    rw [recursionDepth_eq] at h
    by_cases hb : r - l < kMaxSize
    · rw [FindNENeighboursAux_base P _ st l r hb, FindNENeighbours_eq, if_pos hb]
    · rw [if_neg hb] at h
      have h5 : ¬ r - l < 5 := hb
      have e1 : l + (r - l) / 2 - l = (r - l) / 2 := by omega
      have e2 : r - (l + (r - l) / 2) = r - l - (r - l) / 2 := by omega
      have h1 : recursionDepth (l + (r - l) / 2 - l) ≤ k := by
        rw [e1]
        have := le_max_left (recursionDepth ((r - l) / 2)) (recursionDepth (r - l - (r - l) / 2))
        omega
      have h2 : recursionDepth (r - (l + (r - l) / 2)) ≤ k := by
        rw [e2]
        have := le_max_right (recursionDepth ((r - l) / 2)) (recursionDepth (r - l - (r - l) / 2))
        omega
      rw [FindNENeighboursAux_succ P k st l r hb, FindNENeighbours_eq P st l r, if_neg hb,
        ih st l _ h1, ih _ _ r h2]

/-- Claim C18: FindNENeighbours is a total function that satisfies the recursion of the
  source; a range of at least kMaxSize = 5 elements is split at l + (r - l) / 2 into two
  non-empty ranges, each strictly smaller, of (r - l) / 2 and (r - l) - (r - l) / 2
  elements; the nesting depth of the recursive calls below a call on n elements is
  `recursionDepth n`, which is at most log2(n) for n >= 1, whatever the coordinates; and
  a depth bound of `recursionDepth (r - l)` is enough for the result of the call. -/
theorem recursion_depth_logarithmic (all_points : List Point2D)
    (st : List Nat × List (Option Nat)) (l r : Nat) (hlr : l ≤ r) :
    (FindNENeighbours all_points st l r =
        if r - l < kMaxSize then baseCase all_points st.1 st.2 l r
        else
          combine all_points
            (FindNENeighbours all_points (FindNENeighbours all_points st l (l + (r - l) / 2))
              (l + (r - l) / 2) r).1
            (FindNENeighbours all_points (FindNENeighbours all_points st l (l + (r - l) / 2))
              (l + (r - l) / 2) r).2 l r)
    ∧ (¬ r - l < kMaxSize →
        l < l + (r - l) / 2 ∧ l + (r - l) / 2 < r
        ∧ (l + (r - l) / 2) - l = (r - l) / 2 ∧ r - (l + (r - l) / 2) = (r - l) - (r - l) / 2
        ∧ (r - l) / 2 < r - l ∧ (r - l) - (r - l) / 2 < r - l)
    ∧ (∀ n, recursionDepth n
        = if n < kMaxSize then 0
          else 1 + max (recursionDepth (n / 2)) (recursionDepth (n - n / 2)))
    ∧ (∀ n, 1 ≤ n → recursionDepth n ≤ Nat.log 2 n)
    ∧ ∀ fuel, recursionDepth (r - l) ≤ fuel →
        FindNENeighboursAux all_points fuel st l r = FindNENeighbours all_points st l r := by
  refine ⟨FindNENeighbours_eq all_points st l r, ?_, recursionDepth_eq, ?_, ?_⟩
  · intro hb
    have h5 : ¬ r - l < 5 := hb
    omega
  · intro n _
    exact recursionDepth_le_log n
  · intro fuel h
    exact FindNENeighboursAux_depth all_points fuel st l r h

set_option maxRecDepth 100000 in
/-- The depth of the recursion on the range [0, 9) of nine points: the range is split into
  ranges of four and five elements, the second is split once more; the depth is 2, and
  log2(9) = 3. -/
theorem recursion_depth_logarithmic_witness :
    (0 : Nat) ≤ 9 ∧ recursionDepth 9 = 2 ∧ recursionDepth 9 ≤ Nat.log 2 9 :=
  ⟨by decide, by decide,
   (recursion_depth_logarithmic scenarioPoints ([], []) 0 9 (by decide)).2.2.2.1 9 (by decide)⟩

/-! ## Prim: the final assertion and connectivity -/

theorem Prim_eq (g : Graph) (hn : 1 ≤ g.length) (hlen : (primRun g).parents.length = g.length) :
    ((∀ i, 1 ≤ i → i < g.length → ∃ p, (primRun g).parents.getD i none = some p) →
        Prim g = Outcome.ok (primRun g).parents)
    ∧ ((∃ i, 1 ≤ i ∧ i < g.length ∧ (primRun g).parents.getD i none = none) →
        Prim g = Outcome.assertFailed) := by
  have hn0 : ¬ g.length = 0 := by omega
  constructor
  · intro h
    unfold Prim
    rw [if_neg hn0]
    simp only
    rw [if_pos]
    rw [List.all_eq_true]
    intro i hi
    obtain ⟨h1, h2⟩ := List.mem_range'_1.mp hi
    obtain ⟨p, hp⟩ := h i h1 (by omega)
    rw [hp]
    rfl
  · rintro ⟨i, h1, h2, h3⟩
    unfold Prim
    rw [if_neg hn0]
    simp only
    rw [if_neg]
    intro hall
    rw [List.all_eq_true] at hall
    have := hall i (List.mem_range'_1.mpr ⟨h1, by omega⟩)
    rw [h3] at this
    cases this

theorem reach_of_parents (g : Graph) (st : PrimState) (ord : List Nat)
    (hinv : PrimInv g g.length st ord) (hall : ∀ v, v < g.length → v ∈ ord)
    (hpar : ∀ i, 1 ≤ i → i < g.length → ∃ p, st.parents.getD i none = some p) :
    ∀ k v, pos ord v = k → v < g.length → Relation.ReflTransGen (Adjacent g) 0 v := by
  intro k
  induction k using Nat.strong_induction_on with
  | _ k ih =>
    intro v hk hv
    by_cases hv0 : v = 0
    · rw [hv0]
    · rcases hinv.par v hv hv0 with ⟨hnone, _⟩ | ⟨p, _, hpos, hmem⟩
      · obtain ⟨p, hp⟩ := hpar v (by omega) hv
        rw [hp] at hnone
        cases hnone
      · have hvo : pos ord v < ord.length := List.indexOf_lt_length.mpr (hall v hv)
        have hpo : p ∈ ord := mem_of_pos_lt ord p (pos ord v) hpos (Nat.le_of_lt hvo)
        have hreach := ih (pos ord p) (by omega) p rfl (hinv.lt_n p hpo)
        exact Relation.ReflTransGen.tail hreach ⟨_, hmem⟩

/-- Claim C15: for a graph on n >= 1 vertices whose adjacency lists name vertices only and
  whose weights are below the double maximum, every vertex other than 0 has a parent after
  the main loop of Prim exactly when every vertex can be reached from vertex 0; in that
  case Prim returns the parents, and otherwise some vertex other than 0 is left with parent
  none and Prim stops on its assertion, so that it returns a result exactly for a
  connected graph. -/
theorem prim_assertion_iff_connected (g : Graph) (hn : 1 ≤ g.length) (hwf : WellFormed g)
    (hw : WeightsBelowMax g) :
    ((∀ i, 1 ≤ i → i < g.length → ∃ p, (primRun g).parents.getD i none = some p)
        ↔ Connected g)
    ∧ (Connected g → Prim g = Outcome.ok (primRun g).parents)
    ∧ (¬ Connected g →
        (∃ i, 1 ≤ i ∧ i < g.length ∧ (primRun g).parents.getD i none = none)
        ∧ Prim g = Outcome.assertFailed)
    ∧ ((∃ parents, Prim g = Outcome.ok parents) ↔ Connected g) := by
  obtain ⟨_, ord, hinv, hall⟩ := primRun_spec g hn hwf
  obtain ⟨hok, hfail⟩ := Prim_eq g hn hinv.len_p
  have hfwd : (∀ i, 1 ≤ i → i < g.length → ∃ p, (primRun g).parents.getD i none = some p)
      → Connected g := by
    intro hpar v hv
    exact reach_of_parents g (primRun g) ord hinv hall hpar (pos ord v) v rfl hv
  have hbwd : Connected g
      → ∀ i, 1 ≤ i → i < g.length → ∃ p, (primRun g).parents.getD i none = some p := by
    intro hc i hi1 hi2
    obtain ⟨p, hp, _⟩ := prim_parent_of_connected g (primRun g) ord hinv hall hw hc i hi2
      (by omega)
    exact ⟨p, hp⟩
  have hnone : ¬ Connected g →
      ∃ i, 1 ≤ i ∧ i < g.length ∧ (primRun g).parents.getD i none = none := by
    intro hnc
    by_contra hex
    apply hnc
    apply hfwd
    intro i hi1 hi2
    cases hpi : (primRun g).parents.getD i none with
    | none => exact absurd ⟨i, hi1, hi2, hpi⟩ hex
    | some p => exact ⟨p, rfl⟩
  refine ⟨⟨hfwd, hbwd⟩, fun hc => hok (hbwd hc), fun hnc => ⟨hnone hnc, hfail (hnone hnc)⟩, ?_⟩
  constructor
  · rintro ⟨parents, hP⟩
    by_contra hnc
    rw [hfail (hnone hnc)] at hP
    cases hP
  · intro hc
    exact ⟨_, hok (hbwd hc)⟩

set_option maxRecDepth 100000 in
/-- Prim on the graph of two coincident points, which is connected, and on the graph of
  five coincident points, which is not: vertex 2 cannot be reached from vertex 0. -/
theorem prim_assertion_iff_connected_witness :
    (Connected pairGraph ∧ Prim pairGraph = Outcome.ok [none, some 0])
    ∧ (¬ Connected fiveGraph ∧ Prim fiveGraph = Outcome.assertFailed) := by
  have h2 := prim_assertion_iff_connected pairGraph (by decide)
    (wellFormed_of_check _ (by decide)) (weights_of_check _ (by decide))
  have h5 := prim_assertion_iff_connected fiveGraph (by decide)
    (wellFormed_of_check _ (by decide)) (weights_of_check _ (by decide))
  have hc2 : Connected pairGraph := connected_of_check _ (by decide)
  have hn5 : ¬ Connected fiveGraph := by
    intro hc
    obtain ⟨p, hp⟩ := h5.1.mpr hc 2 (by decide) (by decide)
    have hnone : (primRun fiveGraph).parents.getD 2 none = none := by decide
    rw [hnone] at hp
    cases hp
  refine ⟨⟨hc2, ?_⟩, hn5, (h5.2.2.1 hn5).2⟩
  have := h2.2.1 hc2
  rw [this]
  decide

/-! ## Prim: the set mirrors the distance array -/

theorem PrimInv_loop_order (g : Graph) (n : Nat) (k : Nat) :
    ∀ (st : PrimState) (ord : List Nat), PrimInv g n st ord →
      PrimInv g n (primLoop g k st) (ord ++ primOrder g k st) := by
  induction k with
  | zero =>
    intro st ord h
    simp only [primLoop, primOrder, List.append_nil]
    exact h
  | succ k ih =>
    intro st ord h
    unfold primLoop primOrder
    cases hs : st.s with
    | nil =>
      simp only [List.append_nil]
      exact h
    | cons p rest =>
      simp only
      have hstep := PrimInv_step g n st ord p.1 p.2 rest h hs
      have := ih _ _ hstep
      rw [List.append_assoc, List.singleton_append] at this
      exact this

theorem primLoop_succ_end (g : Graph) (k : Nat) :
    ∀ st : PrimState, primLoop g (k + 1) st =
      match (primLoop g k st).s with
      | [] => primLoop g k st
      | p :: rest => primStep g (primLoop g k st) p.2 rest := by
  induction k with
  | zero =>
    intro st
    cases hs : st.s with
    | nil => simp [primLoop, hs]
    | cons p rest => simp [primLoop, hs]
  | succ k ih =>
    intro st
    rw [primLoop]
    cases hs : st.s with
    | nil =>
      simp only
      have h1 : primLoop g (k + 1) st = st := by
        rw [primLoop, hs]
      rw [h1, hs]
    | cons p rest =>
      simp only
      rw [ih]
      have h1 : primLoop g (k + 1) st = primLoop g k (primStep g st p.2 rest) := by
        rw [primLoop, hs]
      rw [h1]

theorem primOrder_succ_end (g : Graph) (k : Nat) :
    ∀ st : PrimState, primOrder g (k + 1) st =
      primOrder g k st ++
        match (primLoop g k st).s with
        | [] => []
        | p :: _ => [p.2] := by
  induction k with
  | zero =>
    intro st
    simp only [primOrder, primLoop, List.nil_append]
  | succ k ih =>
    intro st
    rw [primOrder]
    cases hs : st.s with
    | nil =>
      simp only
      have h1 : primLoop g (k + 1) st = st := by
        rw [primLoop, hs]
      have h2 : primOrder g (k + 1) st = [] := by
        rw [primOrder, hs]
      rw [h1, h2, hs]
      rfl
    | cons p rest =>
      simp only
      rw [ih]
      have h1 : primLoop g (k + 1) st = primLoop g k (primStep g st p.2 rest) := by
        rw [primLoop, hs]
      have h2 : primOrder g (k + 1) st = p.2 :: primOrder g k (primStep g st p.2 rest) := by
        rw [primOrder, hs]
      rw [h1, h2, List.cons_append]

theorem set_count (g : Graph) (n : Nat) (st : PrimState) (ord : List Nat)
    (h : PrimInv g n st ord) : st.s.length + ord.length = n := by
  have hnd1 : (st.s.map Prod.snd).Nodup := by
    apply List.Nodup.map_on _ (sorted_nodup _ h.sorted)
    intro x hx y hy hxy
    have h1 := ((h.mem_s x.1 x.2).mp hx).2.2
    have h2 := ((h.mem_s y.1 y.2).mp hy).2.2
    exact Prod.ext (by rw [h1, h2, hxy]) hxy
  have hdis : List.Disjoint (st.s.map Prod.snd) ord := by
    intro v hv hvo
    obtain ⟨x, hx, rfl⟩ := List.mem_map.mp hv
    exact ((h.mem_s x.1 x.2).mp hx).2.1 hvo
  have hnd : (st.s.map Prod.snd ++ ord).Nodup := List.Nodup.append hnd1 h.nodup hdis
  have hperm : (st.s.map Prod.snd ++ ord).Perm (List.range n) := by
    refine (List.perm_ext_iff_of_nodup hnd (List.nodup_range n)).mpr (fun v => ?_)
    rw [List.mem_append, List.mem_range]
    constructor
    · rintro (hv | hv)
      · obtain ⟨x, hx, rfl⟩ := List.mem_map.mp hv
        exact ((h.mem_s x.1 x.2).mp hx).1
      · exact h.lt_n v hv
    · intro hv
      by_cases hvo : v ∈ ord
      · exact Or.inr hvo
      · exact Or.inl (List.mem_map.mpr ⟨(st.dists.getD v 0, v),
          (h.mem_s _ v).mpr ⟨hv, hvo, rfl⟩, rfl⟩)
  have := hperm.length_eq
  simpa using this

theorem set_head_min (g : Graph) (n : Nat) (st : PrimState) (ord : List Nat)
    (h : PrimInv g n st ord) (p : Int × Nat) (rest : List (Int × Nat))
    (hs : st.s = p :: rest) :
    p.2 < n ∧ p.2 ∉ ord ∧ p.1 = st.dists.getD p.2 0
    ∧ ∀ v, v < n → v ∉ ord → v ≠ p.2 →
        pairLt (st.dists.getD p.2 0, p.2) (st.dists.getD v 0, v) := by
  have hp : p ∈ st.s := by rw [hs]; exact List.mem_cons_self _ _
  obtain ⟨h1, h2, h3⟩ := (h.mem_s p.1 p.2).mp hp
  refine ⟨h1, h2, h3, ?_⟩
  intro v hv hvo hvp
  have hmem : (st.dists.getD v 0, v) ∈ st.s := (h.mem_s _ v).mpr ⟨hv, hvo, rfl⟩
  rw [hs] at hmem
  have hsorted := h.sorted
  rw [hs, List.pairwise_cons] at hsorted
  rcases List.mem_cons.mp hmem with heq | hrest
  · exact absurd (congrArg Prod.snd heq) hvp
  · have := hsorted.1 _ hrest
    rw [← h3]
    exact this

theorem primOrder_length (g : Graph) (hn : 1 ≤ g.length) (hwf : WellFormed g) (k : Nat)
    (hk : k ≤ g.length) : (primOrder g k (primInit g)).length = k := by
  induction k with
  | zero => rfl
  | succ k ih =>
    have hlen := ih (by omega)
    have hinv := PrimInv_loop_order g g.length k _ _ (PrimInv_init g hn hwf)
    rw [List.nil_append] at hinv
    have hcount := set_count g g.length _ _ hinv
    rw [primOrder_succ_end]
    cases hs : (primLoop g k (primInit g)).s with
    | nil =>
      rw [hs, List.length_nil] at hcount
      omega
    | cons p rest =>
      simp only [List.length_append, List.length_singleton, hlen]

theorem primLoop_done (g : Graph) (k : Nat) (st : PrimState) (hs : (primLoop g k st).s = []) :
    ∀ j, primLoop g (k + j) st = primLoop g k st := by
  intro j
  induction j with
  | zero => rfl
  | succ j ih =>
    rw [← Nat.add_assoc, primLoop_succ_end, ih, hs]

/-- Claim C19: on a graph with n >= 1 vertices whose adjacency lists name vertices only, at
  the start of every iteration of the main loop of Prim (after k <= n iterations) the
  set is strictly increasing in the order by distance, then index, and holds exactly the
  pairs (dists[v], v) of the k-th state for the vertices v not yet extracted, n - k pairs
  in all; for k < n the set is not empty and the iteration extracts its first pair
  (dists[u], u), which is below the pair of every other vertex not yet extracted (smaller
  distance, or equal distance and lower index); vertex 0 is extracted first; after n
  iterations the set is empty, the extracted vertices are a rearrangement of 0..n-1, so
  every vertex was extracted exactly once, and the loop has ended. -/
theorem prim_set_mirrors_dists (g : Graph) (hn : 1 ≤ g.length) (hwf : WellFormed g) (k : Nat)
    (hk : k ≤ g.length) :
    (primExtracted g k).length = k
    ∧ (primExtracted g k).Nodup
    ∧ (primAfter g k).s.Pairwise pairLt
    ∧ (∀ d v, (d, v) ∈ (primAfter g k).s ↔
        (v < g.length ∧ v ∉ primExtracted g k ∧ d = (primAfter g k).dists.getD v 0))
    ∧ (primAfter g k).s.length = g.length - k
    ∧ (k < g.length → ∃ u rest,
        (primAfter g k).s = ((primAfter g k).dists.getD u 0, u) :: rest
        ∧ u < g.length ∧ u ∉ primExtracted g k
        ∧ (∀ v, v < g.length → v ∉ primExtracted g k → v ≠ u →
            pairLt ((primAfter g k).dists.getD u 0, u) ((primAfter g k).dists.getD v 0, v))
        ∧ primExtracted g (k + 1) = primExtracted g k ++ [u]
        ∧ primAfter g (k + 1) = primStep g (primAfter g k) u rest)
    ∧ (1 ≤ k → (primExtracted g k).head? = some 0)
    ∧ (k = g.length →
        (primAfter g k).s = [] ∧ (primExtracted g k).Perm (List.range g.length)
        ∧ primRun g = primAfter g k ∧ ∀ j, primAfter g (k + j) = primAfter g k) := by
  have hinv := PrimInv_loop_order g g.length k _ _ (PrimInv_init g hn hwf)
  rw [List.nil_append] at hinv
  have hlen := primOrder_length g hn hwf k hk
  have hcount := set_count g g.length _ _ hinv
  rw [hlen] at hcount
  unfold primExtracted primAfter
  refine ⟨hlen, hinv.nodup, hinv.sorted, hinv.mem_s, by omega, ?_, ?_, ?_⟩
  · intro hkn
    cases hs : (primLoop g k (primInit g)).s with
    | nil =>
      rw [hs, List.length_nil] at hcount
      omega
    | cons p rest =>
      obtain ⟨h1, h2, h3, h4⟩ := set_head_min g g.length _ _ hinv p rest hs
      refine ⟨p.2, rest, ?_, h1, h2, h4, ?_, ?_⟩
      · rw [← h3]
      · rw [primOrder_succ_end, hs]
      · rw [primLoop_succ_end, hs]
  · intro hk1
    apply hinv.zero
    intro hnil
    rw [hnil, List.length_nil] at hlen
    omega
  · intro hkn
    have hs : (primLoop g k (primInit g)).s = [] := by
      apply List.length_eq_zero.mp
      omega
    refine ⟨hs, ?_, ?_, primLoop_done g k _ hs⟩
    · apply order_length g.length _ hinv.nodup _ hinv.lt_n
      intro v hv
      by_contra hvo
      have := (hinv.mem_s _ v).mpr ⟨hv, hvo, rfl⟩
      rw [hs] at this
      cases this
    · rw [hkn]
      rfl

set_option maxRecDepth 100000 in
/-- The main loop of Prim on the complete graph of the four scenario points: the order of
  extraction is 0, 1, 2, 3; after two iterations the set holds the pairs of the vertices
  2 and 3, both at distance 2, the lower index first. -/
theorem prim_set_mirrors_dists_witness :
    primExtracted (bruteGraph scenarioPoints) 4 = [0, 1, 2, 3]
    ∧ (primAfter (bruteGraph scenarioPoints) 2).s = [(2, 2), (2, 3)]
    ∧ (primAfter (bruteGraph scenarioPoints) 2).s.length = 4 - 2 :=
  ⟨by decide, by decide,
   (prim_set_mirrors_dists (bruteGraph scenarioPoints) (by decide)
      (wellFormed_of_check _ (by decide)) 2 (by decide)).2.2.2.2.1⟩

/-! ## The index vector after FindNENeighbours -/

theorem getRange_mid (A s B : List Nat) (l r : Nat) (hl : A.length = l)
    (hr : l + s.length = r) : getRange (A ++ s ++ B) l r = s := by
  unfold getRange
  have h1 : r - l = s.length := by omega
  rw [List.append_assoc, ← hl, List.drop_left, hl, h1, List.take_left]

theorem putRange_mid (A s B X : List Nat) (l r : Nat) (hl : A.length = l)
    (hr : l + s.length = r) : putRange (A ++ s ++ B) l r X = A ++ X ++ B := by
  unfold putRange
  have h2 : (A ++ s).length = r := by rw [List.length_append]; omega
  have e1 : List.take l (A ++ s ++ B) = A := by
    rw [List.append_assoc, ← hl, List.take_left]
  have e2 : List.drop r (A ++ s ++ B) = B := by
    rw [← h2, List.drop_left]
  rw [e1, e2]

theorem getD_mid_mem (A s B : List Nat) (l i : Nat) (hl : A.length = l) (h1 : l ≤ i)
    (h2 : i < l + s.length) : (A ++ s ++ B).getD i 0 ∈ s := by
  have hlen : i - l < s.length := by omega
  have : (A ++ s ++ B).getD i 0 = s.getD (i - l) 0 := by
    simp only [List.getD_eq_getElem?_getD]
    rw [List.append_assoc, List.getElem?_append_right (by omega), hl,
      List.getElem?_append_left hlen]
  rw [this]
  exact getD_mem s (i - l) 0 hlen

theorem sortInsert_sorted (P : List Point2D) (a : Nat) (l : List Nat) (h : SortedByY P l) :
    SortedByY P (sortInsert (lessY P) a l) := by
  induction l with
  | nil => exact List.pairwise_singleton _ _
  | cons b l ih =>
    unfold SortedByY at h ih ⊢
    rw [List.pairwise_cons] at h
    unfold sortInsert
    split
    · rename_i hab
      have hab' : (pt P a).y < (pt P b).y := hab
      refine List.pairwise_cons.mpr ⟨?_, List.pairwise_cons.mpr h⟩
      intro c hc
      rcases List.mem_cons.mp hc with rfl | hc
      · exact Int.le_of_lt hab'
      · exact Int.le_trans (Int.le_of_lt hab') (h.1 c hc)
    · rename_i hab
      have hab' : ¬ (pt P a).y < (pt P b).y := hab
      refine List.pairwise_cons.mpr ⟨?_, ih h.2⟩
      intro c hc
      rcases List.mem_cons.mp ((sortInsert_perm (lessY P) a l).subset hc) with rfl | hc
      · exact Int.not_lt.mp hab'
      · exact h.1 c hc

theorem stdSort_sorted (P : List Point2D) (l : List Nat) : SortedByY P (stdSort (lessY P) l) := by
  unfold stdSort
  refine foldl_invariant (fun acc a => sortInsert (lessY P) a acc) (SortedByY P) l [] ?_
    List.Pairwise.nil
  intro b a _ hb
  exact sortInsert_sorted P a b hb

theorem Merge_sorted (P : List Point2D) (l1 : List Nat) :
    ∀ l2, SortedByY P l1 → SortedByY P l2 → SortedByY P (Merge P l1 l2) := by
  induction l1 with
  | nil =>
    intro l2 _ h2
    exact h2
  | cons a l1 ih =>
    intro l2 h1 h2
    have h1' := List.pairwise_cons.mp h1
    show SortedByY P (MergeAux P a (Merge P l1) l2)
    induction l2 with
    | nil =>
      unfold MergeAux
      refine List.pairwise_cons.mpr ⟨?_, ih [] h1'.2 List.Pairwise.nil⟩
      intro c hc
      have := (Merge_perm P l1 []).subset hc
      rw [List.append_nil] at this
      exact h1'.1 c this
    | cons b l2 ih2 =>
      have h2' := List.pairwise_cons.mp h2
      unfold MergeAux
      split
      · rename_i hab
        refine List.pairwise_cons.mpr ⟨?_, ih (b :: l2) h1'.2 h2⟩
        intro c hc
        rcases List.mem_append.mp ((Merge_perm P l1 (b :: l2)).subset hc) with hc | hc
        · exact h1'.1 c hc
        · rcases List.mem_cons.mp hc with rfl | hc
          · exact Int.le_of_lt hab
          · exact Int.le_trans (Int.le_of_lt hab) (h2'.1 c hc)
      · rename_i hab
        refine List.pairwise_cons.mpr ⟨?_, ih2 h2'.2⟩
        intro c hc
        have hc' := (MergeAux_perm P a (Merge P l1) l1 (Merge_perm P l1) l2).subset hc
        rw [List.cons_append] at hc'
        rcases List.mem_cons.mp hc' with rfl | hc'
        · exact Int.not_lt.mp hab
        · rcases List.mem_append.mp hc' with hc' | hc'
          · exact Int.le_trans (Int.not_lt.mp hab) (h1'.1 c hc')
          · exact h2'.1 c hc'

theorem baseCase_struct (P : List Point2D) (Q : List (Option Nat) → Prop)
    (A seg B : List Nat) (nb : List (Option Nat)) (l r : Nat)
    (hA : A.length = l) (hr : l + seg.length = r)
    (hQ : ∀ nb id c, id ∈ seg → c ∈ seg → (seg.Nodup → id ≠ c) → Q nb →
      Q (UpdateNeighbour P nb id (some c)))
    (hnb : Q nb) :
    (baseCase P (A ++ seg ++ B) nb l r).1 = A ++ stdSort (lessY P) seg ++ B
    ∧ Q (baseCase P (A ++ seg ++ B) nb l r).2 := by
  have hrl : r - l = seg.length := by omega
  constructor
  · simp only [baseCase]
    rw [getRange_mid A seg B l r hA hr, putRange_mid A seg B _ l r hA hr]
  · simp only [baseCase]
    refine foldl_invariant (baseBody P (A ++ seg ++ B) l r) Q _ _ ?_ hnb
    intro b i hi hbq
    rw [List.mem_range'_1] at hi
    unfold baseBody
    rcases baseScan_result P (A ++ seg ++ B) l r i with h0 | ⟨j, hj1, hj2, hj3, hne⟩
    · rw [h0]
      exact hbq
    · rw [hj3]
      exact hQ _ _ _ (getD_mid_mem A seg B l i hA hi.1 (by omega))
        (getD_mid_mem A seg B l j hA hj1 (by omega)) (fun _ => hne) hbq

/-- The effect of FindNENeighbours on a vector `A ++ seg ++ B` whose range `[l, r)` is
  `seg`: the range is rearranged into a sequence sorted by y, the rest of the vector stays,
  and a property `Q` of the table that every call `UpdateNeighbour(id, c)` with `id` and
  `c` in the range (distinct when the range has no repetition) preserves, is preserved. -/
theorem FindNENeighbours_struct (P : List Point2D) (Q : List (Option Nat) → Prop) (n : Nat) :
    ∀ (A seg B : List Nat) (nb : List (Option Nat)) (l r : Nat),
      seg.length = n → A.length = l → l + seg.length = r →
      (∀ nb id c, id ∈ seg → c ∈ seg → (seg.Nodup → id ≠ c) → Q nb →
        Q (UpdateNeighbour P nb id (some c))) →
      Q nb →
      ∃ seg' nb', FindNENeighbours P (A ++ seg ++ B, nb) l r = (A ++ seg' ++ B, nb')
        ∧ seg'.Perm seg ∧ SortedByY P seg' ∧ Q nb' := by
  induction n using Nat.strong_induction_on with
  | _ n ih =>
    intro A seg B nb l r hn hA hr hQ hnb
    have hrl : r - l = seg.length := by omega
    rw [FindNENeighbours_eq]
    by_cases hb : r - l < kMaxSize
    · rw [if_pos hb]
      obtain ⟨h1, h2⟩ := baseCase_struct P Q A seg B nb l r hA hr hQ hnb
      exact ⟨stdSort (lessY P) seg, _, Prod.ext h1 rfl, stdSort_perm _ _,
        stdSort_sorted P seg, h2⟩
    · rw [if_neg hb]
      have h5 : ¬ r - l < 5 := hb
      obtain ⟨k, hk⟩ : ∃ k, k = (r - l) / 2 := ⟨_, rfl⟩
      rw [← hk]
      have hk1 : k ≤ seg.length := by omega
      have hlen1 : (seg.take k).length = k := by rw [List.length_take]; omega
      have hlen2 : (seg.drop k).length = seg.length - k := List.length_drop _ _
      have hsplit : seg.take k ++ seg.drop k = seg := List.take_append_drop k seg
      -- the first recursive call
      have e0 : A ++ seg ++ B = A ++ seg.take k ++ (seg.drop k ++ B) := by
        conv_lhs => rw [← hsplit]
        simp only [List.append_assoc]
      obtain ⟨s1, nb1, e1, p1, y1, q1⟩ := ih k (by omega) A (seg.take k) (seg.drop k ++ B) nb l
        (l + k) hlen1 hA (by omega)
        (fun nb id c hid hc hne hq => hQ nb id c (List.mem_of_mem_take hid)
          (List.mem_of_mem_take hc)
          (fun hnd => hne (hnd.sublist (List.take_sublist _ _))) hq) hnb
      rw [e0, e1]
      -- the second recursive call
      have e0' : A ++ s1 ++ (seg.drop k ++ B) = (A ++ s1) ++ seg.drop k ++ B := by
        rw [List.append_assoc (A ++ s1)]
      have hs1 : s1.length = k := by rw [p1.length_eq, hlen1]
      obtain ⟨s2, nb2, e2, p2, y2, q2⟩ := ih (seg.length - k) (by omega) (A ++ s1) (seg.drop k) B
        nb1 (l + k) r hlen2 (by rw [List.length_append]; omega) (by omega)
        (fun nb id c hid hc hne hq => hQ nb id c (List.mem_of_mem_drop hid)
          (List.mem_of_mem_drop hc)
          (fun hnd => hne (hnd.sublist (List.drop_sublist _ _))) hq) q1
      rw [e0', e2]
      have hs2 : s2.length = seg.length - k := by rw [p2.length_eq, hlen2]
      -- the sweep and the merge
      have eL : getRange (A ++ s1 ++ s2 ++ B) l (l + k) = s1 := by
        rw [List.append_assoc (A ++ s1)]
        exact getRange_mid A s1 (s2 ++ B) l (l + k) hA (by omega)
      have eR : getRange (A ++ s1 ++ s2 ++ B) (l + k) r = s2 :=
        getRange_mid (A ++ s1) s2 B (l + k) r (by rw [List.length_append]; omega) (by omega)
      have eP : ∀ X, putRange (A ++ s1 ++ s2 ++ B) l r X = A ++ X ++ B := by
        intro X
        rw [List.append_assoc A s1 s2]
        exact putRange_mid A (s1 ++ s2) B X l r hA (by rw [List.length_append]; omega)
      have hperm : (s1 ++ s2).Perm seg := by
        have := List.Perm.append p1 p2
        rwa [hsplit] at this
      refine ⟨Merge P s1 s2, sweep P s1 s2 nb2, ?_, (Merge_perm P s1 s2).trans hperm,
        Merge_sorted P s1 s2 y1 y2, ?_⟩
      · simp only [combine]
        rw [← hk, eL, eR, eP]
      · apply sweep_inv P Q s1 s2 _ _ nb2 q2
        · intro nb id c hid hc hq
          refine hQ nb id c (hperm.subset (List.mem_append_left _ hid))
            (hperm.subset (List.mem_append_right _ hc)) ?_ hq
          intro hnd
          have hnd' : (s1 ++ s2).Nodup := hperm.nodup_iff.mpr hnd
          intro heq
          exact List.disjoint_of_nodup_append hnd' hid (heq ▸ hc)
        · intro hnil
          rw [hnil, List.length_nil] at hs2
          omega

theorem FindNENeighbours_range (P : List Point2D) (Q : List (Option Nat) → Prop)
    (points : List Nat) (nb : List (Option Nat)) (l r : Nat) (hlr : l ≤ r)
    (hr : r ≤ points.length)
    (hQ : ∀ nb id c, id ∈ getRange points l r → c ∈ getRange points l r →
      ((getRange points l r).Nodup → id ≠ c) → Q nb → Q (UpdateNeighbour P nb id (some c)))
    (hnb : Q nb) :
    ∃ seg', (FindNENeighbours P (points, nb) l r).1 = points.take l ++ seg' ++ points.drop r
      ∧ seg'.Perm (getRange points l r) ∧ SortedByY P seg'
      ∧ Q (FindNENeighbours P (points, nb) l r).2 := by
  have hA : (points.take l).length = l := by rw [List.length_take]; omega
  have hseg : (getRange points l r).length = r - l := by
    unfold getRange
    rw [List.length_take, List.length_drop]
    omega
  obtain ⟨seg', nb', e, hp, hy, hq⟩ := FindNENeighbours_struct P Q (r - l) (points.take l)
    (getRange points l r) (points.drop r) nb l r hseg hA (by omega) hQ hnb
  rw [← range_split points l r hlr] at e
  rw [e]
  exact ⟨seg', rfl, hp, hy, hq⟩

/-- Claim C17: for every index vector and every range 0 <= l <= r <= size, after
  FindNENeighbours(points, l, r) the range [l, r) is a rearrangement of its former
  contents, sorted by non-decreasing y, and every position outside the range holds the
  index it held before; in the recursive case the range is what Merge writes from the two
  halves left by the recursive calls, and Merge of two sequences sorted by y is sorted by
  y and holds exactly the elements of both. -/
theorem index_array_postcondition (all_points : List Point2D) (points : List Nat)
    (all_neighbours : List (Option Nat)) (l r : Nat) (hlr : l ≤ r) (hr : r ≤ points.length) :
    (getRange (FindNENeighbours all_points (points, all_neighbours) l r).1 l r).Perm
        (getRange points l r)
    ∧ SortedByY all_points
        (getRange (FindNENeighbours all_points (points, all_neighbours) l r).1 l r)
    ∧ (FindNENeighbours all_points (points, all_neighbours) l r).1.length = points.length
    ∧ (∀ i, i < l ∨ r ≤ i →
        (FindNENeighbours all_points (points, all_neighbours) l r).1.getD i 0
          = points.getD i 0)
    ∧ (¬ r - l < kMaxSize →
        (FindNENeighbours all_points (points, all_neighbours) l r).1
          = putRange
              (FindNENeighbours all_points
                (FindNENeighbours all_points (points, all_neighbours) l (l + (r - l) / 2))
                (l + (r - l) / 2) r).1 l r
              (Merge all_points
                (getRange (FindNENeighbours all_points
                  (FindNENeighbours all_points (points, all_neighbours) l (l + (r - l) / 2))
                  (l + (r - l) / 2) r).1 l (l + (r - l) / 2))
                (getRange (FindNENeighbours all_points
                  (FindNENeighbours all_points (points, all_neighbours) l (l + (r - l) / 2))
                  (l + (r - l) / 2) r).1 (l + (r - l) / 2) r)))
    ∧ ∀ l1 l2, SortedByY all_points l1 → SortedByY all_points l2 →
        SortedByY all_points (Merge all_points l1 l2)
        ∧ (Merge all_points l1 l2).Perm (l1 ++ l2) := by
  obtain ⟨seg', e, hp, hy, _⟩ := FindNENeighbours_range all_points (fun _ => True) points
    all_neighbours l r hlr hr (fun _ _ _ _ _ _ _ => trivial) trivial
  have hA : (points.take l).length = l := by rw [List.length_take]; omega
  have hseg : seg'.length = r - l := by
    rw [hp.length_eq]
    unfold getRange
    rw [List.length_take, List.length_drop]
    omega
  have hB : (points.drop r).length = points.length - r := List.length_drop _ _
  have hmid : getRange (points.take l ++ seg' ++ points.drop r) l r = seg' :=
    getRange_mid _ _ _ l r hA (by omega)
  refine ⟨?_, ?_, ?_, ?_, ?_, ?_⟩
  · rw [e, hmid]
    exact hp
  · rw [e, hmid]
    exact hy
  · rw [e]
    simp only [List.length_append, hA, hseg, hB]
    omega
  · intro i hi
    rw [e]
    simp only [List.getD_eq_getElem?_getD]
    congr 1
    rcases hi with hi | hi
    · rw [List.append_assoc, List.getElem?_append_left (by omega), List.getElem?_take_of_lt hi]
    · rw [List.getElem?_append_right (by rw [List.length_append]; omega), List.getElem?_drop,
        List.length_append, hA, hseg]
      congr 1
      omega
  · intro hb
    rw [FindNENeighbours_eq all_points (points, all_neighbours) l r, if_neg hb]
    rfl
  · intro l1 l2 h1 h2
    exact ⟨Merge_sorted all_points l1 l2 h1 h2, Merge_perm all_points l1 l2⟩

set_option maxRecDepth 100000 in
/-- The range [1, 4) of the index vector 0..4 of five points on a vertical line, listed
  from top to bottom: the three indices of the range are reversed, the ends stay. -/
theorem index_array_postcondition_witness :
    (FindNENeighbours columnPoints ([0, 1, 2, 3, 4], [none, none, none, none, none]) 1 4).1
        = [0, 3, 2, 1, 4]
    ∧ SortedByY columnPoints (getRange
        (FindNENeighbours columnPoints ([0, 1, 2, 3, 4], [none, none, none, none, none]) 1 4).1
        1 4) :=
  ⟨by decide,
   (index_array_postcondition columnPoints [0, 1, 2, 3, 4] [none, none, none, none, none] 1 4
      (by decide) (by decide)).2.1⟩

/-! ## The recorded neighbours are valid -/

/-- Claim C13: for an index vector without repetition and a table of nones, after
  FindNENeighbours(points, l, r) every entry neighbour[i] = j has j other than i, both i
  and j among points[l..r), and j weakly north-east of i; hence a point of the range with
  no other weakly north-east point in the range keeps none, and so does every point
  outside the range; the table keeps its length. -/
theorem recorded_neighbours_valid (all_points : List Point2D) (points : List Nat) (n l r : Nat)
    (hnd : points.Nodup) (hlr : l ≤ r) (hr : r ≤ points.length) :
    (FindNENeighbours all_points (points, List.replicate n none) l r).2.length = n
    ∧ (∀ i j,
        (FindNENeighbours all_points (points, List.replicate n none) l r).2.getD i none = some j →
        j ≠ i ∧ i ∈ getRange points l r ∧ j ∈ getRange points l r
        ∧ (pt all_points j).x ≥ (pt all_points i).x ∧ (pt all_points j).y ≥ (pt all_points i).y)
    ∧ (∀ i, i ∈ getRange points l r →
        (¬ ∃ j, j ∈ getRange points l r ∧ j ≠ i
            ∧ (pt all_points j).x ≥ (pt all_points i).x
            ∧ (pt all_points j).y ≥ (pt all_points i).y) →
        (FindNENeighbours all_points (points, List.replicate n none) l r).2.getD i none = none)
    ∧ ∀ i, i ∉ getRange points l r →
        (FindNENeighbours all_points (points, List.replicate n none) l r).2.getD i none
          = none := by
  have hsegnd : (getRange points l r).Nodup := hnd.sublist (getRange_sublist points l r)
  obtain ⟨_, _, _, _, hlen, hval⟩ := FindNENeighbours_range all_points
    (fun nb => nb.length = n ∧ ∀ i j, nb.getD i none = some j →
      j ≠ i ∧ i ∈ getRange points l r ∧ j ∈ getRange points l r
      ∧ (pt all_points j).x ≥ (pt all_points i).x ∧ (pt all_points j).y ≥ (pt all_points i).y)
    points (List.replicate n none) l r hlr hr
    (by
      intro nb id c hid hc hne ⟨hl, hq⟩
      refine ⟨by rw [length_UpdateNeighbour]; exact hl, ?_⟩
      intro i j hij
      rw [UpdateNeighbour_rule] at hij
      split at hij
      · rename_i hrep
        rw [getD_set_eq] at hij
        split at hij
        · rename_i hi
          injection hij with hij
          subst hij
          rw [hi.1]
          unfold shouldReplace at hrep
          rw [Bool.and_eq_true, decide_eq_true_eq] at hrep
          exact ⟨(hne hsegnd).symm, hid, hc, hrep.1.1, hrep.1.2⟩
        · exact hq i j hij
      · exact hq i j hij)
    (by
      refine ⟨List.length_replicate _ _, ?_⟩
      intro i j hij
      simp only [List.getD_eq_getElem?_getD, List.getElem?_replicate] at hij
      split at hij <;> simp at hij)
  refine ⟨hlen, hval, ?_, ?_⟩
  · intro i _ hno
    cases hres : (FindNENeighbours all_points (points, List.replicate n none) l r).2.getD i none with
    | none => rfl
    | some j =>
      obtain ⟨h1, _, h3, h4, h5⟩ := hval i j hres
      exact absurd ⟨j, h3, h1, h4, h5⟩ hno
  · intro i hi
    cases hres : (FindNENeighbours all_points (points, List.replicate n none) l r).2.getD i none with
    | none => rfl
    | some j => exact absurd (hval i j hres).2.1 hi

set_option maxRecDepth 100000 in
/-- The recorded neighbours of the four scenario points on the whole range, for the index
  vector 0, 3, 1, 2: the point (0,0) gets (0,2), the first of its three weakly north-east
  points at distance 2; the other three points have no weakly north-east point and keep
  none. -/
theorem recorded_neighbours_valid_witness :
    (FindNENeighbours scenarioPoints ([0, 3, 1, 2], List.replicate 4 none) 0 4).2
        = [some 3, none, none, none]
    ∧ (FindNENeighbours scenarioPoints ([0, 3, 1, 2], List.replicate 4 none) 0 4).2.length = 4 :=
  ⟨by decide,
   (recorded_neighbours_valid scenarioPoints [0, 3, 1, 2] 4 0 4 (by decide) (by decide)
      (by decide)).1⟩

/-! ## The sweep as a list of calls of UpdateNeighbour -/

theorem applyOffers_append (P : List Point2D) (nb : List (Option Nat))
    (o1 o2 : List (Nat × Nat)) :
    applyOffers P nb (o1 ++ o2) = applyOffers P (applyOffers P nb o1) o2 := by
  unfold applyOffers
  rw [List.foldl_append]

theorem sweepInner_offers (P : List Point2D) (L R : List Nat) (right min_id : Nat)
    (left1 : Nat) :
    ∀ (nb : List (Option Nat)) (min_dist : Int),
      sweepInner P L R right min_id left1 nb min_dist
        = (applyOffers P nb (sweepInnerOffers P L R right min_id left1 min_dist).1,
           (sweepInnerOffers P L R right min_id left1 min_dist).2) := by
  induction left1 with
  | zero =>
    intro nb min_dist
    rfl
  | succ left ih =>
    intro nb min_dist
    unfold sweepInner sweepInnerOffers
    split
    · rw [ih]
      rfl
    · rfl

theorem sweepOuter_offers (P : List Point2D) (L R : List Nat) (right : Nat) :
    ∀ (nb : List (Option Nat)) (left1 min_id : Nat) (min_dist : Int),
      sweepOuter P L R right ⟨nb, left1, min_id, min_dist⟩
        = ⟨applyOffers P nb (sweepOuterOffers P L R right (left1, min_id, min_dist)).1,
           (sweepOuterOffers P L R right (left1, min_id, min_dist)).2.1,
           (sweepOuterOffers P L R right (left1, min_id, min_dist)).2.2.1,
           (sweepOuterOffers P L R right (left1, min_id, min_dist)).2.2.2⟩ := by
  induction right with
  | zero =>
    intro nb left1 min_id min_dist
    rfl
  | succ right ih =>
    intro nb left1 min_id min_dist
    cases left1 with
    | zero => rfl
    | succ l0 =>
      unfold sweepOuter sweepOuterOffers
      simp only
      rw [sweepInner_offers]
      simp only
      cases h1 : (sweepInnerOffers P L R right min_id (l0 + 1) min_dist).2.1 with
      | zero =>
        simp only
        rw [ih, applyOffers_append]
      | succ left =>
        simp only
        split
        · rw [ih, applyOffers_append]
        · rw [ih, applyOffers_append]

theorem sweepRest_offers (P : List Point2D) (L R : List Nat) (min_id : Nat) (left1 : Nat) :
    ∀ nb : List (Option Nat),
      sweepRest P L R min_id left1 nb = applyOffers P nb (sweepRestOffers L R min_id left1) := by
  induction left1 with
  | zero =>
    intro nb
    rfl
  | succ left ih =>
    intro nb
    unfold sweepRest sweepRestOffers
    rw [ih]
    rfl

theorem sweep_offers (P : List Point2D) (L R : List Nat) (nb : List (Option Nat)) :
    sweep P L R nb = applyOffers P nb (sweepOffers P L R) := by
  unfold sweep sweepOffers
  simp only
  rw [sweepOuter_offers, sweepRest_offers]
  exact (applyOffers_append P nb _ _).symm

/-! ## The sweep offers a minimiser of x + y -/

theorem ManhattanDistance_NE (p q : Point2D) (hx : p.x ≤ q.x) (hy : p.y ≤ q.y) :
    ManhattanDistance p q = (q.x + q.y) - (p.x + p.y) := by
  rw [ManhattanDistance_eq, abs_of_nonpos (by omega), abs_of_nonpos (by omega)]
  omega

theorem sortedByY_getD (P : List Point2D) (l : List Nat) (h : SortedByY P l) (a b : Nat)
    (hab : a ≤ b) (hb : b < l.length) :
    (pt P (l.getD a 0)).y ≤ (pt P (l.getD b 0)).y := by
  rcases Nat.eq_or_lt_of_le hab with rfl | hlt
  · exact le_refl _
  · rw [List.getD_eq_getElem l 0 (by omega), List.getD_eq_getElem l 0 hb]
    exact (List.pairwise_iff_getElem.mp h) a b (by omega) hb hlt

theorem mem_getD (l : List Nat) (q : Nat) (h : q ∈ l) :
    ∃ j, j < l.length ∧ l.getD j 0 = q := by
  obtain ⟨j, hj, rfl⟩ := List.getElem_of_mem h
  exact ⟨j, hj, List.getD_eq_getElem l 0 hj⟩

theorem skipLeft_spec (P : List Point2D) (L R : List Nat) (m : Nat) (left1 : Nat) :
    skipLeft P L R m left1 ≤ left1
    ∧ (∀ k, skipLeft P L R m left1 ≤ k → k < left1 →
        (pt P (R.getD m 0)).y < (pt P (L.getD k 0)).y)
    ∧ ∀ left, skipLeft P L R m left1 = left + 1 →
        ¬ (pt P (R.getD m 0)).y < (pt P (L.getD left 0)).y := by
  induction left1 with
  | zero =>
    refine ⟨Nat.le_refl _, ?_, ?_⟩
    · intro k _ hk
      omega
    · intro left h
      simp [skipLeft] at h
  | succ left ih =>
    unfold skipLeft
    split
    · rename_i hc
      obtain ⟨h1, h2, h3⟩ := ih
      refine ⟨by omega, ?_, h3⟩
      intro k hk1 hk2
      by_cases hkl : k = left
      · rw [hkl]
        exact hc
      · exact h2 k hk1 (by omega)
    · rename_i hc
      refine ⟨Nat.le_refl _, ?_, ?_⟩
      · intro k hk1 hk2
        omega
      · intro left' h
        have : left' = left := by omega
        rw [this]
        exact hc

theorem sweepInnerOffers_spec (P : List Point2D) (L R : List Nat) (hL : SortedByY P L)
    (hR : SortedByY P R) (right min_id : Nat) (hm1 : right + 1 ≤ min_id)
    (hm2 : min_id < R.length)
    (hmin : ∀ j, right + 1 ≤ j → j < R.length →
      (pt P (R.getD min_id 0)).x + (pt P (R.getD min_id 0)).y
        ≤ (pt P (R.getD j 0)).x + (pt P (R.getD j 0)).y)
    (left1 : Nat) :
    ∀ (min_dist : Int), left1 ≤ L.length →
      (∀ left, left1 = left + 1 →
        (pt P (L.getD left 0)).y ≤ (pt P (R.getD (right + 1) 0)).y
        ∧ min_dist = ManhattanDistance (pt P (L.getD left 0)) (pt P (R.getD min_id 0))) →
      ∃ offs l1 md, sweepInnerOffers P L R right min_id left1 min_dist = (offs, l1, md)
        ∧ l1 ≤ left1
        ∧ (∀ o ∈ offs, ∃ k, l1 ≤ k ∧ k < left1 ∧ o.1 = L.getD k 0
            ∧ GoodOffer P R (L.getD k 0) o.2)
        ∧ (∀ k, l1 ≤ k → k < left1 → ∃ o ∈ offs, o.1 = L.getD k 0)
        ∧ ∀ left, l1 = left + 1 →
            (pt P (L.getD left 0)).y ≤ (pt P (R.getD right 0)).y
            ∧ md = ManhattanDistance (pt P (L.getD left 0)) (pt P (R.getD min_id 0)) := by
  induction left1 with
  | zero =>
    intro min_dist _ _
    refine ⟨[], 0, min_dist, rfl, Nat.le_refl _, ?_, ?_, ?_⟩
    · intro o ho
      cases ho
    · intro k _ hk
      omega
    · intro left h
      omega
  | succ left ih =>
    intro min_dist hlen hpre
    obtain ⟨hy0, hd0⟩ := hpre left rfl
    unfold sweepInnerOffers
    split
    · rename_i hc
      have hgood : GoodOffer P R (L.getD left 0) (R.getD min_id 0) := by
        refine ⟨getD_mem R min_id 0 hm2, ?_, ?_⟩
        · exact le_trans hy0 (sortedByY_getD P R hR (right + 1) min_id hm1 hm2)
        · intro q hq hqy
          obtain ⟨j, hj, rfl⟩ := mem_getD R q hq
          apply hmin j _ hj
          by_contra hjr
          have := sortedByY_getD P R hR j right (by omega) (by omega)
          omega
      have key : ∀ X : List (Nat × Nat) × Nat × Int,
          (∃ offs l1 md, X = (offs, l1, md)
            ∧ l1 ≤ left
            ∧ (∀ o ∈ offs, ∃ k, l1 ≤ k ∧ k < left ∧ o.1 = L.getD k 0
                ∧ GoodOffer P R (L.getD k 0) o.2)
            ∧ (∀ k, l1 ≤ k → k < left → ∃ o ∈ offs, o.1 = L.getD k 0)
            ∧ ∀ left', l1 = left' + 1 →
                (pt P (L.getD left' 0)).y ≤ (pt P (R.getD right 0)).y
                ∧ md = ManhattanDistance (pt P (L.getD left' 0)) (pt P (R.getD min_id 0))) →
          ∃ offs l1 md, ((L.getD left 0, R.getD min_id 0) :: X.1, X.2) = (offs, l1, md)
            ∧ l1 ≤ left + 1
            ∧ (∀ o ∈ offs, ∃ k, l1 ≤ k ∧ k < left + 1 ∧ o.1 = L.getD k 0
                ∧ GoodOffer P R (L.getD k 0) o.2)
            ∧ (∀ k, l1 ≤ k → k < left + 1 → ∃ o ∈ offs, o.1 = L.getD k 0)
            ∧ ∀ left', l1 = left' + 1 →
                (pt P (L.getD left' 0)).y ≤ (pt P (R.getD right 0)).y
                ∧ md = ManhattanDistance (pt P (L.getD left' 0)) (pt P (R.getD min_id 0)) := by
        rintro X ⟨offs, l1, md, e, h1, h2, h3, h4⟩
        rw [e]
        refine ⟨(L.getD left 0, R.getD min_id 0) :: offs, l1, md, rfl, by omega, ?_, ?_, h4⟩
        · intro o ho
          rcases List.mem_cons.mp ho with rfl | ho
          · exact ⟨left, by omega, by omega, rfl, hgood⟩
          · obtain ⟨k, hk1, hk2, hk3, hk4⟩ := h2 o ho
            exact ⟨k, hk1, by omega, hk3, hk4⟩
        · intro k hk1 hk2
          by_cases hkl : k = left
          · exact ⟨_, List.mem_cons_self _ _, by rw [hkl]⟩
          · obtain ⟨o, ho, hoe⟩ := h3 k hk1 (by omega)
            exact ⟨o, List.mem_cons_of_mem _ ho, hoe⟩
      simp only
      apply key
      clear key hgood hc hd0 hpre
      cases left with
      | zero => exact ih _ (by omega) (fun left' hl => by omega)
      | succ k =>
        apply ih _ (by omega)
        intro left' hl
        have hk : left' = k := by omega
        subst hk
        exact ⟨le_trans (sortedByY_getD P L hL left' (left' + 1) (by omega) (by omega)) hy0,
          rfl⟩
    · rename_i hc
      refine ⟨[], left + 1, min_dist, rfl, Nat.le_refl _, ?_, ?_, ?_⟩
      · intro o ho
        cases ho
      · intro k hk1 hk2
        omega
      · intro left' hl
        have : left' = left := by omega
        rw [this]
        exact ⟨Int.not_lt.mp hc, hd0⟩

theorem sweepOuterOffers_zero (P : List Point2D) (L R : List Nat) (right min_id : Nat)
    (min_dist : Int) :
    sweepOuterOffers P L R right (0, min_id, min_dist) = ([], (0, min_id, min_dist)) := by
  cases right <;> rfl

theorem sweepOuterOffers_spec (P : List Point2D) (L R : List Nat) (hL : SortedByY P L)
    (hR : SortedByY P R) (hX : ∀ p ∈ L, ∀ q ∈ R, (pt P p).x ≤ (pt P q).x) (right : Nat) :
    ∀ (left1 min_id : Nat) (min_dist : Int),
      right ≤ min_id → min_id < R.length → left1 ≤ L.length →
      (∀ j, right ≤ j → j < R.length →
        (pt P (R.getD min_id 0)).x + (pt P (R.getD min_id 0)).y
          ≤ (pt P (R.getD j 0)).x + (pt P (R.getD j 0)).y) →
      (∀ left, left1 = left + 1 →
        (pt P (L.getD left 0)).y ≤ (pt P (R.getD right 0)).y
        ∧ min_dist = ManhattanDistance (pt P (L.getD left 0)) (pt P (R.getD min_id 0))) →
      ∃ offs l1 mi md,
        sweepOuterOffers P L R right (left1, min_id, min_dist) = (offs, l1, mi, md)
        ∧ l1 ≤ left1 ∧ mi < R.length
        ∧ (∀ o ∈ offs, ∃ k, l1 ≤ k ∧ k < left1 ∧ o.1 = L.getD k 0
            ∧ GoodOffer P R (L.getD k 0) o.2)
        ∧ (∀ k, l1 ≤ k → k < left1 → ∃ o ∈ offs, o.1 = L.getD k 0)
        ∧ ∀ left, l1 = left + 1 →
            (pt P (L.getD left 0)).y ≤ (pt P (R.getD 0 0)).y
            ∧ ∀ j, j < R.length →
                (pt P (R.getD mi 0)).x + (pt P (R.getD mi 0)).y
                  ≤ (pt P (R.getD j 0)).x + (pt P (R.getD j 0)).y := by
  induction right with
  | zero =>
    intro left1 min_id min_dist _ hm2 hlen hmin hpre
    refine ⟨[], left1, min_id, min_dist, rfl, Nat.le_refl _, hm2, ?_, ?_, ?_⟩
    · intro o ho
      cases ho
    · intro k hk1 hk2
      omega
    · intro left hl
      exact ⟨(hpre left hl).1, fun j hj => hmin j (Nat.zero_le _) hj⟩
  | succ right ih =>
    intro left1 min_id min_dist hm1 hm2 hlen hmin hpre
    cases left1 with
    | zero =>
      refine ⟨[], 0, min_id, min_dist, rfl, Nat.le_refl _, hm2, ?_, ?_, ?_⟩
      · intro o ho
        cases ho
      · intro k hk1 hk2
        omega
      · intro left hl
        omega
    | succ l0 =>
      obtain ⟨offs1, l1, md1, e, h1, h2, h3, h4⟩ := sweepInnerOffers_spec P L R hL hR right
        min_id hm1 hm2 hmin (l0 + 1) min_dist hlen hpre
      unfold sweepOuterOffers
      simp only
      rw [e]
      simp only
      cases l1 with
      | zero =>
        simp only
        rw [sweepOuterOffers_zero]
        refine ⟨offs1 ++ [], 0, min_id, md1, rfl, Nat.zero_le _, hm2, ?_, ?_, ?_⟩
        · intro o ho
          rw [List.append_nil] at ho
          exact h2 o ho
        · intro k hk1 hk2
          rw [List.append_nil]
          exact h3 k hk1 hk2
        · intro left hl
          omega
      | succ left =>
        simp only
        obtain ⟨hy, hmd⟩ := h4 left rfl
        have hleft : left < L.length := by omega
        have hright : right < R.length := by omega
        have hLm := getD_mem L left 0 hleft
        have hy2 : (pt P (L.getD left 0)).y ≤ (pt P (R.getD min_id 0)).y :=
          le_trans hy (sortedByY_getD P R hR right min_id (by omega) hm2)
        have hcur := ManhattanDistance_NE (pt P (L.getD left 0)) (pt P (R.getD right 0))
          (hX _ hLm _ (getD_mem R right 0 hright)) hy
        have hold := ManhattanDistance_NE (pt P (L.getD left 0)) (pt P (R.getD min_id 0))
          (hX _ hLm _ (getD_mem R min_id 0 hm2)) hy2
        have compose : ∀ X : List (Nat × Nat) × Nat × Nat × Int,
            (∃ offs l1 mi md, X = (offs, l1, mi, md)
              ∧ l1 ≤ left + 1 ∧ mi < R.length
              ∧ (∀ o ∈ offs, ∃ k, l1 ≤ k ∧ k < left + 1 ∧ o.1 = L.getD k 0
                  ∧ GoodOffer P R (L.getD k 0) o.2)
              ∧ (∀ k, l1 ≤ k → k < left + 1 → ∃ o ∈ offs, o.1 = L.getD k 0)
              ∧ ∀ left, l1 = left + 1 →
                  (pt P (L.getD left 0)).y ≤ (pt P (R.getD 0 0)).y
                  ∧ ∀ j, j < R.length →
                      (pt P (R.getD mi 0)).x + (pt P (R.getD mi 0)).y
                        ≤ (pt P (R.getD j 0)).x + (pt P (R.getD j 0)).y) →
            ∃ offs l1 mi md, (offs1 ++ X.1, X.2) = (offs, l1, mi, md)
              ∧ l1 ≤ l0 + 1 ∧ mi < R.length
              ∧ (∀ o ∈ offs, ∃ k, l1 ≤ k ∧ k < l0 + 1 ∧ o.1 = L.getD k 0
                  ∧ GoodOffer P R (L.getD k 0) o.2)
              ∧ (∀ k, l1 ≤ k → k < l0 + 1 → ∃ o ∈ offs, o.1 = L.getD k 0)
              ∧ ∀ left, l1 = left + 1 →
                  (pt P (L.getD left 0)).y ≤ (pt P (R.getD 0 0)).y
                  ∧ ∀ j, j < R.length →
                      (pt P (R.getD mi 0)).x + (pt P (R.getD mi 0)).y
                        ≤ (pt P (R.getD j 0)).x + (pt P (R.getD j 0)).y := by
          rintro X ⟨offs2, l2, mi2, md2, e2, g1, g2, g3, g4, g5⟩
          rw [e2]
          refine ⟨offs1 ++ offs2, l2, mi2, md2, rfl, by omega, g2, ?_, ?_, g5⟩
          · intro o ho
            rcases List.mem_append.mp ho with ho | ho
            · obtain ⟨k, hk1, hk2, hk3, hk4⟩ := h2 o ho
              exact ⟨k, by omega, hk2, hk3, hk4⟩
            · obtain ⟨k, hk1, hk2, hk3, hk4⟩ := g3 o ho
              exact ⟨k, hk1, by omega, hk3, hk4⟩
          · intro k hk1 hk2
            by_cases hk : left + 1 ≤ k
            · obtain ⟨o, ho, hoe⟩ := h3 k hk hk2
              exact ⟨o, List.mem_append_left _ ho, hoe⟩
            · obtain ⟨o, ho, hoe⟩ := g4 k hk1 (by omega)
              exact ⟨o, List.mem_append_right _ ho, hoe⟩
        split
        · rename_i hlt
          apply compose
          apply ih (left + 1) right _ (Nat.le_refl _) hright (by omega)
          · intro j hj1 hj2
            by_cases hjr : j = right
            · rw [hjr]
            · have := hmin j (by omega) hj2
              omega
          · intro left' hl
            have : left' = left := by omega
            rw [this]
            exact ⟨hy, rfl⟩
        · rename_i hlt
          apply compose
          apply ih (left + 1) min_id _ (by omega) hm2 (by omega)
          · intro j hj1 hj2
            by_cases hjr : j = right
            · rw [hjr]
              omega
            · exact hmin j (by omega) hj2
          · intro left' hl
            have : left' = left := by omega
            rw [this]
            exact ⟨hy, hmd⟩

theorem sweepRestOffers_spec (L R : List Nat) (min_id : Nat) (left1 : Nat) :
    (∀ o ∈ sweepRestOffers L R min_id left1,
        ∃ k, k < left1 ∧ o = (L.getD k 0, R.getD min_id 0))
    ∧ ∀ k, k < left1 → (L.getD k 0, R.getD min_id 0) ∈ sweepRestOffers L R min_id left1 := by
  induction left1 with
  | zero =>
    constructor
    · intro o ho
      cases ho
    · intro k hk
      omega
  | succ left ih =>
    unfold sweepRestOffers
    constructor
    · intro o ho
      rcases List.mem_cons.mp ho with rfl | ho
      · exact ⟨left, by omega, rfl⟩
      · obtain ⟨k, hk, e⟩ := ih.1 o ho
        exact ⟨k, by omega, e⟩
    · intro k hk
      by_cases hkl : k = left
      · rw [hkl]
        exact List.mem_cons_self _ _
      · exact List.mem_cons_of_mem _ (ih.2 k (by omega))

theorem sweepOffers_aux (P : List Point2D) (L R : List Nat) (hL : SortedByY P L)
    (hR : SortedByY P R) (hX : ∀ p ∈ L, ∀ q ∈ R, (pt P p).x ≤ (pt P q).x) (hRne : R ≠ [])
    (md0 : Int)
    (hmd0 : ∀ left, skipLeft P L R (R.length - 1) L.length = left + 1 →
      md0 = ManhattanDistance (pt P (L.getD left 0)) (pt P (R.getD (R.length - 1) 0)))
    (offers : List (Nat × Nat))
    (hoff : offers =
      (sweepOuterOffers P L R (R.length - 1)
          (skipLeft P L R (R.length - 1) L.length, R.length - 1, md0)).1
        ++ sweepRestOffers L R
            (sweepOuterOffers P L R (R.length - 1)
              (skipLeft P L R (R.length - 1) L.length, R.length - 1, md0)).2.2.1
            (sweepOuterOffers P L R (R.length - 1)
              (skipLeft P L R (R.length - 1) L.length, R.length - 1, md0)).2.1) :
    (∀ o ∈ offers, o.1 ∈ L ∧ GoodOffer P R o.1 o.2)
    ∧ ∀ p ∈ L, (∃ q ∈ R, (pt P q).y ≥ (pt P p).y) → ∃ o ∈ offers, o.1 = p := by
  have hpos : 0 < R.length := List.length_pos.mpr hRne
  obtain ⟨s1, s2, s3⟩ := skipLeft_spec P L R (R.length - 1) L.length
  obtain ⟨offs1, l1, mi, md, e, h1, h2, h3, h4, h5⟩ := sweepOuterOffers_spec P L R hL hR hX
    (R.length - 1) (skipLeft P L R (R.length - 1) L.length) (R.length - 1) md0
    (Nat.le_refl _) (by omega) s1
    (by
      intro j hj1 hj2
      have : j = R.length - 1 := by omega
      rw [this])
    (by
      intro left hl
      exact ⟨Int.not_lt.mp (s3 left hl), hmd0 left hl⟩)
  rw [e] at hoff
  simp only at hoff
  obtain ⟨r1, r2⟩ := sweepRestOffers_spec L R mi l1
  have hgoodrest : ∀ k, k < l1 → GoodOffer P R (L.getD k 0) (R.getD mi 0) := by
    intro k hk
    obtain ⟨left, hl⟩ : ∃ left, l1 = left + 1 := ⟨l1 - 1, by omega⟩
    obtain ⟨hy, hmin⟩ := h5 left hl
    have hky : (pt P (L.getD k 0)).y ≤ (pt P (R.getD 0 0)).y :=
      le_trans (sortedByY_getD P L hL k left (by omega) (by omega)) hy
    refine ⟨getD_mem R mi 0 h2, ?_, ?_⟩
    · exact le_trans hky (sortedByY_getD P R hR 0 mi (Nat.zero_le _) h2)
    · intro q hq _
      obtain ⟨j, hj, rfl⟩ := mem_getD R q hq
      exact hmin j hj
  subst hoff
  constructor
  · intro o ho
    rcases List.mem_append.mp ho with ho | ho
    · obtain ⟨k, hk1, hk2, hk3, hk4⟩ := h3 o ho
      rw [hk3]
      exact ⟨getD_mem L k 0 (by omega), hk4⟩
    · obtain ⟨k, hk, rfl⟩ := r1 o ho
      exact ⟨getD_mem L k 0 (by omega), hgoodrest k hk⟩
  · rintro p hp ⟨q, hq, hqy⟩
    obtain ⟨k, hk, rfl⟩ := mem_getD L p hp
    obtain ⟨j, hj, rfl⟩ := mem_getD R q hq
    have hk0 : k < skipLeft P L R (R.length - 1) L.length := by
      by_contra hge
      have h6 := s2 k (by omega) hk
      have h7 := sortedByY_getD P R hR j (R.length - 1) (by omega) (by omega)
      omega
    by_cases hkl : l1 ≤ k
    · obtain ⟨o, ho, hoe⟩ := h4 k hkl hk0
      exact ⟨o, List.mem_append_left _ ho, hoe⟩
    · exact ⟨_, List.mem_append_right _ (r2 k (by omega)), rfl⟩

theorem sweepOffers_spec (P : List Point2D) (L R : List Nat) (hL : SortedByY P L)
    (hR : SortedByY P R) (hX : ∀ p ∈ L, ∀ q ∈ R, (pt P p).x ≤ (pt P q).x) (hRne : R ≠ []) :
    (∀ o ∈ sweepOffers P L R, o.1 ∈ L ∧ GoodOffer P R o.1 o.2)
    ∧ ∀ p ∈ L, (∃ q ∈ R, (pt P q).y ≥ (pt P p).y) → ∃ o ∈ sweepOffers P L R, o.1 = p := by
  refine sweepOffers_aux P L R hL hR hX hRne _ ?_ (sweepOffers P L R) rfl
  intro left hl
  rw [hl]

/-! ## The table after an offer -/

theorem Optimal_congr (P : List Point2D) (S S' : List Nat) (i : Nat) (e : Option Nat)
    (h : ∀ j, j ∈ S ↔ j ∈ S') (ho : Optimal P S i e) : Optimal P S' i e := by
  cases e with
  | none =>
    intro j hj
    exact ho j ((h j).mpr hj)
  | some c =>
    obtain ⟨h1, h2, h3⟩ := ho
    exact ⟨(h c).mp h1, h2, fun j hj => h3 j ((h j).mpr hj)⟩

theorem Optimal_extend (P : List Point2D) (C R : List Nat) (i : Nat) (e : Option Nat)
    (ho : Optimal P C i e) (hR : ∀ j ∈ R, ¬ IsNE P i j) : Optimal P (C ++ R) i e := by
  cases e with
  | none =>
    intro j hj
    rcases List.mem_append.mp hj with hj | hj
    · exact ho j hj
    · exact hR j hj
  | some c =>
    obtain ⟨h1, h2, h3⟩ := ho
    refine ⟨List.mem_append_left _ h1, h2, ?_⟩
    intro j hj hne
    rcases List.mem_append.mp hj with hj | hj
    · exact h3 j hj hne
    · exact absurd hne (hR j hj)

theorem Optimal_update (P : List Point2D) (C R : List Nat) (nb : List (Option Nat)) (i q : Nat)
    (hi : i < nb.length) (hq : q ∈ R) (hne : IsNE P i q)
    (hmin : ∀ j ∈ R, IsNE P i j →
      ManhattanDistance (pt P i) (pt P q) ≤ ManhattanDistance (pt P i) (pt P j)) :
    (Optimal P C i (nb.getD i none) →
      Optimal P (C ++ R) i ((UpdateNeighbour P nb i (some q)).getD i none))
    ∧ (Optimal P (C ++ R) i (nb.getD i none) →
      Optimal P (C ++ R) i ((UpdateNeighbour P nb i (some q)).getD i none)) := by
  have hcases : nb.getD i none = none ∨ ∃ cur, nb.getD i none = some cur := by
    cases nb.getD i none with
    | none => exact Or.inl rfl
    | some cur => exact Or.inr ⟨cur, rfl⟩
  have hnewC : (∀ j ∈ C, IsNE P i j →
      ManhattanDistance (pt P i) (pt P q) ≤ ManhattanDistance (pt P i) (pt P j)) →
      Optimal P (C ++ R) i (some q) := by
    intro hC
    refine ⟨List.mem_append_right _ hq, hne, ?_⟩
    intro j hj hnej
    rcases List.mem_append.mp hj with hj | hj
    · exact hC j hj hnej
    · exact hmin j hj hnej
  rw [UpdateNeighbour_rule]
  rcases hcases with hnone | ⟨cur, hcur⟩
  · have hrep : shouldReplace P nb i q = true := by
      unfold shouldReplace
      simp only [hnone]
      simp [hne.2.1, hne.2.2]
    rw [if_pos hrep, getD_set_eq, if_pos ⟨rfl, hi⟩, hnone]
    constructor
    · intro ho
      exact hnewC (fun j hj hnej => absurd hnej (ho j hj))
    · intro ho
      exact absurd hne (ho q (List.mem_append_right _ hq))
  · by_cases hlt : ManhattanDistance (pt P i) (pt P q) < ManhattanDistance (pt P i) (pt P cur)
    · have hrep : shouldReplace P nb i q = true := by
        unfold shouldReplace
        simp only [hcur]
        simp [hne.2.1, hne.2.2, hlt]
      rw [if_pos hrep, getD_set_eq, if_pos ⟨rfl, hi⟩, hcur]
      constructor
      · rintro ⟨_, _, h3⟩
        exact hnewC (fun j hj hnej => le_trans (Int.le_of_lt hlt) (h3 j hj hnej))
      · rintro ⟨_, _, h3⟩
        have := h3 q (List.mem_append_right _ hq) hne
        omega
    · have hrep : ¬ shouldReplace P nb i q = true := by
        unfold shouldReplace
        simp only [hcur]
        simp [hlt]
      rw [if_neg hrep, hcur]
      constructor
      · rintro ⟨h1, h2, h3⟩
        refine ⟨List.mem_append_left _ h1, h2, ?_⟩
        intro j hj hnej
        rcases List.mem_append.mp hj with hj | hj
        · exact h3 j hj hnej
        · exact le_trans (Int.not_lt.mp hlt) (hmin j hj hnej)
      · exact fun ho => ho

theorem applyOffers_length (P : List Point2D) (offs : List (Nat × Nat)) :
    ∀ nb : List (Option Nat), (applyOffers P nb offs).length = nb.length := by
  induction offs with
  | nil =>
    intro nb
    rfl
  | cons o offs ih =>
    intro nb
    show (applyOffers P (UpdateNeighbour P nb o.1 (some o.2)) offs).length = nb.length
    rw [ih, length_UpdateNeighbour]

theorem applyOffers_frame (P : List Point2D) (i : Nat) (offs : List (Nat × Nat)) :
    ∀ nb : List (Option Nat), (∀ o ∈ offs, o.1 ≠ i) →
      (applyOffers P nb offs).getD i none = nb.getD i none := by
  induction offs with
  | nil =>
    intro nb _
    rfl
  | cons o offs ih =>
    intro nb h
    show (applyOffers P (UpdateNeighbour P nb o.1 (some o.2)) offs).getD i none = nb.getD i none
    rw [ih _ (fun o' ho' => h o' (List.mem_cons_of_mem _ ho')),
      UpdateNeighbour_frame P nb o.1 (some o.2) i (h o (List.mem_cons_self _ _)).symm]

theorem applyOffers_optimal (P : List Point2D) (C R : List Nat) (i : Nat)
    (offs : List (Nat × Nat)) :
    ∀ nb : List (Option Nat), i < nb.length →
      (∀ o ∈ offs, o.1 = i → o.2 ∈ R ∧ IsNE P i o.2
        ∧ ∀ j ∈ R, IsNE P i j →
            ManhattanDistance (pt P i) (pt P o.2) ≤ ManhattanDistance (pt P i) (pt P j)) →
      (Optimal P (C ++ R) i (nb.getD i none) →
        Optimal P (C ++ R) i ((applyOffers P nb offs).getD i none))
      ∧ (Optimal P C i (nb.getD i none) → (∃ o ∈ offs, o.1 = i) →
        Optimal P (C ++ R) i ((applyOffers P nb offs).getD i none)) := by
  induction offs with
  | nil =>
    intro nb _ _
    refine ⟨fun h => h, ?_⟩
    rintro _ ⟨o, ho, _⟩
    cases ho
  | cons o offs ih =>
    intro nb hi hgood
    have hlen : i < (UpdateNeighbour P nb o.1 (some o.2)).length := by
      rw [length_UpdateNeighbour]
      exact hi
    obtain ⟨ih1, ih2⟩ := ih (UpdateNeighbour P nb o.1 (some o.2)) hlen
      (fun o' ho' => hgood o' (List.mem_cons_of_mem _ ho'))
    by_cases hoi : o.1 = i
    · obtain ⟨g1, g2, g3⟩ := hgood o (List.mem_cons_self _ _) hoi
      obtain ⟨u1, u2⟩ := Optimal_update P C R nb i o.2 hi g1 g2 g3
      rw [← hoi] at u1 u2 ih1 ih2
      rw [← hoi]
      constructor
      · intro h
        exact ih1 (u2 h)
      · intro h _
        exact ih1 (u1 h)
    · have hfr := UpdateNeighbour_frame P nb o.1 (some o.2) i (fun h => hoi h.symm)
      rw [hfr] at ih1 ih2
      constructor
      · exact ih1
      · rintro h ⟨o', ho', hoe⟩
        rcases List.mem_cons.mp ho' with rfl | ho'
        · exact absurd hoe hoi
        · exact ih2 h ⟨o', ho', hoe⟩

theorem GoodOffer_minimal (P : List Point2D) (L R : List Nat) (p c : Nat) (hp : p ∈ L)
    (hX : ∀ p ∈ L, ∀ q ∈ R, (pt P p).x ≤ (pt P q).x) (hdisj : ∀ p ∈ L, p ∉ R)
    (h : GoodOffer P R p c) :
    c ∈ R ∧ IsNE P p c
    ∧ ∀ j ∈ R, IsNE P p j →
        ManhattanDistance (pt P p) (pt P c) ≤ ManhattanDistance (pt P p) (pt P j) := by
  obtain ⟨h1, h2, h3⟩ := h
  refine ⟨h1, ⟨fun hc => hdisj p hp (hc ▸ h1), hX p hp c h1, h2⟩, ?_⟩
  intro j hj hne
  rw [ManhattanDistance_NE _ _ (hX p hp c h1) h2, ManhattanDistance_NE _ _ (hX p hp j hj) hne.2.2]
  have := h3 j hj hne.2.2
  omega

/-- The table after the sweep: the entries of the left-half points are right for the
  candidates of both halves, the other entries are as before. -/
theorem sweep_optimal (P : List Point2D) (L R C : List Nat) (hL : SortedByY P L)
    (hR : SortedByY P R) (hX : ∀ p ∈ L, ∀ q ∈ R, (pt P p).x ≤ (pt P q).x) (hRne : R ≠ [])
    (hdisj : ∀ p ∈ L, p ∉ R) (nb : List (Option Nat)) (hlen : ∀ p ∈ L, p < nb.length)
    (hopt : ∀ p ∈ L, Optimal P C p (nb.getD p none)) :
    (sweep P L R nb).length = nb.length
    ∧ (∀ i, i ∉ L → (sweep P L R nb).getD i none = nb.getD i none)
    ∧ ∀ p ∈ L, Optimal P (C ++ R) p ((sweep P L R nb).getD p none) := by
  obtain ⟨hgood, hall⟩ := sweepOffers_spec P L R hL hR hX hRne
  rw [sweep_offers]
  refine ⟨applyOffers_length P _ nb, ?_, ?_⟩
  · intro i hi
    apply applyOffers_frame
    intro o ho hoi
    exact hi (hoi ▸ (hgood o ho).1)
  · intro p hp
    by_cases hoff : ∃ o ∈ sweepOffers P L R, o.1 = p
    · refine (applyOffers_optimal P C R p (sweepOffers P L R) nb (hlen p hp) ?_).2
        (hopt p hp) hoff
      intro o ho hoe
      have := GoodOffer_minimal P L R o.1 o.2 (hgood o ho).1 hX hdisj (hgood o ho).2
      rw [hoe] at this
      exact this
    · rw [applyOffers_frame P p _ nb (fun o ho hoe => hoff ⟨o, ho, hoe⟩)]
      apply Optimal_extend P C R p _ (hopt p hp)
      intro j hj hne
      exact hoff (hall p hp ⟨j, hj, hne.2.2⟩)

/-! ## The base case records a nearest candidate -/

theorem map_getD_range (A seg B : List Nat) (l r : Nat) (hA : A.length = l)
    (hr : l + seg.length = r) :
    (List.range' l (r - l)).map (fun j => (A ++ seg ++ B).getD j 0) = seg := by
  apply List.ext_getElem
  · rw [List.length_map, List.length_range']
    omega
  · intro k h1 h2
    rw [List.getElem_map, List.getElem_range']
    have h3 : (A ++ seg ++ B).getD (l + 1 * k) 0 = seg.getD k 0 := by
      simp only [List.getD_eq_getElem?_getD]
      rw [List.append_assoc, List.getElem?_append_right (by omega), hA,
        List.getElem?_append_left (by omega)]
      congr 2
      omega
    rw [h3, List.getD_eq_getElem seg 0 h2]

theorem baseScan_fold (P : List Point2D) (points : List Nat) (i : Nat) (l : List Nat) :
    ∀ (S : List Nat) (acc : Int × Option Nat),
      (∀ j ∈ l, ManhattanDistance (pt P (points.getD i 0)) (pt P (points.getD j 0)) < DBL_MAX) →
      Optimal P S (points.getD i 0) acc.2 →
      (acc.2 = none → acc.1 = DBL_MAX) →
      (∀ c, acc.2 = some c →
        acc.1 = ManhattanDistance (pt P (points.getD i 0)) (pt P c)) →
      Optimal P (S ++ l.map (fun j => points.getD j 0)) (points.getD i 0)
        (l.foldl (baseStep P points i) acc).2 := by
  induction l with
  | nil =>
    intro S acc _ h _ _
    simpa using h
  | cons j l ih =>
    intro S acc hd hopt hnone hsome
    rw [List.foldl_cons, List.map_cons]
    have hassoc : S ++ points.getD j 0 :: l.map (fun j => points.getD j 0)
        = (S ++ [points.getD j 0]) ++ l.map (fun j => points.getD j 0) := by
      rw [List.append_assoc, List.singleton_append]
    rw [hassoc]
    have hd' : ∀ j' ∈ l,
        ManhattanDistance (pt P (points.getD i 0)) (pt P (points.getD j' 0)) < DBL_MAX :=
      fun j' hj' => hd j' (List.mem_cons_of_mem _ hj')
    have hdj := hd j (List.mem_cons_self _ _)
    unfold baseStep
    split
    · rename_i hskip
      apply ih _ acc hd' _ hnone hsome
      apply Optimal_extend P S _ _ _ hopt
      intro c hc hne
      rw [List.mem_singleton] at hc
      subst hc
      rcases hskip with h | h | h
      · exact hne.1 h.symm
      · have := hne.2.1
        omega
      · have := hne.2.2
        omega
    · rename_i hskip
      have hne : IsNE P (points.getD i 0) (points.getD j 0) := by
        refine ⟨fun h => hskip (Or.inl h.symm), ?_, ?_⟩
        · by_contra hx
          exact hskip (Or.inr (Or.inl (by omega)))
        · by_contra hy
          exact hskip (Or.inr (Or.inr (by omega)))
      simp only
      split
      · rename_i hlt
        apply ih _ _ hd' _ (fun h => by cases h) (fun c hc => by
          simp only [Option.some.injEq] at hc
          rw [← hc])
        refine ⟨List.mem_append_right _ (List.mem_singleton_self _), hne, ?_⟩
        intro c hc hnec
        rcases List.mem_append.mp hc with hc | hc
        · cases hacc : acc.2 with
          | none =>
            rw [hacc] at hopt
            exact absurd hnec (hopt c hc)
          | some cur =>
            rw [hacc] at hopt
            have h1 := hopt.2.2 c hc hnec
            have h2 := hsome cur hacc
            omega
        · rw [List.mem_singleton] at hc
          rw [hc]
      · rename_i hlt
        apply ih _ acc hd' _ hnone hsome
        cases hacc : acc.2 with
        | none =>
          have := hnone hacc
          omega
        | some cur =>
          rw [hacc] at hopt
          obtain ⟨h1, h2, h3⟩ := hopt
          refine ⟨List.mem_append_left _ h1, h2, ?_⟩
          intro c hc hnec
          rcases List.mem_append.mp hc with hc | hc
          · exact h3 c hc hnec
          · rw [List.mem_singleton] at hc
            rw [hc]
            have := hsome cur hacc
            omega

theorem baseBody_fold (P : List Point2D) (points : List Nat) (l r : Nat) (S : List Nat)
    (ps : List Nat) :
    ∀ nb : List (Option Nat), (ps.map (fun i => points.getD i 0)).Nodup →
      (∀ i ∈ ps, Optimal P S (points.getD i 0) (baseScan P points l r i).2) →
      (ps.foldl (baseBody P points l r) nb).length = nb.length
      ∧ (∀ x, x ∉ ps.map (fun i => points.getD i 0) →
          (ps.foldl (baseBody P points l r) nb).getD x none = nb.getD x none)
      ∧ ∀ x ∈ ps.map (fun i => points.getD i 0), x < nb.length → nb.getD x none = none →
          Optimal P S x ((ps.foldl (baseBody P points l r) nb).getD x none) := by
  induction ps with
  | nil =>
    intro nb _ _
    refine ⟨rfl, fun _ _ => rfl, ?_⟩
    intro x hx
    cases hx
  | cons i ps ih =>
    intro nb hnd hscan
    rw [List.map_cons, List.nodup_cons] at hnd
    rw [List.foldl_cons]
    obtain ⟨ih1, ih2, ih3⟩ := ih (baseBody P points l r nb i) hnd.2
      (fun i' hi' => hscan i' (List.mem_cons_of_mem _ hi'))
    have hlen1 : (baseBody P points l r nb i).length = nb.length := by
      unfold baseBody
      exact length_UpdateNeighbour _ _ _ _
    have hframe1 : ∀ x, x ≠ points.getD i 0 →
        (baseBody P points l r nb i).getD x none = nb.getD x none := by
      intro x hx
      unfold baseBody
      exact UpdateNeighbour_frame P nb _ _ x hx
    refine ⟨by rw [ih1, hlen1], ?_, ?_⟩
    · intro x hx
      rw [List.map_cons, List.mem_cons, not_or] at hx
      rw [ih2 x hx.2, hframe1 x hx.1]
    · intro x hx hxlen hxnone
      rw [List.map_cons, List.mem_cons] at hx
      by_cases hxi : x = points.getD i 0
      · subst hxi
        rw [ih2 _ hnd.1]
        have hopt := hscan i (List.mem_cons_self _ _)
        unfold baseBody
        cases hsc : (baseScan P points l r i).2 with
        | none =>
          rw [hsc] at hopt
          show Optimal P S _ (nb.getD _ none)
          rw [hxnone]
          exact hopt
        | some c =>
          rw [hsc] at hopt
          have hrep : shouldReplace P nb (points.getD i 0) c = true := by
            unfold shouldReplace
            rw [hxnone, Bool.and_eq_true]
            exact ⟨decide_eq_true ⟨hopt.2.1.2.1, hopt.2.1.2.2⟩, rfl⟩
          rw [UpdateNeighbour_rule, if_pos hrep, getD_set_eq, if_pos ⟨rfl, hxlen⟩]
          exact hopt
      · rcases hx with hx | hx
        · exact absurd hx hxi
        · apply ih3 x hx (by rw [hlen1]; exact hxlen)
          rw [hframe1 x hxi]
          exact hxnone

theorem baseCase_optimal (P : List Point2D) (A seg B : List Nat) (nb : List (Option Nat))
    (l r : Nat) (hA : A.length = l) (hr : l + seg.length = r) (hnd : seg.Nodup)
    (hd : ∀ a ∈ seg, ∀ b ∈ seg, ManhattanDistance (pt P a) (pt P b) < DBL_MAX)
    (hnb : ∀ i ∈ seg, i < nb.length ∧ nb.getD i none = none) :
    (baseCase P (A ++ seg ++ B) nb l r).2.length = nb.length
    ∧ (∀ i, i ∉ seg → (baseCase P (A ++ seg ++ B) nb l r).2.getD i none = nb.getD i none)
    ∧ ∀ i ∈ seg, Optimal P seg i ((baseCase P (A ++ seg ++ B) nb l r).2.getD i none) := by
  have hmap := map_getD_range A seg B l r hA hr
  have hscan : ∀ i ∈ List.range' l (r - l),
      Optimal P seg ((A ++ seg ++ B).getD i 0) (baseScan P (A ++ seg ++ B) l r i).2 := by
    intro i hi
    rw [List.mem_range'_1] at hi
    have hi' := getD_mid_mem A seg B l i hA hi.1 (by omega)
    have := baseScan_fold P (A ++ seg ++ B) i (List.range' l (r - l)) [] (DBL_MAX, none)
      (fun j hj => by
        rw [List.mem_range'_1] at hj
        exact hd _ hi' _ (getD_mid_mem A seg B l j hA hj.1 (by omega)))
      (fun j hj => by cases hj) (fun _ => rfl) (fun c hc => by cases hc)
    rw [hmap, List.nil_append] at this
    exact this
  obtain ⟨h1, h2, h3⟩ := baseBody_fold P (A ++ seg ++ B) l r seg (List.range' l (r - l)) nb
    (by rw [hmap]; exact hnd) hscan
  rw [hmap] at h2 h3
  simp only [baseCase]
  exact ⟨h1, h2, fun i hi => h3 i hi (hnb i hi).1 (hnb i hi).2⟩

theorem lessX_nodup (P : List Point2D) (seg : List Nat) (h : seg.Pairwise (lessX P)) :
    seg.Nodup := by
  unfold List.Nodup
  refine List.Pairwise.imp ?_ h
  intro a b hab heq
  unfold lessX at hab
  rw [heq] at hab
  omega

/-! ## FindNENeighbours on a range sorted by strictly increasing x -/

theorem FindNENeighbours_optimal (P : List Point2D) (n : Nat) :
    ∀ (A seg B : List Nat) (nb : List (Option Nat)) (l r : Nat),
      seg.length = n → A.length = l → l + seg.length = r →
      seg.Pairwise (lessX P) →
      (∀ a ∈ seg, ∀ b ∈ seg, ManhattanDistance (pt P a) (pt P b) < DBL_MAX) →
      (∀ i ∈ seg, i < nb.length ∧ nb.getD i none = none) →
      ∃ seg' nb', FindNENeighbours P (A ++ seg ++ B, nb) l r = (A ++ seg' ++ B, nb')
        ∧ seg'.Perm seg ∧ SortedByY P seg'
        ∧ nb'.length = nb.length
        ∧ (∀ i, i ∉ seg → nb'.getD i none = nb.getD i none)
        ∧ (∀ i ∈ seg, Optimal P seg i (nb'.getD i none))
        ∧ (¬ r - l < kMaxSize →
            SortedByY P (getRange (FindNENeighbours P
              (FindNENeighbours P (A ++ seg ++ B, nb) l (l + (r - l) / 2))
              (l + (r - l) / 2) r).1 l (l + (r - l) / 2))
            ∧ SortedByY P (getRange (FindNENeighbours P
              (FindNENeighbours P (A ++ seg ++ B, nb) l (l + (r - l) / 2))
              (l + (r - l) / 2) r).1 (l + (r - l) / 2) r)
            ∧ getRange (FindNENeighbours P
              (FindNENeighbours P (A ++ seg ++ B, nb) l (l + (r - l) / 2))
              (l + (r - l) / 2) r).1 (l + (r - l) / 2) r ≠ []
            ∧ (∀ p ∈ getRange (FindNENeighbours P
                (FindNENeighbours P (A ++ seg ++ B, nb) l (l + (r - l) / 2))
                (l + (r - l) / 2) r).1 l (l + (r - l) / 2),
              ∀ q ∈ getRange (FindNENeighbours P
                (FindNENeighbours P (A ++ seg ++ B, nb) l (l + (r - l) / 2))
                (l + (r - l) / 2) r).1 (l + (r - l) / 2) r,
              (pt P p).x ≤ (pt P q).x)
            ∧ nb' = sweep P
                (getRange (FindNENeighbours P
                  (FindNENeighbours P (A ++ seg ++ B, nb) l (l + (r - l) / 2))
                  (l + (r - l) / 2) r).1 l (l + (r - l) / 2))
                (getRange (FindNENeighbours P
                  (FindNENeighbours P (A ++ seg ++ B, nb) l (l + (r - l) / 2))
                  (l + (r - l) / 2) r).1 (l + (r - l) / 2) r)
                (FindNENeighbours P
                  (FindNENeighbours P (A ++ seg ++ B, nb) l (l + (r - l) / 2))
                  (l + (r - l) / 2) r).2) := by
  induction n using Nat.strong_induction_on with
  | _ n ih =>
    intro A seg B nb l r hn hA hr hx hd hnb
    have hrl : r - l = seg.length := by omega
    have hnd : seg.Nodup := lessX_nodup P seg hx
    rw [FindNENeighbours_eq P (A ++ seg ++ B, nb) l r]
    by_cases hb : r - l < kMaxSize
    · rw [if_pos hb]
      obtain ⟨h1, _⟩ := baseCase_struct P (fun _ => True) A seg B nb l r hA hr
        (fun _ _ _ _ _ _ _ => trivial) trivial
      obtain ⟨t1, t2, t3⟩ := baseCase_optimal P A seg B nb l r hA hr hnd hd hnb
      exact ⟨stdSort (lessY P) seg, _, Prod.ext h1 rfl, stdSort_perm _ _,
        stdSort_sorted P seg, t1, t2, t3, fun h => absurd hb h⟩
    · rw [if_neg hb]
      have h5 : ¬ r - l < 5 := hb
      obtain ⟨k, hk⟩ : ∃ k, k = (r - l) / 2 := ⟨_, rfl⟩
      rw [← hk]
      have hk1 : k ≤ seg.length := by omega
      have hlen1 : (seg.take k).length = k := by rw [List.length_take]; omega
      have hlen2 : (seg.drop k).length = seg.length - k := List.length_drop _ _
      have hsplit : seg.take k ++ seg.drop k = seg := List.take_append_drop k seg
      have hx' : (seg.take k ++ seg.drop k).Pairwise (lessX P) := by rw [hsplit]; exact hx
      obtain ⟨hx1, hx2, hx12⟩ := List.pairwise_append.mp hx'
      have hnd' : (seg.take k ++ seg.drop k).Nodup := by rw [hsplit]; exact hnd
      have hdisj : ∀ a ∈ seg.take k, a ∉ seg.drop k :=
        fun a ha hb' => List.disjoint_of_nodup_append hnd' ha hb'
      have hmem : ∀ j, j ∈ seg ↔ j ∈ seg.take k ∨ j ∈ seg.drop k := by
        intro j
        rw [← List.mem_append, hsplit]
      -- the first recursive call
      have e0 : A ++ seg ++ B = A ++ seg.take k ++ (seg.drop k ++ B) := by
        conv_lhs => rw [← hsplit]
        simp only [List.append_assoc]
      obtain ⟨s1, nb1, e1, p1, y1, a1, b1, c1, _⟩ := ih k (by omega) A (seg.take k)
        (seg.drop k ++ B) nb l (l + k) hlen1 hA (by omega) hx1
        (fun a ha b hb' => hd a (List.mem_of_mem_take ha) b (List.mem_of_mem_take hb'))
        (fun i hi => hnb i (List.mem_of_mem_take hi))
      rw [e0, e1]
      -- the second recursive call
      have e0' : A ++ s1 ++ (seg.drop k ++ B) = (A ++ s1) ++ seg.drop k ++ B := by
        rw [List.append_assoc (A ++ s1)]
      have hs1 : s1.length = k := by rw [p1.length_eq, hlen1]
      obtain ⟨s2, nb2, e2, p2, y2, a2, b2, c2, _⟩ := ih (seg.length - k) (by omega) (A ++ s1)
        (seg.drop k) B nb1 (l + k) r hlen2 (by rw [List.length_append]; omega) (by omega) hx2
        (fun a ha b hb' => hd a (List.mem_of_mem_drop ha) b (List.mem_of_mem_drop hb'))
        (fun i hi => by
          have hi1 : i ∉ seg.take k := fun h => hdisj i h hi
          rw [a1, b1 i hi1]
          exact hnb i (List.mem_of_mem_drop hi))
      rw [e0', e2]
      have hs2 : s2.length = seg.length - k := by rw [p2.length_eq, hlen2]
      -- the sweep and the merge
      have eL : getRange (A ++ s1 ++ s2 ++ B) l (l + k) = s1 := by
        rw [List.append_assoc (A ++ s1)]
        exact getRange_mid A s1 (s2 ++ B) l (l + k) hA (by omega)
      have eR : getRange (A ++ s1 ++ s2 ++ B) (l + k) r = s2 :=
        getRange_mid (A ++ s1) s2 B (l + k) r (by rw [List.length_append]; omega) (by omega)
      have eP : ∀ X, putRange (A ++ s1 ++ s2 ++ B) l r X = A ++ X ++ B := by
        intro X
        rw [List.append_assoc A s1 s2]
        exact putRange_mid A (s1 ++ s2) B X l r hA (by rw [List.length_append]; omega)
      have hperm : (s1 ++ s2).Perm seg := by
        have := List.Perm.append p1 p2
        rwa [hsplit] at this
      have hs2ne : s2 ≠ [] := by
        intro hnil
        rw [hnil, List.length_nil] at hs2
        omega
      obtain ⟨w1, w2, w3⟩ := sweep_optimal P s1 s2 (seg.take k) y1 y2
        (fun p hp q hq => Int.le_of_lt (hx12 p (p1.subset hp) q (p2.subset hq))) hs2ne
        (fun p hp hq => hdisj p (p1.subset hp) (p2.subset hq)) nb2
        (fun p hp => by
          rw [a2, a1]
          exact (hnb p (List.mem_of_mem_take (p1.subset hp))).1)
        (fun p hp => by
          rw [b2 p (fun h => hdisj p (p1.subset hp) h)]
          exact c1 p (p1.subset hp))
      have hxLR : ∀ p ∈ s1, ∀ q ∈ s2, (pt P p).x ≤ (pt P q).x :=
        fun p hp q hq => Int.le_of_lt (hx12 p (p1.subset hp) q (p2.subset hq))
      simp only
      rw [eL, eR]
      refine ⟨Merge P s1 s2, sweep P s1 s2 nb2, ?_, (Merge_perm P s1 s2).trans hperm,
        Merge_sorted P s1 s2 y1 y2, by rw [w1, a2, a1], ?_, ?_,
        fun _ => ⟨y1, y2, hs2ne, hxLR, rfl⟩⟩
      · simp only [combine]
        rw [← hk, eL, eR, eP]
      · intro i hi
        have hi1 : i ∉ seg.take k := fun h => hi ((hmem i).mpr (Or.inl h))
        have hi2 : i ∉ seg.drop k := fun h => hi ((hmem i).mpr (Or.inr h))
        rw [w2 i (fun h => hi1 (p1.subset h)), b2 i hi2, b1 i hi1]
      · intro i hi
        rcases (hmem i).mp hi with hi1 | hi2
        · apply Optimal_congr P (seg.take k ++ s2) seg i _ _ (w3 i (p1.mem_iff.mpr hi1))
          intro j
          rw [List.mem_append, p2.mem_iff, hmem j]
        · have hi1 : i ∉ s1 := fun h => hdisj i (p1.subset h) hi2
          rw [w2 i hi1]
          apply Optimal_congr P (seg.drop k ++ seg.take k) seg i _ _
            (Optimal_extend P _ _ i _ (c2 i hi2) ?_)
          · intro j
            rw [List.mem_append, hmem j, or_comm]
          · intro j hj hne
            have hlt : (pt P j).x < (pt P i).x := hx12 j hj i hi2
            have := hne.2.1
            omega

/-! ## The sort by x of points of pairwise distinct x -/

theorem sortInsert_sortedX (P : List Point2D) (a : Nat) (l : List Nat)
    (h : l.Pairwise (fun a b => (pt P a).x ≤ (pt P b).x)) :
    (sortInsert (lessX P) a l).Pairwise (fun a b => (pt P a).x ≤ (pt P b).x) := by
  induction l with
  | nil => exact List.pairwise_singleton _ _
  | cons b l ih =>
    rw [List.pairwise_cons] at h
    unfold sortInsert
    split
    · rename_i hab
      have hab' : (pt P a).x < (pt P b).x := hab
      refine List.pairwise_cons.mpr ⟨?_, List.pairwise_cons.mpr h⟩
      intro c hc
      rcases List.mem_cons.mp hc with rfl | hc
      · exact Int.le_of_lt hab'
      · exact Int.le_trans (Int.le_of_lt hab') (h.1 c hc)
    · rename_i hab
      have hab' : ¬ (pt P a).x < (pt P b).x := hab
      refine List.pairwise_cons.mpr ⟨?_, ih h.2⟩
      intro c hc
      rcases List.mem_cons.mp ((sortInsert_perm (lessX P) a l).subset hc) with rfl | hc
      · exact Int.not_lt.mp hab'
      · exact h.1 c hc

theorem sortedIndices_strict (P : List Point2D)
    (hx : ∀ i, i < P.length → ∀ j, j < P.length → i ≠ j → (pt P i).x ≠ (pt P j).x) :
    (sortedIndices P).Pairwise (lessX P) := by
  have hsorted : (sortedIndices P).Pairwise (fun a b => (pt P a).x ≤ (pt P b).x) := by
    unfold sortedIndices stdSort
    refine foldl_invariant (fun acc a => sortInsert (lessX P) a acc)
      (fun l => l.Pairwise (fun a b => (pt P a).x ≤ (pt P b).x)) _ [] ?_ List.Pairwise.nil
    intro b a _ hb
    exact sortInsert_sortedX P a b hb
  have hnd : (sortedIndices P).Nodup :=
    (sortedIndices_perm P).nodup_iff.mpr (List.nodup_range _)
  refine List.Pairwise.imp_of_mem ?_ (hsorted.and hnd)
  intro a b ha hb hab
  have ha' := List.mem_range.mp ((sortedIndices_perm P).subset ha)
  have hb' := List.mem_range.mp ((sortedIndices_perm P).subset hb)
  have := hx a ha' b hb' hab.2
  unfold lessX
  have := hab.1
  omega

/-! ## Coordinates on which the double arithmetic is exact -/

theorem pt_exact (P : List Point2D) (h : ExactCoords P) (i : Nat) :
    -(2 ^ 51) ≤ (pt P i).x ∧ (pt P i).x ≤ 2 ^ 51
    ∧ -(2 ^ 51) ≤ (pt P i).y ∧ (pt P i).y ≤ 2 ^ 51 := by
  by_cases hi : i < P.length
  · exact h _ (by unfold pt; exact getD_mem P i default hi)
  · have : pt P i = default := by
      unfold pt
      exact List.getD_eq_default _ _ (Nat.le_of_not_lt hi)
    rw [this]
    decide

theorem ManhattanDistance_exact (P : List Point2D) (h : ExactCoords P) (i j : Nat) :
    fabs ((pt P i).x - (pt P j).x) ≤ 2 ^ 52 ∧ fabs ((pt P i).y - (pt P j).y) ≤ 2 ^ 52
    ∧ 0 ≤ ManhattanDistance (pt P i) (pt P j)
    ∧ ManhattanDistance (pt P i) (pt P j) ≤ 2 ^ 53
    ∧ ManhattanDistance (pt P i) (pt P j) < DBL_MAX := by
  have hi := pt_exact P h i
  have hj := pt_exact P h j
  have hmax : (2 : Int) ^ 53 < DBL_MAX := by decide
  rw [ManhattanDistance_eq, fabs_eq_abs, fabs_eq_abs]
  have h1 : |(pt P i).x - (pt P j).x| ≤ 2 ^ 52 := by
    rw [abs_le]
    constructor <;> omega
  have h2 : |(pt P i).y - (pt P j).y| ≤ 2 ^ 52 := by
    rw [abs_le]
    constructor <;> omega
  have h3 := abs_nonneg ((pt P i).x - (pt P j).x)
  have h4 := abs_nonneg ((pt P i).y - (pt P j).y)
  refine ⟨h1, h2, by omega, by omega, by omega⟩

/-! ## Exact correctness of the sweep -/

set_option maxRecDepth 100000 in
/-- Claim C20 as stated fails: the points (0,0) and (DBL_MAX,0) have distinct x and integer
  coordinates, the index vector sorted by x is 0, 1, and the point 1 is weakly north-east
  of the point 0; but FindNENeighbours leaves the entry of point 0 at none, because the
  distance DBL_MAX is not below the initial `min_dist` of the scan of the base case. -/
theorem far_neighbour_not_recorded :
    (pt farPoints 0).x ≠ (pt farPoints 1).x
    ∧ sortedIndices farPoints = [0, 1]
    ∧ IsNE farPoints 0 1
    ∧ (FindNENeighbours farPoints (sortedIndices farPoints, List.replicate 2 none) 0 2).2.getD
        0 none = none :=
  ⟨by decide, by decide, ⟨by decide, by decide, by decide⟩, by decide⟩

/-- Claim C20, amended: for points with integer coordinates of absolute value at most 2^51
  (so that every value ManhattanDistance computes is an integer of at most 2^53, a double
  below the double maximum, and the double arithmetic of the source is exact) and an index
  vector that lists 0..n-1 by strictly increasing x (the sort by x of points of pairwise
  distinct x gives such a vector), after FindNENeighbours(points, 0, n)
  from a table of nones the entry of every point i is right: none when no other point is
  weakly north-east of i, otherwise a point weakly north-east of i at the least Manhattan
  distance among all such points. In the recursive case the table is the result of the
  sweep over the copies `left_points` and `right_points`, which are sorted by y, the second
  not empty, and no x of the first is above an x of the second. In the sweep over such a
  left half L and right half R the calls of UpdateNeighbour are those of `sweepOffers`;
  every call offers to a point p of L a point of R with y >= y_p that minimises x + y
  among the points of R with y >= y_p, and every point of L that has a point of R with
  y >= y_p gets such a call. -/
theorem staircase_sweep_exact (all_points : List Point2D) (points : List Nat)
    (hperm : points.Perm (List.range all_points.length))
    (hsorted : points.Pairwise (lessX all_points))
    (hexact : ExactCoords all_points) :
    (∀ i, i < all_points.length →
      ((∃ j, j < all_points.length ∧ IsNE all_points i j) →
        ∃ c, (FindNENeighbours all_points (points, List.replicate all_points.length none) 0
                all_points.length).2.getD i none = some c
          ∧ c < all_points.length ∧ IsNE all_points i c
          ∧ ∀ j, j < all_points.length → IsNE all_points i j →
              ManhattanDistance (pt all_points i) (pt all_points c)
                ≤ ManhattanDistance (pt all_points i) (pt all_points j))
      ∧ ((¬ ∃ j, j < all_points.length ∧ IsNE all_points i j) →
          (FindNENeighbours all_points (points, List.replicate all_points.length none) 0
            all_points.length).2.getD i none = none))
    ∧ ((∀ i, i < all_points.length → ∀ j, j < all_points.length → i ≠ j →
          (pt all_points i).x ≠ (pt all_points j).x) →
        (sortedIndices all_points).Perm (List.range all_points.length)
        ∧ (sortedIndices all_points).Pairwise (lessX all_points))
    ∧ (¬ all_points.length - 0 < kMaxSize →
        SortedByY all_points (left_points (afterHalves all_points
          (points, List.replicate all_points.length none) 0 all_points.length).1 0
          all_points.length)
        ∧ SortedByY all_points (right_points (afterHalves all_points
          (points, List.replicate all_points.length none) 0 all_points.length).1 0
          all_points.length)
        ∧ right_points (afterHalves all_points
          (points, List.replicate all_points.length none) 0 all_points.length).1 0
          all_points.length ≠ []
        ∧ (∀ p ∈ left_points (afterHalves all_points
            (points, List.replicate all_points.length none) 0 all_points.length).1 0
            all_points.length,
          ∀ q ∈ right_points (afterHalves all_points
            (points, List.replicate all_points.length none) 0 all_points.length).1 0
            all_points.length,
          (pt all_points p).x ≤ (pt all_points q).x)
        ∧ (FindNENeighbours all_points (points, List.replicate all_points.length none) 0
            all_points.length).2
          = sweep all_points
              (left_points (afterHalves all_points
                (points, List.replicate all_points.length none) 0 all_points.length).1 0
                all_points.length)
              (right_points (afterHalves all_points
                (points, List.replicate all_points.length none) 0 all_points.length).1 0
                all_points.length)
              (afterHalves all_points
                (points, List.replicate all_points.length none) 0 all_points.length).2)
    ∧ (∀ L R, SortedByY all_points L → SortedByY all_points R → R ≠ [] →
        (∀ p ∈ L, ∀ q ∈ R, (pt all_points p).x ≤ (pt all_points q).x) →
        (∀ nb, sweep all_points L R nb = applyOffers all_points nb (sweepOffers all_points L R))
        ∧ (∀ o ∈ sweepOffers all_points L R, o.1 ∈ L ∧ GoodOffer all_points R o.1 o.2)
        ∧ ∀ p ∈ L, (∃ q ∈ R, (pt all_points q).y ≥ (pt all_points p).y) →
            ∃ o ∈ sweepOffers all_points L R, o.1 = p)
    ∧ ∀ i j, fabs ((pt all_points i).x - (pt all_points j).x) ≤ 2 ^ 52
        ∧ fabs ((pt all_points i).y - (pt all_points j).y) ≤ 2 ^ 52
        ∧ 0 ≤ ManhattanDistance (pt all_points i) (pt all_points j)
        ∧ ManhattanDistance (pt all_points i) (pt all_points j) ≤ 2 ^ 53
        ∧ ManhattanDistance (pt all_points i) (pt all_points j) < DBL_MAX := by
  have hdist : ∀ i j, ManhattanDistance (pt all_points i) (pt all_points j) < DBL_MAX :=
    fun i j => (ManhattanDistance_exact all_points hexact i j).2.2.2.2
  have hmem : ∀ i, i ∈ points ↔ i < all_points.length := by
    intro i
    rw [hperm.mem_iff, List.mem_range]
  have hlen : points.length = all_points.length := by
    rw [hperm.length_eq, List.length_range]
  obtain ⟨seg', nb', e, _, _, _, _, hopt, hlink⟩ := FindNENeighbours_optimal all_points points.length
    [] points [] (List.replicate all_points.length none) 0 all_points.length rfl rfl
    (by rw [Nat.zero_add, hlen]) hsorted
    (fun a _ b _ => hdist a b)
    (fun i hi => by
      have := (hmem i).mp hi
      refine ⟨by rw [List.length_replicate]; exact this, ?_⟩
      simp only [List.getD_eq_getElem?_getD, List.getElem?_replicate]
      split <;> rfl)
  rw [List.nil_append, List.append_nil] at e hlink
  rw [e]
  refine ⟨?_, ?_, hlink, ?_, ManhattanDistance_exact all_points hexact⟩
  · intro i hi
    have ho := hopt i ((hmem i).mpr hi)
    constructor
    · rintro ⟨j, hj, hne⟩
      cases hres : nb'.getD i none with
      | none =>
        rw [hres] at ho
        exact absurd hne (ho j ((hmem j).mpr hj))
      | some c =>
        rw [hres] at ho
        exact ⟨c, rfl, (hmem c).mp ho.1, ho.2.1,
          fun j hj hne => ho.2.2 j ((hmem j).mpr hj) hne⟩
    · intro hno
      cases hres : nb'.getD i none with
      | none => rfl
      | some c =>
        rw [hres] at ho
        exact absurd ⟨c, (hmem c).mp ho.1, ho.2.1⟩ hno
  · intro hx
    exact ⟨sortedIndices_perm all_points, sortedIndices_strict all_points hx⟩
  · intro L R hL hR hRne hX
    obtain ⟨h1, h2⟩ := sweepOffers_spec all_points L R hL hR hX hRne
    exact ⟨fun nb => sweep_offers all_points L R nb, h1, h2⟩

set_option maxRecDepth 100000 in
/-- The recorded neighbours of six points of distinct x, and the calls of the sweep of the
  top-level call: the halves sorted by y are 0, 2, 1 and 4, 3, 5; the points (1,2) and
  (2,1) are offered (3,3), the point (0,0) is offered (4,0); the point (0,0) keeps its
  nearer neighbour (1,2) from the left half. -/
theorem staircase_sweep_exact_witness :
    (FindNENeighbours staircasePoints ([0, 1, 2, 3, 4, 5], List.replicate 6 none) 0 6).2
        = [some 1, some 3, some 3, some 5, some 5, none]
    ∧ sweepOffers staircasePoints [0, 2, 1] [4, 3, 5] = [(1, 3), (2, 3), (0, 4)]
    ∧ ∃ c, (FindNENeighbours staircasePoints ([0, 1, 2, 3, 4, 5], List.replicate 6 none) 0
              6).2.getD 0 none = some c
        ∧ c < 6 ∧ IsNE staircasePoints 0 c
        ∧ ∀ j, j < 6 → IsNE staircasePoints 0 j →
            ManhattanDistance (pt staircasePoints 0) (pt staircasePoints c)
              ≤ ManhattanDistance (pt staircasePoints 0) (pt staircasePoints j) :=
  ⟨by decide, by decide,
   ((staircase_sweep_exact staircasePoints [0, 1, 2, 3, 4, 5] (by decide) (by decide)
      (by unfold ExactCoords; decide)).1 0 (by decide)).1
      ⟨1, by decide, ⟨by decide, by decide, by decide⟩⟩⟩

/-! ## Degenerate inputs -/

set_option maxRecDepth 100000 in
/-- Claim C6, evaluated at its failing inputs. For one point p, whatever the angle
  increment and the rotation: every pass leaves the graph [[]], after the base case of
  FindNENeighbours has called UpdateNeighbour(0, -1) and read `all_points[-1]`; BuildGraph
  then stops on its assertion `g[i].size() > 0`, and so does ManhattanMST, which returns
  no tree. Prim on the same one-vertex graph, which is what BrutePrim runs, returns the
  single-node tree (parent of 0 is none) of weight 0, the result the claim describes. For
  no point, BuildGraph returns the empty graph and its assertion loop is empty; Prim then
  writes `dists[0]` and reads `g[0]` out of range, in ManhattanMST as in BrutePrim. -/
theorem degenerate_inputs_abort {A : Type} [Add A] [Zero A] (delta_angle : A)
    (rotate : A → Point2D → Point2D) (p : Point2D) (all_neighbours : List (Option Nat)) :
    (BuildGraphLoop delta_angle rotate [p] all_neighbours 16).g = [[]]
    ∧ (∀ q : Point2D, baseUpdateReads [q] [0] 0 1 = [0, -1])
    ∧ BuildGraph delta_angle rotate [p] all_neighbours = Outcome.assertFailed
    ∧ ManhattanMST delta_angle rotate [p] all_neighbours = Outcome.assertFailed
    ∧ Prim [[]] = Outcome.ok [none]
    ∧ BrutePrim [p] = Outcome.ok ([none], 0)
    ∧ (∃ st, BuildGraph delta_angle rotate [] all_neighbours = Outcome.ok st ∧ st.g = []
        ∧ st.all_points = [])
    ∧ Prim [] = Outcome.outOfRange
    ∧ ManhattanMST delta_angle rotate [] all_neighbours = Outcome.outOfRange
    ∧ BrutePrim [] = Outcome.outOfRange := by
  have hg := loop_one_point delta_angle rotate p all_neighbours 16
  have h0 := loop_no_point delta_angle rotate all_neighbours 16
  have hb : BuildGraph delta_angle rotate [p] all_neighbours = Outcome.assertFailed := by
    simp [BuildGraph, hg]
  have hb0 : BuildGraph delta_angle rotate [] all_neighbours
      = Outcome.ok (BuildGraphLoop delta_angle rotate [] all_neighbours 16) := by
    simp [BuildGraph, h0]
  have hprim1 : Prim [[]] = Outcome.ok [none] := by decide
  have hprim0 : Prim [] = Outcome.outOfRange := by decide
  have hbrute1 : bruteGraph [p] = [[]] := by
    simp [bruteGraph, bruteEdge, List.range, List.range.loop]
  refine ⟨hg, ?_, hb, ?_, hprim1, ?_, ⟨_, hb0, h0, BuildGraphLoop_all_points _ _ _ _ _⟩,
    hprim0, ?_, ?_⟩
  · intro q
    have hscan : (baseScan [q] [0] 0 1 0).2 = none := by
      simp [baseScan, baseStep, List.range']
    simp only [baseUpdateReads, Nat.sub_zero, List.range', List.foldl, hscan,
      UpdateNeighbourReads, List.nil_append]
    rfl
  · simp only [ManhattanMST, hb]
  · simp only [BrutePrim, hbrute1, hprim1]
    simp [GetTreeWeight, List.range, List.range.loop]
  · simp only [ManhattanMST, hb0, h0, hprim0]
  · have : bruteGraph [] = [] := by
      simp [bruteGraph, List.range, List.range.loop]
    simp only [BrutePrim, this, hprim0]

/-! ## The rotation schedule of BuildGraph -/

set_option maxRecDepth 100000 in
/-- The addition of doubles rounds to the nearest double, ties to even: `2^53 + 1` is
  `2^53`, `2^53 + 3` is `2^53 + 4`, and small sums are exact. -/
theorem Double_add_rounds :
    ((⟨9007199254740992, 0⟩ : Double) + ⟨1, 0⟩).toRat = 9007199254740992
    ∧ ((⟨9007199254740992, 0⟩ : Double) + ⟨3, 0⟩).toRat = 9007199254740996
    ∧ ((⟨3, -1⟩ : Double) + ⟨1, -2⟩).toRat = 7 / 4 := by
  have h1 : (⟨9007199254740992, 0⟩ : Double) + ⟨1, 0⟩ = ⟨4503599627370496, 1⟩ := by decide
  have h2 : (⟨9007199254740992, 0⟩ : Double) + ⟨3, 0⟩ = ⟨4503599627370498, 1⟩ := by decide
  have h3 : (⟨3, -1⟩ : Double) + ⟨1, -2⟩ = ⟨7, -2⟩ := by decide
  rw [h1, h2, h3]
  unfold Double.toRat
  norm_num

theorem BuildGraphLoop_passAngle (rot : Double → Point2D → Point2D) (P : List Point2D)
    (nb : List (Option Nat)) (k : Nat) :
    (BuildGraphLoop delta_angle rot P nb k).angle = passAngle k := by
  induction k with
  | zero => rfl
  | succ k ih => rw [BuildGraphLoop, BuildGraphPass_angle, ih, passAngle]

theorem toRat_units (a : Double) (h : -51 ≤ a.expo) :
    a.toRat = (a.units : ℚ) / 2 ^ 51 := by
  unfold Double.toRat Double.units
  obtain ⟨n, hn⟩ : ∃ n : Nat, a.expo + 51 = (n : Int) := ⟨(a.expo + 51).toNat, by omega⟩
  have he : a.expo = (n : Int) - 51 := by omega
  rw [hn, Int.toNat_ofNat, he]
  push_cast
  rw [zpow_sub₀ (by norm_num : (2 : ℚ) ≠ 0), zpow_natCast]
  norm_num
  ring

set_option maxRecDepth 100000 in
theorem passAngle_units :
    ∀ k, k ≤ 16 → -51 ≤ (passAngle k).expo
      ∧ (passAngle k).units - (k : Int) * 884279719003555 ≤ 4
      ∧ -4 ≤ (passAngle k).units - (k : Int) * 884279719003555 := by
  decide

set_option maxRecDepth 100000 in
theorem passAngle_units_exact :
    ∀ k, k ≤ 10 → (passAngle k).units = (k : Int) * 884279719003555 := by
  decide

theorem M_PI_toRat : M_PI.toRat = 884279719003555 / 2 ^ 48 := by
  unfold Double.toRat M_PI
  norm_num

theorem passAngle_toRat_exact (k : Nat) (hk : k ≤ 10) :
    (passAngle k).toRat = k * (M_PI.toRat / 8) := by
  rw [toRat_units _ (passAngle_units k (by omega)).1, passAngle_units_exact k hk, M_PI_toRat]
  push_cast
  ring

theorem passAngle_toRat_near (k : Nat) (hk : k ≤ 16) :
    |(passAngle k).toRat - k * (M_PI.toRat / 8)| ≤ 1 / 2 ^ 49 := by
  obtain ⟨h1, h2, h3⟩ := passAngle_units k hk
  rw [toRat_units _ h1, M_PI_toRat]
  have e : ((passAngle k).units : ℚ) / 2 ^ 51 - k * (884279719003555 / 2 ^ 48 / 8)
      = (((passAngle k).units - (k : Int) * 884279719003555 : Int) : ℚ) / 2 ^ 51 := by
    push_cast
    ring
  rw [e, abs_le]
  have h2' : (((passAngle k).units - (k : Int) * 884279719003555 : Int) : ℚ) ≤ 4 := by
    exact_mod_cast h2
  have h3' : (-4 : ℚ) ≤ (((passAngle k).units - (k : Int) * 884279719003555 : Int) : ℚ) := by
    exact_mod_cast h3
  constructor
  · rw [le_div_iff₀ (by norm_num)]
    norm_num
    linarith
  · rw [div_le_iff₀ (by norm_num)]
    norm_num
    linarith

theorem passAngle_near_pi (k : Nat) (hk : k ≤ 16) :
    |((passAngle k).toRat : ℝ) - k * (Real.pi / 8)| < 1 / 100000 := by
  have h1 := passAngle_toRat_near k hk
  have h1' : |((passAngle k).toRat : ℝ) - k * ((M_PI.toRat : ℝ) / 8)| ≤ 1 / 2 ^ 49 := by
    have h : ((|(passAngle k).toRat - k * (M_PI.toRat / 8)| : ℚ) : ℝ)
        ≤ ((1 / 2 ^ 49 : ℚ) : ℝ) := Rat.cast_le.mpr h1
    push_cast at h
    exact h
  have hM : (M_PI.toRat : ℝ) = 884279719003555 / 2 ^ 48 := by
    rw [M_PI_toRat]
    push_cast
    rfl
  rw [hM] at h1'
  have hp1 := Real.pi_gt_d6
  have hp2 := Real.pi_lt_d6
  have hk' : (k : ℝ) ≤ 16 := by exact_mod_cast hk
  have hk0 : (0 : ℝ) ≤ k := Nat.cast_nonneg k
  rw [abs_le] at h1'
  rw [abs_lt]
  constructor
  · nlinarith [h1'.1, h1'.2]
  · nlinarith [h1'.1, h1'.2]

/-- Claim C12 as stated fails: BuildGraph adds `delta_angle = M_PI / 8.0` to `angle` once
  per pass, so the angle of pass 1 is `M_PI / 8`, not `pi / 16`, and the angle of the last
  of the 16 passes is above 6 (it is the double sum of 16 copies of `M_PI / 8`, a full
  turn), not `pi`. The rotation is run with `cosl = 1`, `sinl = 0` and exact arithmetic on
  the four points of the scenario; the angle does not depend on them. -/
theorem rotation_schedule_not_half_turn :
    (((BuildGraphLoop delta_angle (rotatePoint (fun _ => 1) (fun _ => 0) (fun q => q)
        (fun q => ⌊q⌋)) scenarioPoints [] 1).angle.toRat : ℚ) : ℝ) ≠ 1 * (Real.pi / 16)
    ∧ (((BuildGraphLoop delta_angle (rotatePoint (fun _ => 1) (fun _ => 0) (fun q => q)
        (fun q => ⌊q⌋)) scenarioPoints [] 16).angle.toRat : ℚ) : ℝ) ≠ Real.pi
    ∧ (BuildGraphLoop delta_angle (rotatePoint (fun _ => 1) (fun _ => 0) (fun q => q)
        (fun q => ⌊q⌋)) scenarioPoints [] 1).angle.toRat = M_PI.toRat / 8
    ∧ 6 < (((BuildGraphLoop delta_angle (rotatePoint (fun _ => 1) (fun _ => 0) (fun q => q)
        (fun q => ⌊q⌋)) scenarioPoints [] 16).angle.toRat : ℚ) : ℝ) := by
  rw [BuildGraphLoop_passAngle, BuildGraphLoop_passAngle]
  have h1 := passAngle_near_pi 1 (by norm_num)
  have h16 := passAngle_near_pi 16 (by norm_num)
  have e1 := passAngle_toRat_exact 1 (by norm_num)
  have hp1 := Real.pi_gt_d6
  have hp2 := Real.pi_lt_d6
  rw [abs_lt] at h1 h16
  push_cast at h1 h16
  refine ⟨?_, ?_, ?_, ?_⟩
  · intro h
    rw [h] at h1
    linarith [h1.1, h1.2]
  · intro h
    rw [h] at h16
    linarith [h16.1, h16.2]
  · rw [e1]
    push_cast
    ring
  · linarith [h16.1, h16.2]

/-- Claim C12, amended: BuildGraph returns the state after exactly 16 passes (or stops on
  its assertion). In pass k (k = 1..16) every point (x, y) of the original, unrotated store
  is replaced by the stored values of `x * cosl(t) - y * sinl(t)` and
  `x * sinl(t) + y * cosl(t)`, computed in long double arithmetic, and the finder runs on
  that store; t is the value of `angle` in pass k, the double sum of k copies of
  `delta_angle = M_PI / 8.0`. It is `k * M_PI / 8` exactly for k <= 10, within `2 ^ (-49)`
  of it for every k <= 16, and within `10 ^ (-5)` of `k * pi / 8`: the 16 angles span a
  full turn and the last pass is rotated by `2 * pi` from the original. -/
theorem rotation_schedule (cosl sinl roundl : ℚ → ℚ) (toDouble : ℚ → Int)
    (all_points : List Point2D) (all_neighbours : List (Option Nat)) :
    (BuildGraph delta_angle (rotatePoint cosl sinl roundl toDouble) all_points all_neighbours
        = Outcome.ok (BuildGraphLoop delta_angle (rotatePoint cosl sinl roundl toDouble)
            all_points all_neighbours 16)
      ∨ BuildGraph delta_angle (rotatePoint cosl sinl roundl toDouble) all_points
          all_neighbours = Outcome.assertFailed)
    ∧ (∀ k, (BuildGraphLoop delta_angle (rotatePoint cosl sinl roundl toDouble) all_points
          all_neighbours k).angle = passAngle k)
    ∧ (∀ k, rotatedStore delta_angle (rotatePoint cosl sinl roundl toDouble)
          (BuildGraphLoop delta_angle (rotatePoint cosl sinl roundl toDouble) all_points
            all_neighbours k)
        = all_points.map (fun p =>
            { x := toDouble (roundl (roundl ((p.x : ℚ) * cosl (passAngle (k + 1)).toRat)
                  - roundl ((p.y : ℚ) * sinl (passAngle (k + 1)).toRat)))
              y := toDouble (roundl (roundl ((p.x : ℚ) * sinl (passAngle (k + 1)).toRat)
                  + roundl ((p.y : ℚ) * cosl (passAngle (k + 1)).toRat))) }))
    ∧ (∀ k, (BuildGraphLoop delta_angle (rotatePoint cosl sinl roundl toDouble) all_points
          all_neighbours (k + 1)).all_neighbours
        = (FindNENeighbours
            (rotatedStore delta_angle (rotatePoint cosl sinl roundl toDouble)
              (BuildGraphLoop delta_angle (rotatePoint cosl sinl roundl toDouble) all_points
                all_neighbours k))
            (sortedIndices (rotatedStore delta_angle (rotatePoint cosl sinl roundl toDouble)
              (BuildGraphLoop delta_angle (rotatePoint cosl sinl roundl toDouble) all_points
                all_neighbours k)),
             List.replicate (rotatedStore delta_angle
              (rotatePoint cosl sinl roundl toDouble)
              (BuildGraphLoop delta_angle (rotatePoint cosl sinl roundl toDouble) all_points
                all_neighbours k)).length none)
            0 (rotatedStore delta_angle (rotatePoint cosl sinl roundl toDouble)
              (BuildGraphLoop delta_angle (rotatePoint cosl sinl roundl toDouble) all_points
                all_neighbours k)).length).2)
    ∧ delta_angle.toRat = M_PI.toRat / 8
    ∧ (∀ k, k ≤ 10 → (passAngle k).toRat = k * (M_PI.toRat / 8))
    ∧ (∀ k, k ≤ 16 → |(passAngle k).toRat - k * (M_PI.toRat / 8)| ≤ 1 / 2 ^ 49)
    ∧ (∀ k, k ≤ 16 → |((passAngle k).toRat : ℝ) - k * (Real.pi / 8)| < 1 / 100000)
    ∧ |((passAngle 16).toRat : ℝ) - 2 * Real.pi| < 1 / 100000 := by
  refine ⟨BuildGraph_result _ _ _ _, fun k => BuildGraphLoop_passAngle _ _ _ k, ?_,
    fun k => ?_, ?_, passAngle_toRat_exact, passAngle_toRat_near, passAngle_near_pi, ?_⟩
  · intro k
    unfold rotatedStore
    rw [BuildGraphLoop_all_points, BuildGraphLoop_passAngle]
    rfl
  · rw [BuildGraphLoop, BuildGraphPass_finder]
  · have := passAngle_toRat_exact 1 (by norm_num)
    have e : passAngle 1 = delta_angle := by decide
    rw [e] at this
    rw [this]
    push_cast
    ring
  · have := passAngle_near_pi 16 (by norm_num)
    have e : ((16 : ℕ) : ℝ) * (Real.pi / 8) = 2 * Real.pi := by
      push_cast
      ring
    rw [e] at this
    exact this

end Mst
